import Mathlib

/-!
# Macro pad firmware (`src/firmware/main.cpp`): a shallow embedding

The globals of the sketch are the fields of `State`; every function of the
sketch that the properties below talk about is a Lean function on `State`,
named as in the source.

Integers.  The sketch targets an AVR microcontroller (`<avr/io.h>`,
`TIMER1_COMPA_vect`), where `int` has 16 bits and `long` has 32.  The fields of
a table entry are bounded by their types (`uint8_t`, `uint16_t`), a `uint8_t`
counter wraps modulo 256, and a `long` stored into an `int` is narrowed modulo
2^16 (`toInt16`).  A table code passed to the keyboard calls of the HID library
goes through the cast `(KeyboardKeycode)`, an 8-bit enum, and keeps its low
byte (`toKeyboardKeycode`); `ConsumerKeycode` has 16 bits and keeps the code.  The `long` step counters themselves are unbounded integers:
they move by single steps, and their overflow is undefined in C.

Traces.  Calls into the HID library, calls of `executeMapping` and writes of
an edge into `keyEvents` are recorded, in call order, in trace fields of the
state (`hid`, `calls`, `edgeLog`); bytes sent over the serial line are
appended to `serialOut`.
-/

namespace Firmware

/-! ## Constants (lines 13-28) -/

def NUM_KEYS : Nat := 8
def DEBOUNCE_TICKS : Nat := 5
def ENCODER_STEPS_PER_CLICK : Int := 4
def EEPROM_ADDR : Nat := 0
def EEPROM_MAGIC : Nat := 0xADF1
def MAX_COMBO_KEYS : Nat := 4
def NUM_ENCODER_MAPS : Nat := 5
def NUM_TOTAL_MAPS : Nat := NUM_KEYS + NUM_ENCODER_MAPS
def ENCODER_CW_INDEX : Nat := NUM_KEYS
def ENCODER_CCW_INDEX : Nat := NUM_KEYS + 1
def ENCODER_SW_INDEX : Nat := NUM_KEYS + 2
def ENCODER_SW_CW_INDEX : Nat := NUM_KEYS + 3
def ENCODER_SW_CCW_INDEX : Nat := NUM_KEYS + 4

/-! ## Data model (lines 30-53) -/

/-- The enumerators of `KeyType : uint8_t`.  A table entry stores the
underlying byte, because `SET_CONFIG` and `loadConfig` can store any byte. -/
def KeyType.NONE : Nat := 0
def KeyType.KEYBOARD : Nat := 1
def KeyType.CONSUMER : Nat := 2
def KeyType.COMMAND : Nat := 3

/-- One entry of the mapping table: `struct KeyMapping`, a `uint8_t` tag and
four `uint16_t` codes. -/
structure KeyMapping where
  type : Fin 256
  codes : Fin 4 → Fin 65536

/-- The entry `memset` leaves: tag `NONE`, all codes 0. -/
def KeyMapping.zero : KeyMapping := ⟨⟨0, by decide⟩, fun _ => ⟨0, by decide⟩⟩

/-- The tri-state event slot of a button: `enum KeyEventType`. -/
inductive KeyEventType where
  | EVENT_NONE
  | EVENT_PRESS
  | EVENT_RELEASE
  deriving DecidableEq, Repr

/-- A call into the HID library, as the dispatch engine makes it. -/
inductive HidCall where
  | keyboardPress (code : Nat)
  | keyboardRelease (code : Nat)
  | keyboardReleaseAll
  | consumerPress (code : Nat)
  | consumerRelease (code : Nat)
  | consumerWrite (code : Nat)
  deriving DecidableEq, Repr

/-- The globals of the sketch, the persistent storage and the output traces. -/
structure State where
  keyMap : Fin 13 → KeyMapping
  currentKeyStates : Fin 8 → Bool
  lastKeyStates : Fin 8 → Bool
  debounceCounters : Fin 8 → Nat
  currentEncoderSwState : Bool
  lastEncoderSwState : Bool
  encoderSwDebounceCounter : Nat
  encoderCount : Int
  encoderState : Nat
  lastProcessedEncoderCount : Int
  encoderCountAtSwPress : Int
  keyEvents : Fin 8 → KeyEventType
  encoderSwEvent : Bool
  uiNeedsUpdate : Bool
  /-- The C string held in `currentSongName` (the characters before its NUL). -/
  currentSongName : List Char
  isPlaying : Bool
  song_name_pixel_width : Int
  scroll_offset_x : Int
  currentPositionMs : Nat
  totalDurationMs : Nat
  lastInfoUpdateTimestamp : Nat
  lastPositionAtUpdate : Nat
  /-- EEPROM cells (bytes) by address. -/
  eeprom : Nat → Fin 256
  /-- The bytes waiting in the serial receive stream, next byte first. -/
  serialIn : List Char
  /-- Trace: the calls made into `Keyboard` / `Consumer`, oldest first. -/
  hid : List HidCall
  /-- Trace: the characters written to `Serial`, oldest first. -/
  serialOut : List Char
  /-- Trace: the edges the scanner has stored into `keyEvents` (line 289),
  oldest first, each with the index of its button. -/
  edgeLog : List (Fin 8 × KeyEventType)
  /-- Trace: the calls of `executeMapping` (index, `pressed`), oldest first. -/
  calls : List (Fin 13 × Bool)

/-- The values of the globals after static initialisation (lines 35-53) with a
given storage content. -/
def State.init (rom : Nat → Fin 256) : State where
  keyMap := fun _ => KeyMapping.zero
  currentKeyStates := fun _ => false
  lastKeyStates := fun _ => false
  debounceCounters := fun _ => 0
  currentEncoderSwState := false
  lastEncoderSwState := false
  encoderSwDebounceCounter := 0
  encoderCount := 0
  encoderState := 0
  lastProcessedEncoderCount := 0
  encoderCountAtSwPress := 0
  keyEvents := fun _ => KeyEventType.EVENT_NONE
  encoderSwEvent := false
  uiNeedsUpdate := true
  currentSongName := "Waiting for the beat...".toList
  isPlaying := false
  song_name_pixel_width := 0
  scroll_offset_x := 0
  currentPositionMs := 0
  totalDurationMs := 0
  lastInfoUpdateTimestamp := 0
  lastPositionAtUpdate := 0
  eeprom := rom
  serialIn := []
  hid := []
  serialOut := []
  edgeLog := []
  calls := []

/-- An erased EEPROM: every cell reads 0xFF. -/
def erasedRom : Nat → Fin 256 := fun _ => ⟨255, by decide⟩

/-- The globals at power-on with an erased EEPROM, before `setup` runs. -/
def powerOn : State := State.init erasedRom

/-! ## Debounced scanner (lines 281-323) -/

/-- What one timer tick samples: `digitalRead(pin) == LOW` for the eight key
pins and for the encoder switch pin. -/
structure Pins where
  keys : Fin 8 → Bool
  sw : Bool

/-- The edge stored for a committed level (line 289). -/
def edgeOf (reading : Bool) : KeyEventType :=
  if reading then KeyEventType.EVENT_PRESS else KeyEventType.EVENT_RELEASE

/-- Body of the loop of lines 282-295 for button `i`. -/
def scanKey (reading : Bool) (i : Fin 8) (s : State) : State :=
  if reading ≠ s.lastKeyStates i then
    let c := (s.debounceCounters i + 1) % 256
    if c ≥ DEBOUNCE_TICKS then
      { s with
        lastKeyStates := Function.update s.lastKeyStates i reading
        currentKeyStates := Function.update s.currentKeyStates i reading
        keyEvents := Function.update s.keyEvents i (edgeOf reading)
        debounceCounters := Function.update s.debounceCounters i 0
        edgeLog := s.edgeLog ++ [(i, edgeOf reading)] }
    else
      { s with debounceCounters := Function.update s.debounceCounters i c }
  else
    { s with debounceCounters := Function.update s.debounceCounters i 0 }

/-- Lines 297-322: the encoder switch, with the tap disambiguation. -/
def scanEncoderSw (swReading : Bool) (s : State) : State :=
  if swReading ≠ s.lastEncoderSwState then
    let c := (s.encoderSwDebounceCounter + 1) % 256
    if c ≥ DEBOUNCE_TICKS then
      let oldState := s.currentEncoderSwState
      let s1 := { s with lastEncoderSwState := swReading, currentEncoderSwState := swReading }
      let s2 :=
        if oldState ≠ s1.currentEncoderSwState then
          if s1.currentEncoderSwState then
            { s1 with encoderCountAtSwPress := s1.encoderCount }
          else
            let cntNow := s1.encoderCount
            if cntNow = s1.encoderCountAtSwPress then
              { s1 with encoderSwEvent := true }
            else s1
        else s1
      { s2 with encoderSwDebounceCounter := 0 }
    else
      { s with encoderSwDebounceCounter := c }
  else
    { s with encoderSwDebounceCounter := 0 }

/-- One timer tick: `scanKeysAndEncoder`. -/
def scanKeysAndEncoder (p : Pins) (s : State) : State :=
  scanEncoderSw p.sw ((List.finRange 8).foldl (fun st i => scanKey (p.keys i) i st) s)

/-- The state after the first `n` timer ticks, tick `t` sampling `pins t`. -/
def runScan (pins : Nat → Pins) : Nat → State → State
  | 0, s => s
  | n + 1, s => scanKeysAndEncoder (pins n) (runScan pins n s)

/-- The edges the scanner has stored for button `i`, oldest first. -/
def edgesOf (s : State) (i : Fin 8) : List KeyEventType :=
  (s.edgeLog.filter (fun e => e.1 = i)).map (fun e => e.2)

/-! ## Quadrature decoder (lines 89-98) -/

/-- The direction table of line 90. -/
def lookup_table : List Int := [0, -1, 1, 0, 1, 0, 0, -1, -1, 0, 0, 1, 0, 1, -1, 0]

/-- The 2-bit phase sampled from the two encoder pins (line 91); `true` is a
pin that reads 1. -/
def phaseOf (a b : Bool) : Nat := (a.toNat <<< 1) ||| b.toNat

/-- The pin-change interrupt handler `handleEncoderISR`, sampling phase pins
`a` and `b`.  The index is a `uint8_t`; a read past the table is taken as 0. -/
def handleEncoderISR (a b : Bool) (s : State) : State :=
  let currentState := phaseOf a b
  let index := ((s.encoderState <<< 2) ||| currentState) % 256
  let direction := lookup_table.getD index 0
  let s1 := if direction ≠ 0 then { s with encoderCount := s.encoderCount - direction } else s
  { s1 with encoderState := currentState }

/-- Feeds the decoder a list of sampled phases (pins `a`, `b`), first sample
first. -/
def runISR : List (Bool × Bool) → State → State
  | [], s => s
  | (a, b) :: rest, s => runISR rest (handleEncoderISR a b s)

/-! ## Dispatch engine (lines 325-399) -/

/-- The value an out-of-range quotient takes when stored into the 16-bit `int`
of the AVR target (two's complement narrowing). -/
def toInt16 (x : Int) : Int := (x + 32768) % 65536 - 32768

/-- The decimal digits `Print::printNumber` emits for `n`, most significant
first; `fuel` bounds the digit count (the library buffer holds 32). -/
def printNumberAux : Nat → Nat → List Char → List Char
  | 0, _, acc => acc
  | fuel + 1, n, acc =>
    let acc1 := Char.ofNat (48 + n % 10) :: acc
    if n / 10 = 0 then acc1 else printNumberAux fuel (n / 10) acc1

/-- What `Serial.print` writes for an unsigned number. -/
def printNumber (n : Nat) : List Char := printNumberAux 32 n []

/-- The cast `(KeyboardKeycode)code` of lines 382, 392 and 395.  In the HID
library `KeyboardKeycode` is an enum with underlying type `uint8_t`, so the
16-bit table code is narrowed to its low byte before `Keyboard.press` or
`Keyboard.release` sees it.  (`ConsumerKeycode` has underlying type
`uint16_t`: the cast of lines 379, 393 and 396 keeps the code.) -/
def toKeyboardKeycode (code : Nat) : Nat := code % 256

/-- The loop of lines 381-383: press every non-zero code, slot 0 first. -/
def tapPresses (m : KeyMapping) : List HidCall :=
  (List.finRange 4).filterMap
    (fun j => if (m.codes j).val ≠ 0
      then some (HidCall.keyboardPress (toKeyboardKeycode (m.codes j).val)) else none)

/-- The call one iteration of the loop of lines 389-398 makes for a non-zero
code, if any. -/
def heldCall (type : Nat) (pressed : Bool) (code : Nat) : Option HidCall :=
  if pressed then
    if type = KeyType.KEYBOARD then some (HidCall.keyboardPress (toKeyboardKeycode code))
    else if type = KeyType.CONSUMER then some (HidCall.consumerPress code)
    else none
  else
    if type = KeyType.KEYBOARD then some (HidCall.keyboardRelease (toKeyboardKeycode code))
    else if type = KeyType.CONSUMER then some (HidCall.consumerRelease code)
    else none

/-- The loop of lines 389-398. -/
def heldCalls (m : KeyMapping) (pressed : Bool) : List HidCall :=
  (List.finRange 4).filterMap
    (fun j => if (m.codes j).val = 0 then none
      else heldCall m.type.val pressed (m.codes j).val)

/-- The function `executeMapping(mapIndex, pressed)`.  The HID trace records the
argument each library call is given: the table code after the cast of the
call site. -/
def executeMapping (mapIndex : Fin 13) (pressed : Bool) (s0 : State) : State :=
  let s := { s0 with calls := s0.calls ++ [(mapIndex, pressed)] }
  let mapping := s.keyMap mapIndex
  if mapping.type.val = KeyType.NONE then s
  else if mapping.type.val = KeyType.COMMAND then
    if pressed then
      { s with serialOut := s.serialOut ++ "CMD:".toList ++ printNumber mapIndex.val ++ "\r\n".toList }
    else s
  else if ENCODER_CW_INDEX ≤ mapIndex.val ∧ mapIndex.val ≤ ENCODER_SW_CCW_INDEX then
    if mapping.type.val = KeyType.CONSUMER then
      if (mapping.codes 0).val ≠ 0 then
        { s with hid := s.hid ++ [HidCall.consumerWrite (mapping.codes 0).val] }
      else s
    else if mapping.type.val = KeyType.KEYBOARD then
      { s with hid := s.hid ++ tapPresses mapping ++ [HidCall.keyboardReleaseAll] }
    else s
  else
    { s with hid := s.hid ++ heldCalls mapping pressed }

/-- Body of the loop of lines 326-337 for button `i`: read and clear the slot,
then dispatch. -/
def processKeyEvent (i : Fin 8) (s : State) : State :=
  let event := s.keyEvents i
  let s1 := { s with keyEvents := Function.update s.keyEvents i KeyEventType.EVENT_NONE }
  if event = KeyEventType.EVENT_PRESS then executeMapping (Fin.castLE (by decide) i) true s1
  else if event = KeyEventType.EVENT_RELEASE then executeMapping (Fin.castLE (by decide) i) false s1
  else s1

/-- The loops of lines 355 and 360: `steps` taps on one index. -/
def repeatMapping (mapIndex : Fin 13) : Nat → State → State
  | 0, s => s
  | n + 1, s => repeatMapping mapIndex n (executeMapping mapIndex true s)

/-- Lines 326-337 of `processEvents`: the button slots, in index order. -/
def processKeys (s : State) : State :=
  (List.finRange 8).foldl (fun st i => processKeyEvent i st) s

/-- Lines 339-343 of `processEvents`: the switch tap. -/
def processSwTap (s : State) : State :=
  if s.encoderSwEvent then
    { executeMapping ⟨ENCODER_SW_INDEX, by decide⟩ false
        (executeMapping ⟨ENCODER_SW_INDEX, by decide⟩ true s) with encoderSwEvent := false }
  else s

/-- Lines 345-362 of `processEvents`: the detents.  `c`, `d` and the two
counters are `long`; `steps` is an `int`, which has 16 bits on the AVR
target, and so has the product `steps * ENCODER_STEPS_PER_CLICK`. -/
def processEncoder (s : State) : State :=
  let c := s.encoderCount
  let d := c - s.lastProcessedEncoderCount
  let isSwPressed := s.currentEncoderSwState
  if d ≥ ENCODER_STEPS_PER_CLICK then
    let steps := toInt16 (Int.tdiv d ENCODER_STEPS_PER_CLICK)
    let mapIndex : Fin 13 :=
      if isSwPressed then ⟨ENCODER_SW_CW_INDEX, by decide⟩ else ⟨ENCODER_CW_INDEX, by decide⟩
    let s3 := repeatMapping mapIndex steps.toNat s
    { s3 with lastProcessedEncoderCount :=
        s3.lastProcessedEncoderCount + toInt16 (steps * ENCODER_STEPS_PER_CLICK) }
  else if d ≤ -ENCODER_STEPS_PER_CLICK then
    let steps := toInt16 (Int.tdiv (-d) ENCODER_STEPS_PER_CLICK)
    let mapIndex : Fin 13 :=
      if isSwPressed then ⟨ENCODER_SW_CCW_INDEX, by decide⟩ else ⟨ENCODER_CCW_INDEX, by decide⟩
    let s3 := repeatMapping mapIndex steps.toNat s
    { s3 with lastProcessedEncoderCount :=
        s3.lastProcessedEncoderCount - toInt16 (steps * ENCODER_STEPS_PER_CLICK) }
  else s

/-- The function `processEvents`: one pass of the main loop over the event
slots, the switch-tap flag and the step accumulator. -/
def processEvents (s : State) : State :=
  processEncoder (processSwTap (processKeys s))

/-! ## Persistence (lines 489-503)

`EEPROM.put` / `EEPROM.get` copy the object representation of their argument
byte by byte.  On the AVR target a `uint16_t` is two bytes, low byte first, and
`struct KeyMapping` is 9 bytes without padding (tag, then four codes). -/

/-- Library call, not part of the sketch: `EEPROM.put(addr, v)` for a
`uint16_t v`. -/
def eepromPut16 (addr : Nat) (v : Nat) (rom : Nat → Fin 256) : Nat → Fin 256 :=
  fun a =>
    if a = addr then ⟨v % 256, Nat.mod_lt _ (by decide)⟩
    else if a = addr + 1 then ⟨v / 256 % 256, Nat.mod_lt _ (by decide)⟩
    else rom a

/-- Library call, not part of the sketch: `EEPROM.get(addr, v)` for a
`uint16_t v`. -/
def eepromGet16 (addr : Nat) (rom : Nat → Fin 256) : Fin 65536 :=
  ⟨(rom addr).val + 256 * (rom (addr + 1)).val, by
    have h1 := (rom addr).isLt
    have h2 := (rom (addr + 1)).isLt
    omega⟩

/-- Byte `r` (0..8) of the object representation of one table entry. -/
def keyMappingByte (m : KeyMapping) (r : Nat) : Fin 256 :=
  if r = 0 then m.type
  else if h : (r - 1) / 2 < 4 then
    if (r - 1) % 2 = 0 then ⟨(m.codes ⟨(r - 1) / 2, h⟩).val % 256, Nat.mod_lt _ (by decide)⟩
    else ⟨(m.codes ⟨(r - 1) / 2, h⟩).val / 256 % 256, Nat.mod_lt _ (by decide)⟩
  else ⟨0, by decide⟩

/-- Byte `off` (0..116) of the object representation of `keyMap`. -/
def keyMapByte (km : Fin 13 → KeyMapping) (off : Nat) : Fin 256 :=
  if h : off / 9 < 13 then keyMappingByte (km ⟨off / 9, h⟩) (off % 9) else ⟨0, by decide⟩

/-- The size of `keyMap` in bytes: `sizeof(keyMap)`. -/
def SIZEOF_KEYMAP : Nat := 13 * 9

/-- Library call, not part of the sketch: `EEPROM.put(addr, keyMap)`. -/
def eepromPutKeyMap (addr : Nat) (km : Fin 13 → KeyMapping) (rom : Nat → Fin 256) :
    Nat → Fin 256 :=
  fun a => if addr ≤ a ∧ a < addr + SIZEOF_KEYMAP then keyMapByte km (a - addr) else rom a

/-- Library call, not part of the sketch: `EEPROM.get(addr, keyMap)`. -/
def eepromGetKeyMap (addr : Nat) (rom : Nat → Fin 256) : Fin 13 → KeyMapping :=
  fun k =>
    { type := rom (addr + 9 * k.val)
      codes := fun j => eepromGet16 (addr + 9 * k.val + 1 + 2 * j.val) rom }

/-- The function `saveConfig`. -/
def saveConfig (s : State) : State :=
  { s with eeprom :=
      eepromPutKeyMap (EEPROM_ADDR + 2) s.keyMap (eepromPut16 EEPROM_ADDR EEPROM_MAGIC s.eeprom) }

/-- The function `loadConfig`. -/
def loadConfig (s : State) : State :=
  let magic := eepromGet16 EEPROM_ADDR s.eeprom
  if magic.val = EEPROM_MAGIC then
    { s with keyMap := eepromGetKeyMap (EEPROM_ADDR + 2) s.eeprom }
  else
    saveConfig { s with keyMap := fun _ => KeyMapping.zero }

/-! ## Serial commands (lines 401-487)

The C library calls the handler makes (`readBytesUntil`, `strtok`, `atoi`,
`atol`, `Serial.print`) are not part of the sketch; they are modelled from
their library contracts on strings as character lists. -/

/-- What the handler reads from outside the sketch. -/
structure Env where
  /-- The value `millis()` returns. -/
  millis : Nat
  /-- The value `getFreeRam()` returns. -/
  freeRam : Int
  /-- The macro `RAMSIZE`. -/
  ramSize : Int
  /-- The value `EEPROM.length()` returns. -/
  eepromLength : Int
  /-- The function `u8g2.getStrWidth`. -/
  strWidth : List Char → Int

/-- Library call `Serial.readBytesUntil(terminator, buffer, length)` on the
pending input: the bytes stored and the input left.  It stops at the
terminator (consumed, not stored), after `length` bytes, or when no byte is
left. -/
def readBytesUntil (terminator : Char) : Nat → List Char → List Char × List Char
  | 0, rx => ([], rx)
  | _ + 1, [] => ([], [])
  | n + 1, c :: rx =>
    if c = terminator then ([], rx)
    else ((c :: (readBytesUntil terminator n rx).1), (readBytesUntil terminator n rx).2)

/-- Library call `strtok(.., ",")` on the text not yet tokenised: the token
found, if any, and the text left for the next call. -/
def strtok (rest : List Char) : Option (List Char) × List Char :=
  let r := rest.dropWhile (fun c => c = ',')
  if r = [] then (none, [])
  else (some (r.takeWhile (fun c => c ≠ ',')), (r.dropWhile (fun c => c ≠ ',')).drop 1)

/-- The C predicate `isspace`. -/
def isspace (c : Char) : Bool :=
  c = ' ' ∨ c = '\t' ∨ c = '\n' ∨ c = '\x0b' ∨ c = '\x0c' ∨ c = '\r'

/-- The value of the leading decimal digits of a string. -/
def digitsValue : List Char → Nat → Nat
  | [], acc => acc
  | c :: cs, acc =>
    if 48 ≤ c.toNat ∧ c.toNat ≤ 57 then digitsValue cs (acc * 10 + (c.toNat - 48)) else acc

/-- The number a string starts with: white space, an optional sign, digits. -/
def leadingNumber (str : List Char) : Int :=
  match str.dropWhile isspace with
  | '-' :: r => -(digitsValue r 0 : Int)
  | '+' :: r => (digitsValue r 0 : Int)
  | r => (digitsValue r 0 : Int)

/-- The value an out-of-range number takes in the 32-bit `long`. -/
def toInt32 (x : Int) : Int := (x + 2147483648) % 4294967296 - 2147483648

/-- Library call `atoi`: the result is a 16-bit `int`. -/
def atoi (str : List Char) : Int := toInt16 (leadingNumber str)

/-- Library call `atol`: the result is a 32-bit `long`. -/
def atol (str : List Char) : Int := toInt32 (leadingNumber str)

/-- The conversion `(KeyType)atoi(p)`: the low byte. -/
def toKeyType (x : Int) : Fin 256 :=
  ⟨(x % 256).toNat, by omega⟩

/-- The conversion `(uint16_t)atoi(p)`. -/
def toUInt16 (x : Int) : Fin 65536 :=
  ⟨(x % 65536).toNat, by omega⟩

/-- The conversion of a `long` to `unsigned long`. -/
def toUInt32 (x : Int) : Nat := (x % 4294967296).toNat

/-- What `Serial.print` writes for an `int`. -/
def printInt (x : Int) : List Char :=
  if x < 0 then '-' :: printNumber (-x).toNat else printNumber x.toNat

/-- Lines 412-419: the 65 values of the table, comma-separated. -/
def configText (km : Fin 13 → KeyMapping) : List Char :=
  (List.finRange 13).foldl
    (fun out i =>
      let out1 := out ++ printNumber (km i).type.val ++ [',']
      let out2 := (List.finRange 4).foldl
        (fun o j =>
          let o1 := o ++ printNumber ((km i).codes j).val
          if j.val < MAX_COMBO_KEYS - 1 then o1 ++ [','] else o1)
        out1
      if i.val < NUM_TOTAL_MAPS - 1 then out2 ++ [','] else out2)
    []

/-- The state of the loop of lines 424-433: the table, the current token `p`
and the text `strtok` has not consumed yet. -/
structure SetConfigLoop where
  keyMap : Fin 13 → KeyMapping
  p : Option (List Char)
  rest : List Char
  /-- Set by the `break` of line 425. -/
  done : Bool

/-- Lines 428-430: code `j` of entry `i`, from the next `strtok` call. -/
def setConfigCode (i : Fin 13) (j : Fin 4) (l : SetConfigLoop) : SetConfigLoop :=
  let tk := strtok l.rest
  let code : Fin 65536 :=
    match tk.1 with
    | none => ⟨0, by decide⟩
    | some str => toUInt16 (atoi str)
  { l with
    keyMap := Function.update l.keyMap i
      { l.keyMap i with codes := Function.update (l.keyMap i).codes j code }
    p := tk.1
    rest := tk.2 }

/-- Lines 427-431: the four codes of entry `i`, slot 0 first. -/
def setConfigCodes (i : Fin 13) (st : SetConfigLoop) : SetConfigLoop :=
  (List.finRange 4).foldl (fun l j => setConfigCode i j l) st

/-- One iteration of the loop of lines 424-433 for entry `i`. -/
def setConfigEntry (i : Fin 13) (st : SetConfigLoop) : SetConfigLoop :=
  if st.done then st
  else
    match st.p with
    | none => { st with done := true }
    | some str =>
      let st1 := { st with
        keyMap := Function.update st.keyMap i { st.keyMap i with type := toKeyType (atoi str) } }
      let st2 := setConfigCodes i st1
      if i.val < NUM_TOTAL_MAPS - 1 then
        { st2 with p := (strtok st2.rest).1, rest := (strtok st2.rest).2 }
      else st2

/-- Lines 422-433: the table after parsing the payload of `SET_CONFIG:`. -/
def parseConfig (data_part : List Char) (km : Fin 13 → KeyMapping) : Fin 13 → KeyMapping :=
  ((List.finRange 13).foldl (fun st i => setConfigEntry i st)
    { keyMap := km, p := (strtok data_part).1, rest := (strtok data_part).2,
      done := false }).keyMap

/-- Lines 452-480: the `SONG_INFO:` branch before its reply. -/
def songInfo (env : Env) (data : List Char) (s : State) : State :=
  match (strtok data).1 with
  | none => s
  | some p_title =>
    let r1 := (strtok data).2
    let s1 := { s with currentSongName := p_title.take 63 }
    let p_status := (strtok r1).1
    let r2 := (strtok r1).2
    let s2 :=
      match p_status with
      | none => s1
      | some str => { s1 with isPlaying := decide (atoi str ≠ 0) }
    let p_pos := (strtok r2).1
    let r3 := (strtok r2).2
    let s3 :=
      match p_pos with
      | none => { s2 with lastPositionAtUpdate := 0 }
      | some str => { s2 with lastPositionAtUpdate := toUInt32 (atol str) }
    let p_dur := (strtok r3).1
    let s4 :=
      match p_dur with
      | none => { s3 with totalDurationMs := 0 }
      | some str => { s3 with totalDurationMs := toUInt32 (atol str) }
    let s5 := { s4 with
      lastInfoUpdateTimestamp := env.millis
      currentPositionMs := s4.lastPositionAtUpdate
      song_name_pixel_width := env.strWidth s4.currentSongName }
    let s6 := if (128 : Int) < s5.song_name_pixel_width then { s5 with scroll_offset_x := 0 } else s5
    { s6 with uiNeedsUpdate := true }

/-- Appends text and the line end of `Serial.println` to the serial output. -/
def println (text : List Char) (s : State) : State :=
  { s with serialOut := s.serialOut ++ text ++ ['\r', '\n'] }

/-- The function `handleSerialCommands`: one line of at most 255 bytes is taken
from the pending input and interpreted. -/
def handleSerialCommands (env : Env) (s0 : State) : State :=
  if s0.serialIn = [] then s0
  else
    let rd := readBytesUntil '\n' 255 s0.serialIn
    let bytes_read := rd.1.length
    let s := { s0 with serialIn := rd.2 }
    let line := rd.1.takeWhile (fun c => c ≠ '\x00')
    let command := line.dropWhile (fun c => c = ' ' ∨ c = '\t' ∨ c = '\r')
    if command = "GET_CONFIG".toList then
      println [] { s with serialOut := s.serialOut ++ "CONFIG:".toList ++ configText s.keyMap }
    else if command.take 11 = "SET_CONFIG:".toList then
      let data_part := command.drop 11
      println "OK".toList (saveConfig { s with keyMap := parseConfig data_part s.keyMap })
    else if command = "RESET_CONFIG".toList then
      println "Config erased. Please reboot the device.".toList
        { s with eeprom := eepromPut16 EEPROM_ADDR 0xFFFF s.eeprom }
    else if command = "GET_STATS".toList then
      let totalRam := env.ramSize
      let freeRam := env.freeRam
      let usedRam := toInt16 (totalRam - freeRam)
      let totalEeprom := env.eepromLength
      let usedEeprom : Int := 2 + SIZEOF_KEYMAP
      println []
        { s with serialOut := s.serialOut ++ "SRAM: ".toList ++ printInt usedRam ++ "/".toList ++
            printInt totalRam ++ " B".toList ++ ", EEPROM: ".toList ++ printInt usedEeprom ++
            "/".toList ++ printInt totalEeprom ++ " B".toList }
    else if command.take 10 = "SONG_INFO:".toList then
      println "OK".toList (songInfo env (command.drop 10) s)
    else
      if bytes_read > 0 then println "ERROR: Unknown command".toList s else s

/-! ## Runs of the whole sketch -/

/-- What can happen next: a timer tick (`ISR(TIMER1_COMPA_vect)`), a pin-change
interrupt, one pass of `processEvents` or of `handleSerialCommands` in `loop`,
or bytes arriving on the serial line. -/
inductive Step where
  | tick (p : Pins)
  | isr (a b : Bool)
  | events
  | serial (env : Env)
  | receive (bytes : List Char)

/-- The effect of one step. -/
def step : Step → State → State
  | Step.tick p, s => scanKeysAndEncoder p s
  | Step.isr a b, s => handleEncoderISR a b s
  | Step.events, s => processEvents s
  | Step.serial env, s => handleSerialCommands env s
  | Step.receive bytes, s => { s with serialIn := s.serialIn ++ bytes }

/-- The state after a list of steps, first step first. -/
def run : List Step → State → State
  | [], s => s
  | e :: rest, s => run rest (step e s)

/-! ## Views and runs used by the statements -/

/-- What the scanner keeps for one button: stable level, mismatch counter,
event slot, and the edges stored so far. -/
structure KeyView where
  last : Bool
  cnt : Nat
  ev : KeyEventType
  edges : List KeyEventType

/-- The part of the state that belongs to button `i`. -/
def keyView (s : State) (i : Fin 8) : KeyView :=
  ⟨s.lastKeyStates i, s.debounceCounters i, s.keyEvents i, edgesOf s i⟩

/-- One tick as seen by a single button (`scanKey` on its view). -/
def stepView (reading : Bool) (v : KeyView) : KeyView :=
  if reading ≠ v.last then
    if (v.cnt + 1) % 256 ≥ 5 then ⟨reading, 0, edgeOf reading, v.edges ++ [edgeOf reading]⟩
    else ⟨v.last, (v.cnt + 1) % 256, v.ev, v.edges⟩
  else ⟨v.last, 0, v.ev, v.edges⟩

/-- Every key pin bounces: pressed on 4 ticks out of every 5. -/
def bounce4 : Nat → Pins := fun t => ⟨fun _ => decide (t % 5 < 4), false⟩

/-- Every key pin reads pressed on every tick, the encoder switch is up. -/
def pressAll : Nat → Pins := fun _ => ⟨fun _ => true, false⟩

/-- The globals `executeMapping` never writes. -/
def SameCounters (s t : State) : Prop :=
  t.encoderCount = s.encoderCount ∧
  t.lastProcessedEncoderCount = s.lastProcessedEncoderCount ∧
  t.currentEncoderSwState = s.currentEncoderSwState ∧
  t.keyMap = s.keyMap ∧
  t.encoderCountAtSwPress = s.encoderCountAtSwPress

/-- The accumulator moved by `delta` raw ticks (what the decoder interrupt does
between two passes of the main loop). -/
def turned (delta : Int) (s : State) : State :=
  { s with encoderCount := s.encoderCount + delta }

/-- One pass of `processEvents` after each accumulator delta of the list. -/
def detentRun : List Int → State → State
  | [], s => s
  | delta :: rest, s => detentRun rest (processEvents (turned delta s))

/-- The switch globals the tap disambiguation reads and writes. -/
structure SwView where
  cur : Bool
  snap : Int
  count : Int

/-- The switch globals of a state. -/
def swView (s : State) : SwView := ⟨s.currentEncoderSwState, s.encoderCountAtSwPress, s.encoderCount⟩


/-- Pin levels of a tick with no key pressed and the encoder switch down. -/
def swDown : Pins := ⟨fun _ => false, true⟩

/-- Pin levels of a tick with no key pressed and the encoder switch up. -/
def swUp : Pins := ⟨fun _ => false, false⟩

/-- The phase that follows `(a, b)` in the Gray-code order 00, 01, 11, 10. -/
def nextPhase (ph : Bool × Bool) : Bool × Bool := (ph.2, !ph.1)

/-- The phase that precedes `(a, b)` in the Gray-code order 00, 01, 11, 10. -/
def prevPhase (ph : Bool × Bool) : Bool × Bool := (!ph.2, ph.1)

/-- The four samples of one full cycle from phase `ph` in the order 00, 01, 11,
10; the last sample is `ph` again. -/
def forwardCycle (ph : Bool × Bool) : List (Bool × Bool) :=
  [nextPhase ph, nextPhase (nextPhase ph), nextPhase (nextPhase (nextPhase ph)), ph]

/-- The four samples of one full cycle from phase `ph` in the reverse order. -/
def reverseCycle (ph : Bool × Bool) : List (Bool × Bool) :=
  [prevPhase ph, prevPhase (prevPhase ph), prevPhase (prevPhase (prevPhase ph)), ph]

/-- The samples of `k` full cycles. -/
def cycles (cycle : List (Bool × Bool)) : Nat → List (Bool × Bool)
  | 0 => []
  | k + 1 => cycle ++ cycles cycle k

/-- Two phases differ in exactly one bit. -/
def oneBitApart (p q : Bool × Bool) : Prop :=
  (p.1 ≠ q.1 ∧ p.2 = q.2) ∨ (p.1 = q.1 ∧ p.2 ≠ q.2)

/-- The non-zero codes of a mapping, slot 0 first. -/
def nonZeroCodes (m : KeyMapping) : List Nat :=
  ((List.finRange 4).map (fun j => (m.codes j).val)).filter (fun c => c ≠ 0)

/-- The effect of one HID call on the keyboard codes held down in the sink:
a press adds its code, a release removes it, `releaseAll` removes all. -/
def keyboardSinkStep (held : List Nat) : HidCall → List Nat
  | HidCall.keyboardPress c => if c ∈ held then held else held ++ [c]
  | HidCall.keyboardRelease c => held.filter (fun x => x ≠ c)
  | HidCall.keyboardReleaseAll => []
  | _ => held

/-- The keyboard codes asserted in the sink after a trace of calls. -/
def keyboardAsserted (calls : List HidCall) : List Nat := calls.foldl keyboardSinkStep []

/-- The effect of one HID call on the consumer codes held in the sink: a
`write` is a press followed by a release of the same code. -/
def consumerSinkStep (held : List Nat) : HidCall → List Nat
  | HidCall.consumerPress c => if c ∈ held then held else held ++ [c]
  | HidCall.consumerRelease c => held.filter (fun x => x ≠ c)
  | HidCall.consumerWrite c => held.filter (fun x => x ≠ c)
  | _ => held

/-- The consumer codes asserted in the sink after a trace of calls. -/
def consumerAsserted (calls : List HidCall) : List Nat := calls.foldl consumerSinkStep []

/-- A table entry from its tag and four codes. -/
def mkMapping (type : Fin 256) (c0 c1 c2 c3 : Fin 65536) : KeyMapping :=
  ⟨type, fun j => if j.val = 0 then c0 else if j.val = 1 then c1 else if j.val = 2 then c2 else c3⟩

/-- A sample table: button 0 is a keyboard combo, button 1 a consumer key,
button 2 and the clockwise detent a consumer mapping whose slot 0 is empty,
the counter-clockwise detent a keyboard combo, the switch tap a command. -/
def sampleMap : Fin 13 → KeyMapping := fun i =>
  if i.val = 0 then mkMapping 1 4 0 5 0
  else if i.val = 1 then mkMapping 2 233 0 0 0
  else if i.val = 2 then mkMapping 2 0 233 0 0
  else if i.val = 8 then mkMapping 2 0 233 0 0
  else if i.val = 9 then mkMapping 1 128 0 129 0
  else if i.val = 10 then mkMapping 3 0 0 0 0
  else if i.val = 11 then mkMapping 2 234 0 0 0
  else KeyMapping.zero

/-- The power-on state with the sample table loaded. -/
def sampleState : State := { powerOn with keyMap := sampleMap }

/-- A table with keyboard codes above 255: button 0 carries 260, 256 and 5, the
counter-clockwise detent 511 and 256. -/
def wideMap : Fin 13 → KeyMapping := fun i =>
  if i.val = 0 then mkMapping 1 260 256 5 0
  else if i.val = 9 then mkMapping 1 511 256 0 0
  else KeyMapping.zero

/-- The power-on state with `wideMap` loaded. -/
def wideState : State := { powerOn with keyMap := wideMap }

/-! ## The configuration text as tokens -/

/-- A decimal digit character. -/
def IsDigit (c : Char) : Prop := 48 ≤ c.toNat ∧ c.toNat ≤ 57

/-- A token of the configuration text: a non-empty string of decimal digits. -/
def IsToken (t : List Char) : Prop := t ≠ [] ∧ ∀ c ∈ t, IsDigit c

/-- Tokens joined by single commas. -/
def joinTokens : List (List Char) → List Char
  | [] => []
  | [t] => t
  | t :: t2 :: ts => t ++ ',' :: joinTokens (t2 :: ts)

/-- The four printed codes of a table entry. -/
def codeTokens (m : KeyMapping) : List (List Char) :=
  [printNumber (m.codes 0).val, printNumber (m.codes 1).val, printNumber (m.codes 2).val,
    printNumber (m.codes 3).val]

/-- The five printed values of a table entry. -/
def entryTokens (m : KeyMapping) : List (List Char) :=
  printNumber m.type.val :: codeTokens m

/-- The printed values of the entries `l` of a table, in list order. -/
def tableTokens (km : Fin 13 → KeyMapping) (l : List (Fin 13)) : List (List Char) :=
  l.flatMap (fun i => entryTokens (km i))

/-- The text lines 413-418 append for entry `i`: its five values and, except
after the last entry, a comma. -/
def entryPiece (km : Fin 13 → KeyMapping) (i : Fin 13) : List Char :=
  joinTokens (entryTokens (km i)) ++ (if i.val < NUM_TOTAL_MAPS - 1 then [','] else [])

/-- The serial input `SET_CONFIG:<table>` and `GET_CONFIG`, one per line. -/
def setThenGet (km : Fin 13 → KeyMapping) : List Char :=
  "SET_CONFIG:".toList ++ configText km ++ ['\n'] ++ "GET_CONFIG".toList ++ ['\n']

/-- Values for what the handler reads from outside the sketch. -/
def sampleEnv : Env := ⟨0, 1000, 2560, 1024, fun str => 6 * (str.length : Int)⟩

/-- The table whose every entry is a keyboard combo of four codes 65535. -/
def fullTable : Fin 13 → KeyMapping := fun _ => mkMapping 1 65535 65535 65535 65535

/-- The state after `n` passes of `handleSerialCommands`. -/
def serialPasses (env : Env) : Nat → State → State
  | 0, s => s
  | n + 1, s => serialPasses env n (handleSerialCommands env s)

/-! ## Sample states for the tap, hold and now-playing evaluations -/

/-- The table that maps only the switch tap (index 10), to `m`. -/
def tapTable (m : KeyMapping) : Fin 13 → KeyMapping :=
  fun i => if i.val = ENCODER_SW_INDEX then m else KeyMapping.zero

/-- Power-on state with `tapTable m` loaded and the switch-tap flag set. -/
def tapPending (m : KeyMapping) : State :=
  { powerOn with keyMap := tapTable m, encoderSwEvent := true }

/-- Power-on state with `m` on the clockwise detent (index 8) and one detent
of 4 ticks unconsumed. -/
def detentPending (m : KeyMapping) : State :=
  { powerOn with
    keyMap := fun i => if i.val = ENCODER_CW_INDEX then m else KeyMapping.zero
    encoderCount := 4 }

/-- Power-on state with the sample table and a press edge pending for button 0. -/
def button0Pressed : State :=
  { sampleState with
    keyEvents := Function.update sampleState.keyEvents 0 KeyEventType.EVENT_PRESS }

/-- Power-on state in which a song is playing and the line `SONG_INFO:<title>`
with no further field is pending. -/
def titleOnly : State :=
  { powerOn with
    isPlaying := true
    lastPositionAtUpdate := 5000
    totalDurationMs := 9000
    serialIn := "SONG_INFO:Song\n".toList }

/-! ## Runs with the switch held -/

/-- The interrupt steps for a list of sampled phases. -/
def isrSteps (l : List (Bool × Bool)) : List Step := l.map (fun ph => Step.isr ph.1 ph.2)

/-- One detent forward, a pass, one detent back, a pass. -/
def thereAndBack : List Step :=
  isrSteps (forwardCycle (false, false)) ++ [Step.events] ++
    isrSteps (reverseCycle (false, false)) ++ [Step.events]

/-- One detent forward and a pass. -/
def oneDetent : List Step := isrSteps (forwardCycle (false, false)) ++ [Step.events]

/-- The sample state after four ticks with the switch contact closed: the
next such tick commits the press. -/
def pressDue : State := run (List.replicate 4 (Step.tick swDown)) sampleState

/-- The switch is held over `thereAndBack`, then the contact is open for four
ticks: the next such tick commits the release. -/
def backAndRelease : List Step := thereAndBack ++ List.replicate 4 (Step.tick swUp)

/-- The switch is held over `oneDetent`, then the contact is open for four
ticks. -/
def detentAndRelease : List Step := oneDetent ++ List.replicate 4 (Step.tick swUp)

/-! ## Reset of the stored table -/

/-- The two lines `RESET_CONFIG` and `GET_CONFIG`. -/
def resetThenGet : List Char := "RESET_CONFIG".toList ++ '\n' :: ("GET_CONFIG".toList ++ '\n' :: [])

/-- The sample table in memory and saved to storage, with the lines
`RESET_CONFIG` and `GET_CONFIG` pending. -/
def savedThenReset : State := { saveConfig sampleState with serialIn := resetThenGet }

/-! ## Delivery of button edges -/

/-- The `executeMapping` call that the value in slot `i` asks for, if any. -/
def slotCall (ev : Fin 8 → KeyEventType) (i : Fin 8) : Option (Fin 13 × Bool) :=
  if ev i = KeyEventType.EVENT_PRESS then some (Fin.castLE (by decide) i, true)
  else if ev i = KeyEventType.EVENT_RELEASE then some (Fin.castLE (by decide) i, false)
  else none

/-- The calls that the button slots `ev` ask for, in index order. -/
def keyCalls (ev : Fin 8 → KeyEventType) : List (Fin 13 × Bool) :=
  (List.finRange 8).filterMap (slotCall ev)

/-- Pin levels of tick `t` when button 5 is down from the start and button 2
from tick 2 on. -/
def fiveThenTwo (t : Nat) : Pins := ⟨fun i => i = 5 ∨ (i = 2 ∧ 2 ≤ t), false⟩

/-- Power-on state with 262148 ticks on the accumulator: 65537 detents. -/
def farTurned : State := { powerOn with encoderCount := 262148 }

/-- The sample state with a press pending for button 0, a release pending for
button 3, the switch-tap flag set and 9 ticks on the accumulator. -/
def busyState : State :=
  { sampleState with
    keyEvents := fun i =>
      if i = 0 then KeyEventType.EVENT_PRESS
      else if i = 3 then KeyEventType.EVENT_RELEASE else KeyEventType.EVENT_NONE
    encoderSwEvent := true
    encoderCount := 9 }

/-- Pin levels with only button 5 down. -/
def fiveDown : Pins := ⟨fun i => i = 5, false⟩

/-! ## Phase positions -/

/-- The position of a phase in the order 00, 01, 11, 10. -/
def phasePos : Bool × Bool → Int
  | (false, false) => 0
  | (false, true) => 1
  | (true, true) => 2
  | (true, false) => 3

/-- The last sample of a list, or the starting phase if the list is empty. -/
def lastPhase : Bool × Bool → List (Bool × Bool) → Bool × Bool
  | ph, [] => ph
  | _, q :: rest => lastPhase q rest

/-- Samples of a bouncing quarter turn forward and back, then a full cycle
forward with a repeated sample. -/
def bouncySamples : List (Bool × Bool) :=
  [(false, true), (false, false), (false, true), (false, true), (true, true), (true, false),
   (false, false)]

/-! ## Edge sequences -/

/-- The list of `n` edges that alternate, starting with a press. -/
def alternating : Nat → List KeyEventType
  | 0 => []
  | n + 1 => alternating n ++
      [if n % 2 = 0 then KeyEventType.EVENT_PRESS else KeyEventType.EVENT_RELEASE]

/-- What the scanner keeps true of one button from power-on: the counter is
below the threshold, the edges stored so far alternate from a press, and
the stable level is pressed exactly after an odd number of edges. -/
def ViewOk (v : KeyView) : Prop :=
  v.cnt ≤ 4 ∧ v.edges = alternating v.edges.length ∧ (v.last = true ↔ v.edges.length % 2 = 1)

/-! ## Short configuration input -/

/-- A value of a `SET_CONFIG` line: not empty, and free of commas, line ends
and NUL bytes. -/
def IsField (t : List Char) : Prop :=
  t ≠ [] ∧ ∀ c ∈ t, c ≠ ',' ∧ c ≠ '\n' ∧ c ≠ '\x00'

/-- The code stored for a value that may be missing: lines 429-430. -/
def fieldCode : Option (List Char) → Fin 65536
  | none => ⟨0, by decide⟩
  | some str => toUInt16 (atoi str)

/-- The entry built from the type value `t` and the values `q` that follow. -/
def fieldEntry (t : List Char) (q : List (List Char)) : KeyMapping :=
  { type := toKeyType (atoi t), codes := fun j => fieldCode q[j.val]? }

/-- The loop of lines 424-433 over the entries `es`, on the values still to be
read. -/
def fillEntries : List (Fin 13) → List (List Char) → (Fin 13 → KeyMapping) →
    (Fin 13 → KeyMapping)
  | [], _, km => km
  | _ :: _, [], km => km
  | i :: es, t :: q, km => fillEntries es (q.drop 4) (Function.update km i (fieldEntry t q))

/-- The table after a `SET_CONFIG` payload with the values `r`, said by flat
position: entry `i` takes its type from value `5 i` and code `j` from value
`5 i + 1 + j`, a missing code is 0, and an entry with no value keeps its
content. -/
def shortConfig (r : List (List Char)) (km : Fin 13 → KeyMapping) : Fin 13 → KeyMapping :=
  fun i =>
    match r[5 * i.val]? with
    | none => km i
    | some t => { type := toKeyType (atoi t), codes := fun j => fieldCode r[5 * i.val + 1 + j.val]? }

/-- The sample table in memory and the line `SET_CONFIG:1,4` pending. -/
def twoValues : State := { sampleState with serialIn := "SET_CONFIG:1,4\n".toList }

/-- The values 1, 4, 5: a type and two codes. -/
def threeFields : List (List Char) := ["1".toList, "4".toList, "5".toList]

/-- The sample table in memory and the line `SET_CONFIG:1,4,5` pending. -/
def threeValues : State :=
  { sampleState with serialIn := "SET_CONFIG:".toList ++ joinTokens threeFields ++ ['\n'] }

/-- The 61 values of twelve entries `1,65535,65535,65535,65535` and the type
of a thirteenth. -/
def sixtyOneFields : List (List Char) :=
  tableTokens fullTable ((List.finRange 13).take 12) ++ ["1".toList]

/-- The table of codes 65535 in memory and the line of `sixtyOneFields`
pending. -/
def sixtyOneValues : State :=
  { powerOn with
    keyMap := fullTable
    serialIn := "SET_CONFIG:".toList ++ joinTokens sixtyOneFields ++ ['\n'] }

/-! ## Reachable states -/

/-- A state the sketch can be in: the globals after static initialisation,
with any storage content and any table in memory (`setup` loads one), followed
by any run of steps. -/
def reached (rom : Nat → Fin 256) (km : Fin 13 → KeyMapping) (pre : List Step) : State :=
  run pre { State.init rom with keyMap := km }

/-- Steps before the witness run: three ticks with every key down, one tick
with every key up, and a pass of `processEvents`. -/
def bouncedStart : List Step :=
  [Step.tick (pressAll 0), Step.tick (pressAll 0), Step.tick (pressAll 0), Step.tick swUp,
    Step.events]

/-! ## Encoder direction indices -/

/-- The index the encoder block dispatches clockwise detents on. -/
def cwIndex (s : State) : Fin 13 :=
  if s.currentEncoderSwState then ⟨ENCODER_SW_CW_INDEX, by decide⟩
  else ⟨ENCODER_CW_INDEX, by decide⟩

/-- The index the encoder block dispatches counter-clockwise detents on. -/
def ccwIndex (s : State) : Fin 13 :=
  if s.currentEncoderSwState then ⟨ENCODER_SW_CCW_INDEX, by decide⟩
  else ⟨ENCODER_CCW_INDEX, by decide⟩

/-! # Theorems -/
/-! ## The scanner, button by button -/

theorem keyView_scanKey_self (r : Bool) (i : Fin 8) (s : State) :
    keyView (scanKey r i s) i = stepView r (keyView s i) := by
  unfold scanKey stepView keyView edgesOf
  by_cases h : r = s.lastKeyStates i
  · simp [h]
  · by_cases hc : (s.debounceCounters i + 1) % 256 ≥ DEBOUNCE_TICKS
    · have hc2 : (s.debounceCounters i + 1) % 256 ≥ 5 := hc
      simp [h, hc, hc2, List.filter_append]
    · have hc2 : ¬ (s.debounceCounters i + 1) % 256 ≥ 5 := hc
      simp [h, hc, hc2]

theorem keyView_scanKey_other (r : Bool) (i j : Fin 8) (s : State) (h : j ≠ i) :
    keyView (scanKey r j s) i = keyView s i := by
  have h2 : i ≠ j := fun e => h e.symm
  unfold scanKey keyView edgesOf
  by_cases hr : r = s.lastKeyStates j
  · simp [hr, Function.update_noteq h2]
  · by_cases hc : (s.debounceCounters j + 1) % 256 ≥ DEBOUNCE_TICKS
    · simp [hr, hc, Function.update_noteq h2, List.filter_append, h]
    · simp [hr, hc, Function.update_noteq h2]

theorem keyView_foldl (p : Fin 8 → Bool) (i : Fin 8) (l : List (Fin 8)) :
    ∀ s : State, l.Nodup →
      keyView (l.foldl (fun st j => scanKey (p j) j st) s) i =
        if i ∈ l then stepView (p i) (keyView s i) else keyView s i := by
  induction l with
  | nil => intro s _; simp
  | cons j l ih =>
    intro s hnd
    rw [List.nodup_cons] at hnd
    rw [List.foldl_cons, ih _ hnd.2]
    by_cases hji : j = i
    · subst hji
      simp [hnd.1, keyView_scanKey_self]
    · have : i ≠ j := fun e => hji e.symm
      simp [this, keyView_scanKey_other _ _ _ _ hji]

theorem keyView_scanEncoderSw (r : Bool) (i : Fin 8) (s : State) :
    keyView (scanEncoderSw r s) i = keyView s i := by
  unfold scanEncoderSw keyView edgesOf
  simp only []
  split_ifs <;> rfl

theorem keyView_scan (p : Pins) (i : Fin 8) (s : State) :
    keyView (scanKeysAndEncoder p s) i = stepView (p.keys i) (keyView s i) := by
  unfold scanKeysAndEncoder
  rw [keyView_scanEncoderSw, keyView_foldl p.keys i _ s (List.nodup_finRange 8)]
  simp

/-! ## Debounce -/

theorem keyView_run_lt (pins : Nat → Pins) (s : State) (i : Fin 8) (r : Bool)
    (h0 : s.debounceCounters i = 0) (hr : r ≠ s.lastKeyStates i) :
    ∀ n, n ≤ 4 → (∀ t, t < n → (pins t).keys i = r) →
      keyView (runScan pins n s) i = ⟨s.lastKeyStates i, n, s.keyEvents i, edgesOf s i⟩ := by
  intro n
  induction n with
  | zero => intro _ _; simp [runScan, keyView, h0]
  | succ n ih =>
    intro hn hp
    have ih2 := ih (by omega) (fun t ht => hp t (by omega))
    have h256 : (n + 1) % 256 = n + 1 := Nat.mod_eq_of_lt (by omega)
    have h5 : ¬ (5 ≤ n + 1) := by omega
    simp [runScan, keyView_scan, ih2, hp n (by omega), stepView, hr, h256, h5]

theorem keyView_run_ge (pins : Nat → Pins) (s : State) (i : Fin 8) (r : Bool)
    (h0 : s.debounceCounters i = 0) (hr : r ≠ s.lastKeyStates i) :
    ∀ n, 5 ≤ n → (∀ t, t < n → (pins t).keys i = r) →
      keyView (runScan pins n s) i = ⟨r, 0, edgeOf r, edgesOf s i ++ [edgeOf r]⟩ := by
  intro n hn
  induction n, hn using Nat.le_induction with
  | base =>
    intro hp
    have h4 := keyView_run_lt pins s i r h0 hr 4 (by omega) (fun t ht => hp t (by omega))
    show keyView (scanKeysAndEncoder (pins 4) (runScan pins 4 s)) i = _
    rw [keyView_scan, h4, hp 4 (by omega)]
    simp [stepView, hr]
  | succ n hn ih =>
    intro hp
    have ih2 := ih (fun t ht => hp t (by omega))
    show keyView (scanKeysAndEncoder (pins n) (runScan pins n s)) i = _
    rw [keyView_scan, ih2, hp n (by omega)]
    simp [stepView]

theorem keyView_run_noise (pins : Nat → Pins) (s : State) (i : Fin 8) (n : Nat)
    (h0 : s.debounceCounters i = 0)
    (hw : ∀ k, k + 5 ≤ n → ∃ j, j < 5 ∧ (pins (k + j)).keys i = s.lastKeyStates i) :
    ∀ m, m ≤ n → ∃ c, c ≤ 4 ∧
      keyView (runScan pins m s) i = ⟨s.lastKeyStates i, c, s.keyEvents i, edgesOf s i⟩ ∧
      (∀ j, j < c → j < m ∧ (pins (m - 1 - j)).keys i ≠ s.lastKeyStates i) ∧
      (∀ t, m = t + 1 → (pins t).keys i = s.lastKeyStates i → c = 0) := by
  intro m
  induction m with
  | zero => intro _; exact ⟨0, by omega, by simp [runScan, keyView, h0], by intro j hj; omega, by intro t ht; omega⟩
  | succ m ih =>
    intro hm
    obtain ⟨c, hc4, hv, hrun, _⟩ := ih (by omega)
    by_cases hmatch : (pins m).keys i = s.lastKeyStates i
    · refine ⟨0, by omega, ?_, by intro j hj; omega, by intro _ _ _; rfl⟩
      simp [runScan, keyView_scan, hv, stepView, hmatch]
    · have hc3 : c ≤ 3 := by
        by_contra hcon
        have hc : c = 4 := by omega
        subst hc
        obtain ⟨j, hj, hjm⟩ := hw (m - 4) (by
          have := (hrun 3 (by omega)).1
          omega)
        have hm4 : 4 ≤ m := by have := (hrun 3 (by omega)).1; omega
        rcases Nat.lt_or_ge j 4 with hj4 | hj4
        · have := (hrun (3 - j) (by omega)).2
          have e : m - 1 - (3 - j) = m - 4 + j := by omega
          rw [e] at this
          exact this hjm
        · have e : m - 4 + j = m := by omega
          rw [e] at hjm
          exact hmatch hjm
      refine ⟨c + 1, by omega, ?_, ?_, ?_⟩
      · have h256 : (c + 1) % 256 = c + 1 := Nat.mod_eq_of_lt (by omega)
        have h5 : ¬ (5 ≤ c + 1) := by omega
        simp [runScan, keyView_scan, hv, stepView, hmatch, h256, h5]
      · intro j hj
        rcases Nat.eq_zero_or_pos j with hj0 | hjpos
        · subst hj0
          exact ⟨by omega, by simpa using hmatch⟩
        · have := hrun (j - 1) (by omega)
          refine ⟨by omega, ?_⟩
          have e : m + 1 - 1 - j = m - 1 - (j - 1) := by omega
          rw [e]
          exact this.2
      · intro t ht hmt
        have : t = m := by omega
        subst this
        exact absurd hmt hmatch

/-- C2: noise rejection.  Start with no mismatch pending for button `i`.  If
among the first `n` ticks there are never 5 consecutive ones whose raw level
differs from the stable level (every window of 5 ticks holds a matching
sample), then after every one of these ticks the stable level of `i` is
unchanged, its event slot is unchanged and no edge has been stored for it;
and every tick with a matching sample leaves the mismatch counter at 0, so
mismatches do not accumulate across it. -/
theorem noise_rejection (s : State) (i : Fin 8) (pins : Nat → Pins) (n : Nat)
    (h0 : s.debounceCounters i = 0)
    (hw : ∀ k, k + 5 ≤ n → ∃ j, j < 5 ∧ (pins (k + j)).keys i = s.lastKeyStates i) :
    ∀ m, m ≤ n →
      (runScan pins m s).lastKeyStates i = s.lastKeyStates i ∧
      (runScan pins m s).keyEvents i = s.keyEvents i ∧
      edgesOf (runScan pins m s) i = edgesOf s i ∧
      (∀ t, m = t + 1 → (pins t).keys i = s.lastKeyStates i →
        (runScan pins m s).debounceCounters i = 0) := by
  intro m hm
  obtain ⟨c, _, hv, _, hz⟩ := keyView_run_noise pins s i n h0 hw m hm
  simp only [keyView, KeyView.mk.injEq] at hv
  refine ⟨hv.1, hv.2.2.1, hv.2.2.2, ?_⟩
  intro t ht hmt
  rw [hv.2.1]
  exact hz t ht hmt

/-- C2 at a concrete input: button 0 bounces, pressed for 4 ticks out of every
5, for 20 ticks from power-on; nothing is committed. -/
theorem noise_rejection_witness :
    (powerOn.debounceCounters 0 = 0 ∧
      (∀ k, k + 5 ≤ 20 → ∃ j, j < 5 ∧
        (bounce4 (k + j)).keys 0 = powerOn.lastKeyStates 0)) ∧
    (runScan bounce4 20 powerOn).lastKeyStates 0
      = powerOn.lastKeyStates 0 ∧
    (runScan bounce4 20 powerOn).keyEvents 0
      = powerOn.keyEvents 0 ∧
    edgesOf (runScan bounce4 20 powerOn) 0
      = edgesOf powerOn 0 :=
  have hw : ∀ k, k + 5 ≤ 20 → ∃ j, j < 5 ∧
      (bounce4 (k + j)).keys 0 = powerOn.lastKeyStates 0 := by
    intro k _
    refine ⟨(9 - k % 5) % 5, by omega, ?_⟩
    simp only [bounce4, powerOn, State.init, decide_eq_false_iff_not]
    omega
  have h := noise_rejection powerOn 0 bounce4 20 rfl hw 20 (by decide)
  ⟨⟨rfl, hw⟩, h.1, h.2.1, h.2.2.1⟩

/-! ## Detent dispatch -/

theorem SameCounters.rfl_ (s : State) : SameCounters s s := ⟨rfl, rfl, rfl, rfl, rfl⟩

theorem SameCounters.trans_ {s t u : State} (h1 : SameCounters s t) (h2 : SameCounters t u) :
    SameCounters s u :=
  ⟨h2.1.trans h1.1, h2.2.1.trans h1.2.1, h2.2.2.1.trans h1.2.2.1, h2.2.2.2.1.trans h1.2.2.2.1,
    h2.2.2.2.2.trans h1.2.2.2.2⟩

theorem executeMapping_counters (m : Fin 13) (b : Bool) (s : State) :
    SameCounters s (executeMapping m b s) := by
  unfold executeMapping SameCounters
  simp only []
  split_ifs <;> exact ⟨rfl, rfl, rfl, rfl, rfl⟩

theorem executeMapping_calls (m : Fin 13) (b : Bool) (s : State) :
    (executeMapping m b s).calls = s.calls ++ [(m, b)] := by
  unfold executeMapping
  simp only []
  split_ifs <;> rfl

theorem repeatMapping_counters (m : Fin 13) (n : Nat) :
    ∀ s : State, SameCounters s (repeatMapping m n s) := by
  induction n with
  | zero => intro s; exact SameCounters.rfl_ s
  | succ n ih =>
    intro s
    exact (executeMapping_counters m true s).trans_ (ih _)

theorem repeatMapping_calls (m : Fin 13) (n : Nat) :
    ∀ s : State, (repeatMapping m n s).calls = s.calls ++ List.replicate n (m, true) := by
  induction n with
  | zero => intro s; simp [repeatMapping]
  | succ n ih =>
    intro s
    simp [repeatMapping, ih, executeMapping_calls, List.replicate_succ]

theorem processKeyEvent_counters (i : Fin 8) (s : State) :
    SameCounters s (processKeyEvent i s) := by
  unfold processKeyEvent
  simp only []
  split_ifs
  · exact SameCounters.trans_ ⟨rfl, rfl, rfl, rfl, rfl⟩ (executeMapping_counters _ _ _)
  · exact SameCounters.trans_ ⟨rfl, rfl, rfl, rfl, rfl⟩ (executeMapping_counters _ _ _)
  · exact ⟨rfl, rfl, rfl, rfl, rfl⟩

theorem processKeyEvent_calls (i : Fin 8) (s : State) :
    ∃ pre, (processKeyEvent i s).calls = s.calls ++ pre ∧ ∀ e ∈ pre, e.1.val < 8 := by
  unfold processKeyEvent
  simp only []
  split_ifs
  · exact ⟨[(Fin.castLE (by decide) i, true)], by rw [executeMapping_calls], by
      intro e he; simp at he; subst he; exact i.isLt⟩
  · exact ⟨[(Fin.castLE (by decide) i, false)], by rw [executeMapping_calls], by
      intro e he; simp at he; subst he; exact i.isLt⟩
  · exact ⟨[], by simp, by simp⟩

theorem keyLoop_counters (l : List (Fin 8)) :
    ∀ s : State, SameCounters s (l.foldl (fun st i => processKeyEvent i st) s) := by
  induction l with
  | nil => intro s; exact SameCounters.rfl_ s
  | cons i l ih => intro s; exact (processKeyEvent_counters i s).trans_ (ih _)

theorem keyLoop_calls (l : List (Fin 8)) :
    ∀ s : State, ∃ pre, (l.foldl (fun st i => processKeyEvent i st) s).calls = s.calls ++ pre ∧
      ∀ e ∈ pre, e.1.val < 8 := by
  induction l with
  | nil => intro s; exact ⟨[], by simp, by simp⟩
  | cons i l ih =>
    intro s
    obtain ⟨p1, h1, hp1⟩ := processKeyEvent_calls i s
    obtain ⟨p2, h2, hp2⟩ := ih (processKeyEvent i s)
    refine ⟨p1 ++ p2, by rw [List.foldl_cons, h2, h1, List.append_assoc], ?_⟩
    intro e he
    rcases List.mem_append.1 he with h | h
    · exact hp1 e h
    · exact hp2 e h

theorem processSwTap_counters (s : State) : SameCounters s (processSwTap s) := by
  unfold processSwTap
  split_ifs
  · have := (executeMapping_counters ⟨ENCODER_SW_INDEX, by decide⟩ true s).trans_
      (executeMapping_counters ⟨ENCODER_SW_INDEX, by decide⟩ false _)
    exact ⟨this.1, this.2.1, this.2.2.1, this.2.2.2.1, this.2.2.2.2⟩
  · exact SameCounters.rfl_ s

theorem processSwTap_calls (s : State) :
    ∃ pre, (processSwTap s).calls = s.calls ++ pre ∧ ∀ e ∈ pre, e.1.val = ENCODER_SW_INDEX := by
  unfold processSwTap
  split_ifs
  · refine ⟨[(⟨ENCODER_SW_INDEX, by decide⟩, true), (⟨ENCODER_SW_INDEX, by decide⟩, false)], ?_, ?_⟩
    · show (executeMapping _ false _).calls = _
      rw [executeMapping_calls, executeMapping_calls]
      simp
    · intro e he
      simp at he
      rcases he with h | h <;> subst h <;> rfl
  · exact ⟨[], by simp, by simp⟩

theorem toInt16_of_range (x : Int) (h1 : -32768 ≤ x) (h2 : x < 32768) : toInt16 x = x := by
  unfold toInt16
  omega

/-- The encoder block on its own, for an unconsumed count that fits 16 bits. -/
theorem processEncoder_spec (s : State)
    (hd : (s.encoderCount - s.lastProcessedEncoderCount).natAbs < 32768) :
    (processEncoder s).calls = s.calls ++
        List.replicate ((s.encoderCount - s.lastProcessedEncoderCount).natAbs / 4)
          ((if 0 < s.encoderCount - s.lastProcessedEncoderCount then
              (if s.currentEncoderSwState then ⟨ENCODER_SW_CW_INDEX, by decide⟩
                else ⟨ENCODER_CW_INDEX, by decide⟩)
            else
              (if s.currentEncoderSwState then ⟨ENCODER_SW_CCW_INDEX, by decide⟩
                else ⟨ENCODER_CCW_INDEX, by decide⟩) : Fin 13), true) ∧
      (processEncoder s).encoderCount = s.encoderCount ∧
      (processEncoder s).lastProcessedEncoderCount =
        s.lastProcessedEncoderCount +
          (s.encoderCount - s.lastProcessedEncoderCount).sign *
            (4 * ((s.encoderCount - s.lastProcessedEncoderCount).natAbs / 4 : Nat)) := by
  generalize hdd : s.encoderCount - s.lastProcessedEncoderCount = d at hd ⊢
  unfold processEncoder
  simp only [hdd, ENCODER_STEPS_PER_CLICK]
  by_cases h1 : d ≥ 4
  · have hq : Int.tdiv d 4 = d / 4 := Int.tdiv_eq_ediv (by omega) (by omega)
    have hs : toInt16 (d / 4) = d / 4 := toInt16_of_range _ (by omega) (by omega)
    have hm : toInt16 (d / 4 * 4) = d / 4 * 4 := toInt16_of_range _ (by omega) (by omega)
    have hn : (d / 4).toNat = d.natAbs / 4 := by omega
    have hpos : 0 < d := by omega
    have hsign : d.sign = 1 := Int.sign_eq_one_of_pos hpos
    simp only [h1, if_true, hq, hs, hm, hn, hpos, hsign]
    refine ⟨repeatMapping_calls _ _ _, (repeatMapping_counters _ _ _).1, ?_⟩
    show (repeatMapping _ _ s).lastProcessedEncoderCount + _ = _
    rw [(repeatMapping_counters _ _ _).2.1]
    omega
  · by_cases h2 : d ≤ -4
    · have hq : Int.tdiv (-d) 4 = (-d) / 4 := Int.tdiv_eq_ediv (by omega) (by omega)
      have hs : toInt16 ((-d) / 4) = (-d) / 4 := toInt16_of_range _ (by omega) (by omega)
      have hm : toInt16 ((-d) / 4 * 4) = (-d) / 4 * 4 := toInt16_of_range _ (by omega) (by omega)
      have hn : ((-d) / 4).toNat = d.natAbs / 4 := by omega
      have hneg : ¬ (0 < d) := by omega
      have hsign : d.sign = -1 := Int.sign_eq_neg_one_of_neg (by omega)
      simp only [h1, h2, if_true, if_false, hq, hs, hm, hn, hneg, hsign]
      refine ⟨repeatMapping_calls _ _ _, (repeatMapping_counters _ _ _).1, ?_⟩
      show (repeatMapping _ _ s).lastProcessedEncoderCount - _ = _
      rw [(repeatMapping_counters _ _ _).2.1]
      omega
    · have hz : d.natAbs / 4 = 0 := by omega
      simp only [h1, h2, if_false, hz]
      simp

/-- C3 (amended): detent dispatch.  Let `d = encoderCount -
lastProcessedEncoderCount` with `|d| < 32768`.  One `processEvents` pass calls
`executeMapping(index, true)` exactly `|d| / 4` times for the encoder, after
whatever it dispatches for the button slots and the switch tap (`pre`, all on
button indices or the switch-tap index): all on the clockwise index when
`d > 0` and all on the counter-clockwise index when `d < 0`, the switch-held
variants when the switch is down.  The accumulator is not written, the
consumed value moves by exactly `4 * (|d| / 4)` toward it, and the unconsumed
count afterwards has the sign of `d` and magnitude `|d| mod 4`. -/
theorem encoder_dispatch (s : State)
    (hd : (s.encoderCount - s.lastProcessedEncoderCount).natAbs < 32768) :
    ∃ pre : List (Fin 13 × Bool),
      (∀ e ∈ pre, e.1.val < NUM_KEYS ∨ e.1.val = ENCODER_SW_INDEX) ∧
      (processEvents s).calls = s.calls ++ pre ++
        List.replicate ((s.encoderCount - s.lastProcessedEncoderCount).natAbs / 4)
          ((if 0 < s.encoderCount - s.lastProcessedEncoderCount then
              (if s.currentEncoderSwState then ⟨ENCODER_SW_CW_INDEX, by decide⟩
                else ⟨ENCODER_CW_INDEX, by decide⟩)
            else
              (if s.currentEncoderSwState then ⟨ENCODER_SW_CCW_INDEX, by decide⟩
                else ⟨ENCODER_CCW_INDEX, by decide⟩) : Fin 13), true) ∧
      (processEvents s).encoderCount = s.encoderCount ∧
      (processEvents s).lastProcessedEncoderCount =
        s.lastProcessedEncoderCount +
          (s.encoderCount - s.lastProcessedEncoderCount).sign *
            (4 * ((s.encoderCount - s.lastProcessedEncoderCount).natAbs / 4 : Nat)) ∧
      s.encoderCount - (processEvents s).lastProcessedEncoderCount =
        (s.encoderCount - s.lastProcessedEncoderCount).sign *
          ((s.encoderCount - s.lastProcessedEncoderCount).natAbs % 4 : Nat) := by
  obtain ⟨p1, h1, hp1⟩ := keyLoop_calls (List.finRange 8) s
  obtain ⟨p2, h2, hp2⟩ := processSwTap_calls (processKeys s)
  have hc : SameCounters s (processSwTap (processKeys s)) :=
    (keyLoop_counters (List.finRange 8) s).trans_ (processSwTap_counters _)
  have hd2 : ((processSwTap (processKeys s)).encoderCount -
      (processSwTap (processKeys s)).lastProcessedEncoderCount).natAbs < 32768 := by
    rw [hc.1, hc.2.1]; exact hd
  have hspec := processEncoder_spec (processSwTap (processKeys s)) hd2
  rw [hc.1, hc.2.1, hc.2.2.1] at hspec
  refine ⟨p1 ++ p2, ?_, ?_, hspec.2.1, hspec.2.2, ?_⟩
  · intro e he
    rcases List.mem_append.1 he with h | h
    · exact Or.inl (hp1 e h)
    · exact Or.inr (hp2 e h)
  · show (processEncoder _).calls = _
    rw [hspec.1, h2]
    show ((List.finRange 8).foldl _ s).calls ++ _ ++ _ = _
    rw [h1]
    simp
  · show s.encoderCount - (processEncoder _).lastProcessedEncoderCount = _
    rw [hspec.2.2]
    have e : ∀ c l x : Int, c - (l + x) = (c - l) - x := by intro c l x; ring
    rw [e]
    generalize s.encoderCount - s.lastProcessedEncoderCount = d at hd ⊢
    rcases lt_trichotomy d 0 with h | h | h
    · rw [Int.sign_eq_neg_one_of_neg h]; omega
    · subst h; simp
    · rw [Int.sign_eq_one_of_pos h]; omega

set_option maxRecDepth 100000 in
/-- C3 as stated fails once the detent count no longer fits the 16-bit `int
steps`: with `encoderCount = 262148` and nothing consumed, `d / 4 = 65537` is
stored into `steps` as 1, so the pass fires one clockwise tap instead of 65537
and consumes 4 ticks, leaving 262144 unconsumed. -/
theorem encoder_dispatch_counterexample :
    (processEvents { powerOn with encoderCount := 262148 }).calls
        = [(⟨ENCODER_CW_INDEX, by decide⟩, true)] ∧
      (processEvents { powerOn with encoderCount := 262148 }).lastProcessedEncoderCount
        = 4 := by
  decide

set_option maxRecDepth 100000 in
/-- C3 on the run of the specification: accumulator deltas 4, 8, -4, -9, one
pass after each, fire 1 CW, 2 CW, 1 CCW and 2 CCW taps and leave one tick
unconsumed; the last pass is the theorem at `d = -9`. -/
theorem encoder_dispatch_witness :
    ((turned (-9) (detentRun [4, 8, -4] powerOn)).encoderCount -
      (turned (-9) (detentRun [4, 8, -4] powerOn)).lastProcessedEncoderCount).natAbs
        < 32768 ∧
    (detentRun [4] powerOn).calls
      = [(⟨ENCODER_CW_INDEX, by decide⟩, true)] ∧
    (detentRun [4, 8] powerOn).calls
      = List.replicate 3 (⟨ENCODER_CW_INDEX, by decide⟩, true) ∧
    (detentRun [4, 8, -4] powerOn).calls
      = List.replicate 3 (⟨ENCODER_CW_INDEX, by decide⟩, true) ++
          [(⟨ENCODER_CCW_INDEX, by decide⟩, true)] ∧
    (detentRun [4, 8, -4, -9] powerOn).calls
      = List.replicate 3 (⟨ENCODER_CW_INDEX, by decide⟩, true) ++
          List.replicate 3 (⟨ENCODER_CCW_INDEX, by decide⟩, true) ∧
    (detentRun [4, 8, -4, -9] powerOn).encoderCount -
      (detentRun [4, 8, -4, -9] powerOn).lastProcessedEncoderCount = -1 ∧
    (∃ pre : List (Fin 13 × Bool),
      (processEvents (turned (-9) (detentRun [4, 8, -4] powerOn))).calls
        = (turned (-9) (detentRun [4, 8, -4] powerOn)).calls ++ pre ++
            List.replicate 2 (⟨ENCODER_CCW_INDEX, by decide⟩, true)) := by
  refine ⟨by decide, by decide, by decide, by decide, by decide, by decide, ?_⟩
  obtain ⟨pre, _, h, _⟩ := encoder_dispatch
    (turned (-9) (detentRun [4, 8, -4] powerOn)) (by decide)
  exact ⟨pre, h⟩

/-! ## Switch tap -/
theorem scanKey_sw (r : Bool) (i : Fin 8) (s : State) :
    swView (scanKey r i s) = swView s ∧ (scanKey r i s).encoderSwEvent = s.encoderSwEvent ∧
      (scanKey r i s).lastEncoderSwState = s.lastEncoderSwState ∧
      (scanKey r i s).encoderSwDebounceCounter = s.encoderSwDebounceCounter := by
  unfold scanKey swView
  simp only []
  split_ifs <;> exact ⟨rfl, rfl, rfl, rfl⟩

theorem scanKeys_sw (p : Fin 8 → Bool) (l : List (Fin 8)) :
    ∀ s : State,
      swView (l.foldl (fun st i => scanKey (p i) i st) s) = swView s ∧
      (l.foldl (fun st i => scanKey (p i) i st) s).encoderSwEvent = s.encoderSwEvent ∧
      (l.foldl (fun st i => scanKey (p i) i st) s).lastEncoderSwState = s.lastEncoderSwState ∧
      (l.foldl (fun st i => scanKey (p i) i st) s).encoderSwDebounceCounter
        = s.encoderSwDebounceCounter := by
  induction l with
  | nil => intro s; exact ⟨rfl, rfl, rfl, rfl⟩
  | cons i l ih =>
    intro s
    have h1 := scanKey_sw (p i) i s
    have h2 := ih (scanKey (p i) i s)
    rw [List.foldl_cons]
    exact ⟨h2.1.trans h1.1, h2.2.1.trans h1.2.1, h2.2.2.1.trans h1.2.2.1, h2.2.2.2.trans h1.2.2.2⟩

/-- What the switch block of a tick does to the tap flag, the snapshot and the
accumulator. -/
theorem scanEncoderSw_spec (r : Bool) (s : State) :
    (scanEncoderSw r s).encoderSwEvent =
      (s.encoderSwEvent || (s.currentEncoderSwState &&
        !(scanEncoderSw r s).currentEncoderSwState &&
        decide (s.encoderCount = s.encoderCountAtSwPress))) ∧
    (scanEncoderSw r s).encoderCountAtSwPress =
      (if s.currentEncoderSwState = false ∧ (scanEncoderSw r s).currentEncoderSwState = true
        then s.encoderCount else s.encoderCountAtSwPress) ∧
    (scanEncoderSw r s).encoderCount = s.encoderCount := by
  unfold scanEncoderSw
  simp only []
  split_ifs <;> simp_all

/-- What one tick does to the switch-tap flag, the snapshot and the accumulator. -/
theorem scan_sw (p : Pins) (s : State) :
    (scanKeysAndEncoder p s).encoderSwEvent =
      (s.encoderSwEvent || (s.currentEncoderSwState &&
        !(scanKeysAndEncoder p s).currentEncoderSwState &&
        decide (s.encoderCount = s.encoderCountAtSwPress))) ∧
    (scanKeysAndEncoder p s).encoderCountAtSwPress =
      (if s.currentEncoderSwState = false ∧ (scanKeysAndEncoder p s).currentEncoderSwState = true
        then s.encoderCount else s.encoderCountAtSwPress) ∧
    (scanKeysAndEncoder p s).encoderCount = s.encoderCount := by
  have h := scanKeys_sw p.keys (List.finRange 8) s
  have h2 := scanEncoderSw_spec p.sw ((List.finRange 8).foldl (fun st i => scanKey (p.keys i) i st) s)
  simp only [swView, SwView.mk.injEq] at h
  obtain ⟨⟨hv1, hv2, hv3⟩, he, _, _⟩ := h
  rw [hv1, hv2, hv3, he] at h2
  exact h2





theorem processEncoder_sw (s : State) :
    (processEncoder s).currentEncoderSwState = s.currentEncoderSwState ∧
      (processEncoder s).encoderCountAtSwPress = s.encoderCountAtSwPress := by
  unfold processEncoder
  simp only []
  split_ifs <;>
    first
    | exact ⟨rfl, rfl⟩
    | exact ⟨(repeatMapping_counters _ _ s).2.2.1, (repeatMapping_counters _ _ s).2.2.2.2⟩

theorem processEvents_sw (s : State) :
    (processEvents s).currentEncoderSwState = s.currentEncoderSwState ∧
      (processEvents s).encoderCountAtSwPress = s.encoderCountAtSwPress := by
  have h := (keyLoop_counters (List.finRange 8) s).trans_ (processSwTap_counters (processKeys s))
  have h2 := processEncoder_sw (processSwTap (processKeys s))
  exact ⟨h2.1.trans h.2.2.1, h2.2.trans h.2.2.2.2⟩

theorem handleEncoderISR_sw (a b : Bool) (s : State) :
    (handleEncoderISR a b s).currentEncoderSwState = s.currentEncoderSwState ∧
      (handleEncoderISR a b s).encoderCountAtSwPress = s.encoderCountAtSwPress := by
  unfold handleEncoderISR
  simp only []
  split_ifs <;> exact ⟨rfl, rfl⟩

theorem songInfo_sw (env : Env) (data : List Char) (s : State) :
    (songInfo env data s).currentEncoderSwState = s.currentEncoderSwState ∧
      (songInfo env data s).encoderCountAtSwPress = s.encoderCountAtSwPress := by
  unfold songInfo
  cases (strtok data).1 with
  | none => exact ⟨rfl, rfl⟩
  | some t =>
    simp only []
    split_ifs <;> (repeat' split) <;> exact ⟨rfl, rfl⟩

theorem handleSerialCommands_sw (env : Env) (s : State) :
    (handleSerialCommands env s).currentEncoderSwState = s.currentEncoderSwState ∧
      (handleSerialCommands env s).encoderCountAtSwPress = s.encoderCountAtSwPress := by
  unfold handleSerialCommands
  simp only []
  split_ifs
  · exact ⟨rfl, rfl⟩
  · exact ⟨rfl, rfl⟩
  · exact ⟨rfl, rfl⟩
  · exact ⟨rfl, rfl⟩
  · exact ⟨rfl, rfl⟩
  · exact songInfo_sw _ _ _
  · exact ⟨rfl, rfl⟩
  · exact ⟨rfl, rfl⟩

/-- While the switch stays down, no step rewrites the press snapshot. -/
theorem step_snapshot (e : Step) (s : State) (h1 : s.currentEncoderSwState = true) :
    (step e s).encoderCountAtSwPress = s.encoderCountAtSwPress := by
  cases e with
  | tick p =>
    show (scanKeysAndEncoder p s).encoderCountAtSwPress = _
    rw [(scan_sw p s).2.1]
    simp [h1]
  | isr a b => exact (handleEncoderISR_sw a b s).2
  | events => exact (processEvents_sw s).2
  | serial env => exact (handleSerialCommands_sw env s).2
  | receive bytes => rfl

theorem run_snapshot (mid : List Step) :
    ∀ s : State,
      (∀ k, k ≤ mid.length → (run (mid.take k) s).currentEncoderSwState = true) →
      (run mid s).encoderCountAtSwPress = s.encoderCountAtSwPress := by
  induction mid with
  | nil => intro s _; rfl
  | cons e rest ih =>
    intro s h
    have h0 : s.currentEncoderSwState = true := h 0 (Nat.zero_le _)
    have hrest : ∀ k, k ≤ rest.length → (run (rest.take k) (step e s)).currentEncoderSwState = true := by
      intro k hk
      have := h (k + 1) (by simp; omega)
      simpa [run] using this
    show (run rest (step e s)).encoderCountAtSwPress = _
    rw [ih (step e s) hrest, step_snapshot e s h0]

/-- C4: switch tap.  Let a tick commit a debounced press of the encoder switch
(the switch state goes from up to down on tick `p1`), let the switch stay down
through any steps `mid` (ticks, decoder interrupts, main-loop passes), and let
tick `p2` commit the release.  Then the snapshot `encoderCountAtSwPress` still
holds the accumulator value of the press tick, and the release tick leaves the
tap flag set exactly when it was already set or `encoderCount` at that tick
equals that value.  On every tick, from every state, the flag after the tick
is the flag before it or a committed release with `encoderCount` equal to the
snapshot: no other tick sets it. -/
theorem switch_tap (s0 : State) (p1 p2 : Pins) (mid : List Step)
    (hup : s0.currentEncoderSwState = false)
    (hheld : ∀ k, k ≤ mid.length →
      (run (mid.take k) (scanKeysAndEncoder p1 s0)).currentEncoderSwState = true)
    (hrel : (scanKeysAndEncoder p2 (run mid (scanKeysAndEncoder p1 s0))).currentEncoderSwState
      = false) :
    (run mid (scanKeysAndEncoder p1 s0)).encoderCountAtSwPress = s0.encoderCount ∧
    (scanKeysAndEncoder p2 (run mid (scanKeysAndEncoder p1 s0))).encoderSwEvent =
      ((run mid (scanKeysAndEncoder p1 s0)).encoderSwEvent ||
        decide ((run mid (scanKeysAndEncoder p1 s0)).encoderCount = s0.encoderCount)) ∧
    (∀ (s : State) (p : Pins),
      (scanKeysAndEncoder p s).encoderSwEvent =
        (s.encoderSwEvent || (s.currentEncoderSwState &&
          !(scanKeysAndEncoder p s).currentEncoderSwState &&
          decide (s.encoderCount = s.encoderCountAtSwPress)))) := by
  have hdown : (scanKeysAndEncoder p1 s0).currentEncoderSwState = true := hheld 0 (Nat.zero_le _)
  have hsnap1 : (scanKeysAndEncoder p1 s0).encoderCountAtSwPress = s0.encoderCount := by
    rw [(scan_sw p1 s0).2.1]; simp [hup, hdown]
  have hsnap : (run mid (scanKeysAndEncoder p1 s0)).encoderCountAtSwPress = s0.encoderCount := by
    rw [run_snapshot mid _ hheld, hsnap1]
  have hcur : (run mid (scanKeysAndEncoder p1 s0)).currentEncoderSwState = true := by
    have := hheld mid.length (Nat.le_refl _)
    simpa using this
  refine ⟨hsnap, ?_, fun s p => (scan_sw p s).1⟩
  rw [(scan_sw p2 _).1, hrel, hcur, hsnap]
  simp


set_option maxRecDepth 100000 in
/-- C4 at two concrete runs from power-on: the switch is pressed for 5 ticks
and released for 5 ticks.  Without rotation the release sets the tap flag; with
one clockwise quadrature step while the switch is down it does not. -/
theorem switch_tap_witness :
    ((runScan (fun _ => swDown) 4 powerOn).currentEncoderSwState = false ∧
      (scanKeysAndEncoder swUp (run [Step.tick swUp, Step.tick swUp, Step.tick swUp, Step.tick swUp]
        (scanKeysAndEncoder swDown (runScan (fun _ => swDown) 4 powerOn)))).currentEncoderSwState
        = false) ∧
    (scanKeysAndEncoder swUp (run [Step.tick swUp, Step.tick swUp, Step.tick swUp, Step.tick swUp]
      (scanKeysAndEncoder swDown (runScan (fun _ => swDown) 4 powerOn)))).encoderSwEvent = true ∧
    (scanKeysAndEncoder swUp
      (run [Step.isr false true, Step.tick swUp, Step.tick swUp, Step.tick swUp, Step.tick swUp]
        (scanKeysAndEncoder swDown (runScan (fun _ => swDown) 4 powerOn)))).encoderSwEvent
      = false := by
  have h1 := switch_tap (runScan (fun _ => swDown) 4 powerOn) swDown swUp
    [Step.tick swUp, Step.tick swUp, Step.tick swUp, Step.tick swUp]
    (by decide) (by decide) (by decide)
  have h2 := switch_tap (runScan (fun _ => swDown) 4 powerOn) swDown swUp
    [Step.isr false true, Step.tick swUp, Step.tick swUp, Step.tick swUp, Step.tick swUp]
    (by decide) (by decide) (by decide)
  refine ⟨⟨by decide, by decide⟩, ?_, ?_⟩
  · rw [h1.2.1]; decide
  · rw [h2.2.1]; decide

/-! ## Persistence -/

theorem keyMapByte_at (km : Fin 13 → KeyMapping) (k : Fin 13) (r : Nat) (hr : r < 9) :
    keyMapByte km (9 * k.val + r) = keyMappingByte (km k) r := by
  unfold keyMapByte
  have h1 : (9 * k.val + r) / 9 = k.val := by omega
  have h2 : (9 * k.val + r) % 9 = r := by omega
  have hk := k.isLt
  rw [dif_pos (by omega)]
  have e : (⟨(9 * k.val + r) / 9, by omega⟩ : Fin 13) = k := Fin.ext h1
  rw [e, h2]

theorem keyMappingByte_tag (m : KeyMapping) : keyMappingByte m 0 = m.type := by
  simp [keyMappingByte]

theorem keyMappingByte_low (m : KeyMapping) (j : Fin 4) :
    (keyMappingByte m (1 + 2 * j.val)).val = (m.codes j).val % 256 := by
  unfold keyMappingByte
  have hj := j.isLt
  have h0 : ¬ (1 + 2 * j.val = 0) := by omega
  have h1 : (1 + 2 * j.val - 1) / 2 = j.val := by omega
  have h2 : (1 + 2 * j.val - 1) % 2 = 0 := by omega
  rw [if_neg h0, dif_pos (by omega), if_pos h2]
  have e : (⟨(1 + 2 * j.val - 1) / 2, by omega⟩ : Fin 4) = j := Fin.ext h1
  simp only [e]

theorem keyMappingByte_high (m : KeyMapping) (j : Fin 4) :
    (keyMappingByte m (1 + 2 * j.val + 1)).val = (m.codes j).val / 256 % 256 := by
  unfold keyMappingByte
  have hj := j.isLt
  have h0 : ¬ (1 + 2 * j.val + 1 = 0) := by omega
  have h1 : (1 + 2 * j.val + 1 - 1) / 2 = j.val := by omega
  have h2 : ¬ ((1 + 2 * j.val + 1 - 1) % 2 = 0) := by omega
  rw [if_neg h0, dif_pos (by omega), if_neg h2]
  have e : (⟨(1 + 2 * j.val + 1 - 1) / 2, by omega⟩ : Fin 4) = j := Fin.ext h1
  simp only [e]

/-- The cells `saveConfig` writes, read back. -/
theorem saveConfig_cells (s : State) :
    ((saveConfig s).eeprom 0).val = 0xF1 ∧ ((saveConfig s).eeprom 1).val = 0xAD ∧
    (∀ k : Fin 13, (saveConfig s).eeprom (2 + 9 * k.val) = (s.keyMap k).type ∧
      ∀ j : Fin 4,
        ((saveConfig s).eeprom (2 + 9 * k.val + 1 + 2 * j.val)).val
          = ((s.keyMap k).codes j).val % 256 ∧
        ((saveConfig s).eeprom (2 + 9 * k.val + 1 + 2 * j.val + 1)).val
          = ((s.keyMap k).codes j).val / 256 % 256) ∧
    (∀ a, 119 ≤ a → (saveConfig s).eeprom a = s.eeprom a) := by
  refine ⟨?_, ?_, ?_, ?_⟩
  · simp [saveConfig, eepromPutKeyMap, eepromPut16, EEPROM_ADDR, EEPROM_MAGIC, SIZEOF_KEYMAP]
    rfl
  · simp [saveConfig, eepromPutKeyMap, eepromPut16, EEPROM_ADDR, EEPROM_MAGIC, SIZEOF_KEYMAP]
    rfl
  · intro k
    have hk := k.isLt
    refine ⟨?_, ?_⟩
    · have hin : EEPROM_ADDR + 2 ≤ 2 + 9 * k.val ∧ 2 + 9 * k.val < EEPROM_ADDR + 2 + SIZEOF_KEYMAP := by
        simp only [EEPROM_ADDR, SIZEOF_KEYMAP]; omega
      have e : 2 + 9 * k.val - (EEPROM_ADDR + 2) = 9 * k.val + 0 := by
        simp only [EEPROM_ADDR]; omega
      simp only [saveConfig, eepromPutKeyMap, if_pos hin, e]
      rw [keyMapByte_at _ k 0 (by omega), keyMappingByte_tag]
    · intro j
      have hj := j.isLt
      constructor
      · have hin : EEPROM_ADDR + 2 ≤ 2 + 9 * k.val + 1 + 2 * j.val ∧
            2 + 9 * k.val + 1 + 2 * j.val < EEPROM_ADDR + 2 + SIZEOF_KEYMAP := by
          simp only [EEPROM_ADDR, SIZEOF_KEYMAP]; omega
        have e : 2 + 9 * k.val + 1 + 2 * j.val - (EEPROM_ADDR + 2) = 9 * k.val + (1 + 2 * j.val) := by
          simp only [EEPROM_ADDR]; omega
        simp only [saveConfig, eepromPutKeyMap, if_pos hin, e]
        rw [keyMapByte_at _ k _ (by omega), keyMappingByte_low]
      · have hin : EEPROM_ADDR + 2 ≤ 2 + 9 * k.val + 1 + 2 * j.val + 1 ∧
            2 + 9 * k.val + 1 + 2 * j.val + 1 < EEPROM_ADDR + 2 + SIZEOF_KEYMAP := by
          simp only [EEPROM_ADDR, SIZEOF_KEYMAP]; omega
        have e : 2 + 9 * k.val + 1 + 2 * j.val + 1 - (EEPROM_ADDR + 2)
            = 9 * k.val + (1 + 2 * j.val + 1) := by
          simp only [EEPROM_ADDR]; omega
        simp only [saveConfig, eepromPutKeyMap, if_pos hin, e]
        rw [keyMapByte_at _ k _ (by omega), keyMappingByte_high]
  · intro a ha
    have hout : ¬ (EEPROM_ADDR + 2 ≤ a ∧ a < EEPROM_ADDR + 2 + SIZEOF_KEYMAP) := by
      simp only [EEPROM_ADDR, SIZEOF_KEYMAP]; omega
    have h0 : ¬ (a = EEPROM_ADDR) := by simp only [EEPROM_ADDR]; omega
    have h1 : ¬ (a = EEPROM_ADDR + 1) := by simp only [EEPROM_ADDR]; omega
    simp only [saveConfig, eepromPutKeyMap, eepromPut16, if_neg hout, if_neg h0, if_neg h1]

/-- Reading a table from storage cells that hold the bytes of `km`. -/
theorem getKeyMap_of_cells (rom : Nat → Fin 256) (km : Fin 13 → KeyMapping)
    (h : ∀ k : Fin 13, rom (2 + 9 * k.val) = (km k).type ∧
      ∀ j : Fin 4,
        (rom (2 + 9 * k.val + 1 + 2 * j.val)).val = ((km k).codes j).val % 256 ∧
        (rom (2 + 9 * k.val + 1 + 2 * j.val + 1)).val = ((km k).codes j).val / 256 % 256) :
    eepromGetKeyMap (EEPROM_ADDR + 2) rom = km := by
  funext k
  obtain ⟨ht, hc⟩ := h k
  have hcodes : (fun j => eepromGet16 (EEPROM_ADDR + 2 + 9 * k.val + 1 + 2 * j.val) rom) = (km k).codes := by
    funext j
    obtain ⟨hl, hh⟩ := hc j
    apply Fin.ext
    have hlt := ((km k).codes j).isLt
    simp only [eepromGet16, EEPROM_ADDR, Nat.zero_add, hl, hh]
    omega
  simp only [eepromGetKeyMap, EEPROM_ADDR, Nat.zero_add] at hcodes ⊢
  rw [ht, hcodes]

/-- The marker `saveConfig` leaves in cells 0-1. -/
theorem saveConfig_marker (s : State) :
    (eepromGet16 0 (saveConfig s).eeprom).val = 0xADF1 := by
  obtain ⟨h0, h1, _, _⟩ := saveConfig_cells s
  simp only [eepromGet16, h0, h1]

/-- Loading from the storage `saveConfig` leaves gives the saved table. -/
theorem loadConfig_of_saved (s t : State) (ht : t.eeprom = (saveConfig s).eeprom) :
    (loadConfig t).keyMap = s.keyMap := by
  unfold loadConfig
  simp only [ht, EEPROM_ADDR, saveConfig_marker, EEPROM_MAGIC, if_true]
  exact getKeyMap_of_cells _ _ (saveConfig_cells s).2.2.1

/-- C6: persistence round trip.  For every state (in-memory table and storage
content), `loadConfig` after `saveConfig` leaves the in-memory table equal to
the saved one, also when run from any later state with the same storage (a
reboot).  `saveConfig` leaves the marker 0xADF1 in cells 0-1 (low byte 0xF1
first), then for each of the 13 entries its tag byte and its four two-byte
codes, entry `k` at offset `2 + 9 * k`; cells from offset 119 on keep their
content, and the in-memory table is not changed by the save. -/
theorem persistence_roundtrip (s : State) :
    (loadConfig (saveConfig s)).keyMap = s.keyMap ∧
    (∀ t : State, t.eeprom = (saveConfig s).eeprom → (loadConfig t).keyMap = s.keyMap) ∧
    (eepromGet16 0 (saveConfig s).eeprom).val = 0xADF1 ∧
    ((saveConfig s).eeprom 0).val = 0xF1 ∧ ((saveConfig s).eeprom 1).val = 0xAD ∧
    (∀ k : Fin 13, (saveConfig s).eeprom (2 + 9 * k.val) = (s.keyMap k).type ∧
      ∀ j : Fin 4,
        eepromGet16 (2 + 9 * k.val + 1 + 2 * j.val) (saveConfig s).eeprom = (s.keyMap k).codes j) ∧
    (∀ a, 2 + 13 * (1 + 4 * 2) ≤ a → (saveConfig s).eeprom a = s.eeprom a) ∧
    (saveConfig s).keyMap = s.keyMap := by
  obtain ⟨h0, h1, hk, ha⟩ := saveConfig_cells s
  refine ⟨loadConfig_of_saved s _ rfl, loadConfig_of_saved s, saveConfig_marker s, h0, h1, ?_,
    fun a h => ha a (by omega), rfl⟩
  intro k
  refine ⟨(hk k).1, fun j => ?_⟩
  obtain ⟨hl, hh⟩ := (hk k).2 j
  apply Fin.ext
  have hlt := ((s.keyMap k).codes j).isLt
  simp only [eepromGet16, hl, hh]
  omega

theorem keyMappingByte_zero (r : Nat) : (keyMappingByte KeyMapping.zero r).val = 0 := by
  unfold keyMappingByte
  split_ifs <;> simp [KeyMapping.zero]

theorem keyMapByte_zero (off : Nat) : (keyMapByte (fun _ => KeyMapping.zero) off).val = 0 := by
  unfold keyMapByte
  split_ifs
  · exact keyMappingByte_zero _
  · rfl

theorem loadConfig_valid (t : State) (h : (eepromGet16 0 t.eeprom).val = EEPROM_MAGIC) :
    loadConfig t = { t with keyMap := eepromGetKeyMap (EEPROM_ADDR + 2) t.eeprom } := by
  unfold loadConfig
  simp only [EEPROM_ADDR]
  rw [if_pos h]

theorem loadConfig_invalid (s : State) (h : (eepromGet16 0 s.eeprom).val ≠ EEPROM_MAGIC) :
    loadConfig s = saveConfig { s with keyMap := fun _ => KeyMapping.zero } := by
  unfold loadConfig
  simp only [EEPROM_ADDR]
  rw [if_neg h]

/-- C7: self-healing load.  If the first two cells of storage do not hold the
marker 0xADF1, `loadConfig` leaves every entry with tag `NONE` and all codes 0,
whatever the table held before, and leaves storage holding the marker
followed by 117 zero bytes (cells beyond are untouched); the marker test of a
second `loadConfig` then succeeds and that load changes nothing, so the table
is again all-`NONE`. -/
theorem self_healing_load (s : State) (h : (eepromGet16 0 s.eeprom).val ≠ EEPROM_MAGIC) :
    (∀ k : Fin 13, ((loadConfig s).keyMap k).type.val = KeyType.NONE ∧
      ∀ j : Fin 4, (((loadConfig s).keyMap k).codes j).val = 0) ∧
    (eepromGet16 0 (loadConfig s).eeprom).val = EEPROM_MAGIC ∧
    (∀ a, 2 ≤ a → a < 119 → ((loadConfig s).eeprom a).val = 0) ∧
    (∀ a, 119 ≤ a → (loadConfig s).eeprom a = s.eeprom a) ∧
    loadConfig (loadConfig s) = loadConfig s := by
  have hl := loadConfig_invalid s h
  generalize hs0 : ({ s with keyMap := fun _ => KeyMapping.zero } : State) = s0 at hl
  have hk0 : s0.keyMap = fun _ => KeyMapping.zero := by rw [← hs0]
  have he0 : s0.eeprom = s.eeprom := by rw [← hs0]
  have hmagic : (eepromGet16 0 (loadConfig s).eeprom).val = EEPROM_MAGIC := by
    rw [hl]; exact saveConfig_marker s0
  have hkm : (loadConfig s).keyMap = fun _ => KeyMapping.zero := by rw [hl]; exact hk0
  refine ⟨?_, hmagic, ?_, ?_, ?_⟩
  · intro k
    rw [hkm]
    exact ⟨rfl, fun _ => rfl⟩
  · intro a h2 h119
    rw [hl]
    have hin : EEPROM_ADDR + 2 ≤ a ∧ a < EEPROM_ADDR + 2 + SIZEOF_KEYMAP := by
      simp only [EEPROM_ADDR, SIZEOF_KEYMAP]; omega
    simp only [saveConfig, eepromPutKeyMap, if_pos hin, hk0]
    exact keyMapByte_zero _
  · intro a ha
    rw [hl, (saveConfig_cells s0).2.2.2 a ha, he0]
  · have hk2 : (loadConfig (loadConfig s)).keyMap = fun _ => KeyMapping.zero := by
      rw [loadConfig_of_saved s0 (loadConfig s) (by rw [hl]), hk0]
    have e := loadConfig_valid (loadConfig s) hmagic
    rw [e] at hk2
    have hk3 : eepromGetKeyMap (EEPROM_ADDR + 2) (loadConfig s).eeprom = (loadConfig s).keyMap := by
      rw [hkm]; exact hk2
    rw [e, hk3]

/-- C7 at a concrete input: power-on with an erased EEPROM (marker cells 0xFF). -/
theorem self_healing_load_witness :
    (eepromGet16 0 powerOn.eeprom).val ≠ EEPROM_MAGIC ∧
    (∀ k : Fin 13, ((loadConfig powerOn).keyMap k).type.val = KeyType.NONE ∧
      ∀ j : Fin 4, (((loadConfig powerOn).keyMap k).codes j).val = 0) ∧
    (eepromGet16 0 (loadConfig powerOn).eeprom).val = EEPROM_MAGIC ∧
    loadConfig (loadConfig powerOn) = loadConfig powerOn :=
  have h := self_healing_load powerOn (by decide)
  ⟨by decide, h.1, h.2.1, h.2.2.2.2⟩

/-! ## Quadrature decoder -/

theorem runISR_append (l1 l2 : List (Bool × Bool)) :
    ∀ s : State, runISR (l1 ++ l2) s = runISR l2 (runISR l1 s) := by
  induction l1 with
  | nil => intro s; rfl
  | cons x l ih => intro s; obtain ⟨a, b⟩ := x; simp [runISR, ih]

/-- One decoder call, by the stored phase and the sampled phase. -/
theorem handleEncoderISR_step (a0 b0 a b : Bool) (s : State)
    (h : s.encoderState = phaseOf a0 b0) :
    (handleEncoderISR a b s).encoderState = phaseOf a b ∧
    (handleEncoderISR a b s).encoderCount =
      s.encoderCount - lookup_table.getD (((phaseOf a0 b0) <<< 2 ||| phaseOf a b) % 256) 0 := by
  unfold handleEncoderISR
  simp only [h]
  by_cases hd : lookup_table.getD (((phaseOf a0 b0) <<< 2 ||| phaseOf a b) % 256) 0 = 0
  · rw [if_neg (not_not.2 hd), hd]
    exact ⟨trivial, (sub_zero _).symm⟩
  · rw [if_pos hd]
    exact ⟨trivial, rfl⟩

theorem forwardCycle_count (ph : Bool × Bool) (s : State)
    (h : s.encoderState = phaseOf ph.1 ph.2) :
    (runISR (forwardCycle ph) s).encoderState = phaseOf ph.1 ph.2 ∧
    (runISR (forwardCycle ph) s).encoderCount = s.encoderCount + 4 := by
  obtain ⟨a, b⟩ := ph
  simp only [forwardCycle, runISR, nextPhase]
  have h1 := handleEncoderISR_step a b b (!a) s h
  have h2 := handleEncoderISR_step b (!a) (!a) (!b) _ h1.1
  have h3 := handleEncoderISR_step (!a) (!b) (!b) (!!a) _ h2.1
  have h4 := handleEncoderISR_step (!b) (!!a) a b _ h3.1
  refine ⟨h4.1, ?_⟩
  rw [h4.2, h3.2, h2.2, h1.2]
  cases a <;> cases b <;> simp [phaseOf, lookup_table] <;> ring

theorem reverseCycle_count (ph : Bool × Bool) (s : State)
    (h : s.encoderState = phaseOf ph.1 ph.2) :
    (runISR (reverseCycle ph) s).encoderState = phaseOf ph.1 ph.2 ∧
    (runISR (reverseCycle ph) s).encoderCount = s.encoderCount - 4 := by
  obtain ⟨a, b⟩ := ph
  simp only [reverseCycle, runISR, prevPhase]
  have h1 := handleEncoderISR_step a b (!b) a s h
  have h2 := handleEncoderISR_step (!b) a (!a) (!b) _ h1.1
  have h3 := handleEncoderISR_step (!a) (!b) (!!b) (!a) _ h2.1
  have h4 := handleEncoderISR_step (!!b) (!a) a b _ h3.1
  refine ⟨h4.1, ?_⟩
  rw [h4.2, h3.2, h2.2, h1.2]
  cases a <;> cases b <;> simp [phaseOf, lookup_table] <;> ring

theorem cycles_forward (ph : Bool × Bool) (k : Nat) :
    ∀ s : State, s.encoderState = phaseOf ph.1 ph.2 →
      (runISR (cycles (forwardCycle ph) k) s).encoderState = phaseOf ph.1 ph.2 ∧
      (runISR (cycles (forwardCycle ph) k) s).encoderCount = s.encoderCount + 4 * (k : Int) := by
  induction k with
  | zero => intro s h; exact ⟨h, by simp [cycles, runISR]⟩
  | succ k ih =>
    intro s h
    have h1 := forwardCycle_count ph s h
    have h2 := ih _ h1.1
    simp only [cycles, runISR_append]
    refine ⟨h2.1, ?_⟩
    rw [h2.2, h1.2]
    push_cast
    ring

theorem cycles_reverse (ph : Bool × Bool) (k : Nat) :
    ∀ s : State, s.encoderState = phaseOf ph.1 ph.2 →
      (runISR (cycles (reverseCycle ph) k) s).encoderState = phaseOf ph.1 ph.2 ∧
      (runISR (cycles (reverseCycle ph) k) s).encoderCount = s.encoderCount - 4 * (k : Int) := by
  induction k with
  | zero => intro s h; exact ⟨h, by simp [cycles, runISR]⟩
  | succ k ih =>
    intro s h
    have h1 := reverseCycle_count ph s h
    have h2 := ih _ h1.1
    simp only [cycles, runISR_append]
    refine ⟨h2.1, ?_⟩
    rw [h2.2, h1.2]
    push_cast
    ring

/-! ## Dispatch semantics -/

theorem finRange4 : List.finRange 4 = [0, 1, 2, 3] := by decide

theorem heldCalls_eq (m : KeyMapping) (pressed : Bool) (f : Nat → HidCall)
    (hf : ∀ c, heldCall m.type.val pressed c = some (f c)) :
    heldCalls m pressed = (nonZeroCodes m).map f := by
  unfold heldCalls nonZeroCodes
  rw [finRange4]
  simp only [List.filterMap_cons, List.filterMap_nil, List.map_cons, List.map_nil, hf,
    List.filter_cons, List.filter_nil]
  by_cases h0 : (m.codes 0).val = 0 <;> by_cases h1 : (m.codes 1).val = 0 <;>
    by_cases h2 : (m.codes 2).val = 0 <;> by_cases h3 : (m.codes 3).val = 0 <;>
    simp [h0, h1, h2, h3]

theorem tapPresses_eq (m : KeyMapping) :
    tapPresses m = (nonZeroCodes m).map (fun c => HidCall.keyboardPress (toKeyboardKeycode c)) := by
  unfold tapPresses nonZeroCodes
  rw [finRange4]
  simp only [List.filterMap_cons, List.filterMap_nil, List.map_cons, List.map_nil,
    List.filter_cons, List.filter_nil]
  by_cases h0 : (m.codes 0).val = 0 <;> by_cases h1 : (m.codes 1).val = 0 <;>
    by_cases h2 : (m.codes 2).val = 0 <;> by_cases h3 : (m.codes 3).val = 0 <;>
    simp [h0, h1, h2, h3]

/-- On a button index, a mapping that is neither `NONE` nor `COMMAND` runs the
loop of lines 389-398 and nothing else. -/
theorem executeMapping_button (s : State) (i : Fin 13) (pressed : Bool) (hi : i.val < NUM_KEYS)
    (h0 : (s.keyMap i).type.val ≠ KeyType.NONE) (h3 : (s.keyMap i).type.val ≠ KeyType.COMMAND) :
    (executeMapping i pressed s).hid = s.hid ++ heldCalls (s.keyMap i) pressed ∧
    (executeMapping i pressed s).serialOut = s.serialOut := by
  have hrange : ¬ (ENCODER_CW_INDEX ≤ i.val ∧ i.val ≤ ENCODER_SW_CCW_INDEX) := by
    simp only [ENCODER_CW_INDEX, NUM_KEYS] at hi ⊢; omega
  unfold executeMapping
  simp only [if_neg h0, if_neg h3, if_neg hrange]
  exact ⟨trivial, trivial⟩

theorem executeMapping_none (s : State) (i : Fin 13) (pressed : Bool)
    (h0 : (s.keyMap i).type.val = KeyType.NONE) :
    (executeMapping i pressed s).hid = s.hid ∧
    (executeMapping i pressed s).serialOut = s.serialOut := by
  unfold executeMapping
  simp only [if_pos h0]
  exact ⟨trivial, trivial⟩

/-- C9 (amended): held semantics for physical buttons.  For every button index
`i < 8`: with a `KEYBOARD` mapping `executeMapping(i, true)` makes exactly one
`Keyboard.press` call for each non-zero code, in slot order, and
`executeMapping(i, false)` exactly one `Keyboard.release` call for the same
codes in the same order, each call with the code narrowed to the 8-bit
`KeyboardKeycode` (the code itself when it is below 256, last part); with a
`CONSUMER` mapping the same holds with `Consumer.press` / `Consumer.release`
and the full 16-bit code; with a `NONE` mapping neither call reaches the HID
library.  Nothing is written to the serial line in any of these cases. -/
theorem held_semantics (s : State) (i : Fin 13) (hi : i.val < NUM_KEYS) :
    ((s.keyMap i).type.val = KeyType.KEYBOARD →
      (executeMapping i true s).hid =
        s.hid ++ (nonZeroCodes (s.keyMap i)).map
          (fun c => HidCall.keyboardPress (toKeyboardKeycode c)) ∧
      (executeMapping i false s).hid =
        s.hid ++ (nonZeroCodes (s.keyMap i)).map
          (fun c => HidCall.keyboardRelease (toKeyboardKeycode c)) ∧
      (executeMapping i true s).serialOut = s.serialOut ∧
      (executeMapping i false s).serialOut = s.serialOut) ∧
    ((s.keyMap i).type.val = KeyType.CONSUMER →
      (executeMapping i true s).hid =
        s.hid ++ (nonZeroCodes (s.keyMap i)).map HidCall.consumerPress ∧
      (executeMapping i false s).hid =
        s.hid ++ (nonZeroCodes (s.keyMap i)).map HidCall.consumerRelease ∧
      (executeMapping i true s).serialOut = s.serialOut ∧
      (executeMapping i false s).serialOut = s.serialOut) ∧
    ((s.keyMap i).type.val = KeyType.NONE →
      (executeMapping i true s).hid = s.hid ∧
      (executeMapping i false s).hid = s.hid ∧
      (executeMapping i true s).serialOut = s.serialOut ∧
      (executeMapping i false s).serialOut = s.serialOut) ∧
    (∀ c, c < 256 → toKeyboardKeycode c = c) := by
  refine ⟨?_, ?_, ?_, fun c hc => Nat.mod_eq_of_lt hc⟩
  · intro ht
    have h0 : (s.keyMap i).type.val ≠ KeyType.NONE := by rw [ht]; decide
    have h3 : (s.keyMap i).type.val ≠ KeyType.COMMAND := by rw [ht]; decide
    have ht1 := executeMapping_button s i true hi h0 h3
    have hf1 := executeMapping_button s i false hi h0 h3
    rw [heldCalls_eq _ true (fun c => HidCall.keyboardPress (toKeyboardKeycode c))
      (by intro c; simp [heldCall, ht])] at ht1
    rw [heldCalls_eq _ false (fun c => HidCall.keyboardRelease (toKeyboardKeycode c))
      (by intro c; simp [heldCall, ht])] at hf1
    exact ⟨ht1.1, hf1.1, ht1.2, hf1.2⟩
  · intro ht
    have h0 : (s.keyMap i).type.val ≠ KeyType.NONE := by rw [ht]; decide
    have h3 : (s.keyMap i).type.val ≠ KeyType.COMMAND := by rw [ht]; decide
    have ht1 := executeMapping_button s i true hi h0 h3
    have hf1 := executeMapping_button s i false hi h0 h3
    rw [heldCalls_eq _ true HidCall.consumerPress (by
      intro c; simp [heldCall, ht, KeyType.CONSUMER, KeyType.KEYBOARD])] at ht1
    rw [heldCalls_eq _ false HidCall.consumerRelease (by
      intro c; simp [heldCall, ht, KeyType.CONSUMER, KeyType.KEYBOARD])] at hf1
    exact ⟨ht1.1, hf1.1, ht1.2, hf1.2⟩
  · intro ht
    have h1 := executeMapping_none s i true ht
    have h2 := executeMapping_none s i false ht
    exact ⟨h1.1, h2.1, h1.2, h2.2⟩

/-- On an encoder index, a `KEYBOARD` or `CONSUMER` mapping runs lines 378-385,
whatever `pressed` is. -/
theorem executeMapping_encoder (s : State) (i : Fin 13) (pressed : Bool)
    (hi : ENCODER_CW_INDEX ≤ i.val) :
    ((s.keyMap i).type.val = KeyType.KEYBOARD →
      (executeMapping i pressed s).hid =
        s.hid ++ (nonZeroCodes (s.keyMap i)).map
          (fun c => HidCall.keyboardPress (toKeyboardKeycode c)) ++
          [HidCall.keyboardReleaseAll]) ∧
    ((s.keyMap i).type.val = KeyType.CONSUMER →
      (executeMapping i pressed s).hid =
        s.hid ++ (if ((s.keyMap i).codes 0).val ≠ 0
          then [HidCall.consumerWrite ((s.keyMap i).codes 0).val] else [])) := by
  have hrange : ENCODER_CW_INDEX ≤ i.val ∧ i.val ≤ ENCODER_SW_CCW_INDEX := by
    have := i.isLt
    simp only [ENCODER_CW_INDEX, ENCODER_SW_CCW_INDEX, NUM_KEYS] at hi ⊢; omega
  constructor
  · intro ht
    have h0 : (s.keyMap i).type.val ≠ KeyType.NONE := by rw [ht]; decide
    have h3 : (s.keyMap i).type.val ≠ KeyType.COMMAND := by rw [ht]; decide
    have h2 : (s.keyMap i).type.val ≠ KeyType.CONSUMER := by rw [ht]; decide
    unfold executeMapping
    simp only [if_neg h0, if_neg h3, if_pos hrange, if_neg h2, if_pos ht, tapPresses_eq]
  · intro ht
    have h0 : (s.keyMap i).type.val ≠ KeyType.NONE := by rw [ht]; decide
    have h3 : (s.keyMap i).type.val ≠ KeyType.COMMAND := by rw [ht]; decide
    unfold executeMapping
    simp only [if_neg h0, if_neg h3, if_pos hrange, if_pos ht]
    by_cases hc : ((s.keyMap i).codes 0).val = 0
    · simp [hc]
    · simp [hc]

theorem keyboardAsserted_releaseAll (pre : List HidCall) :
    keyboardAsserted (pre ++ [HidCall.keyboardReleaseAll]) = [] := by
  simp [keyboardAsserted, List.foldl_append, keyboardSinkStep]

theorem consumerAsserted_write (pre : List HidCall) (c : Nat) :
    c ∉ consumerAsserted (pre ++ [HidCall.consumerWrite c]) := by
  simp [consumerAsserted, List.foldl_append, consumerSinkStep]

/-- C10 (amended): tap semantics for the encoder indices 8..12.  For a `KEYBOARD`
mapping, `executeMapping(index, true)` and `executeMapping(index, false)` make
the same calls: one `Keyboard.press` per non-zero code in slot order, each with
the code narrowed to the 8-bit `KeyboardKeycode` (the code itself when it is
below 256, last part), then `Keyboard.releaseAll`, after which no keyboard
code is asserted.  For a `CONSUMER` mapping both make the same calls: one
`Consumer.write` of the code in slot 0 when that code is non-zero and no call
at all when it is zero; the written code is not asserted afterwards. -/
theorem tap_semantics (s : State) (i : Fin 13) (hi : ENCODER_CW_INDEX ≤ i.val) :
    ((s.keyMap i).type.val = KeyType.KEYBOARD →
      (executeMapping i true s).hid =
        s.hid ++ (nonZeroCodes (s.keyMap i)).map
          (fun c => HidCall.keyboardPress (toKeyboardKeycode c)) ++
          [HidCall.keyboardReleaseAll] ∧
      (executeMapping i false s).hid = (executeMapping i true s).hid ∧
      keyboardAsserted (executeMapping i true s).hid = []) ∧
    ((s.keyMap i).type.val = KeyType.CONSUMER →
      (executeMapping i true s).hid =
        s.hid ++ (if ((s.keyMap i).codes 0).val ≠ 0
          then [HidCall.consumerWrite ((s.keyMap i).codes 0).val] else []) ∧
      (executeMapping i false s).hid = (executeMapping i true s).hid ∧
      (((s.keyMap i).codes 0).val ≠ 0 →
        ((s.keyMap i).codes 0).val ∉ consumerAsserted (executeMapping i true s).hid)) ∧
    (∀ c, c < 256 → toKeyboardKeycode c = c) := by
  have ht := executeMapping_encoder s i true hi
  have hf := executeMapping_encoder s i false hi
  refine ⟨?_, ?_, fun c hc => Nat.mod_eq_of_lt hc⟩
  · intro h
    refine ⟨ht.1 h, by rw [ht.1 h, hf.1 h], ?_⟩
    rw [ht.1 h]
    exact keyboardAsserted_releaseAll _
  · intro h
    refine ⟨ht.2 h, by rw [ht.2 h, hf.2 h], ?_⟩
    intro hc
    rw [ht.2 h, if_pos hc]
    exact consumerAsserted_write _ _

/-! ## Concrete runs -/

set_option maxRecDepth 100000 in
/-- C9 at a concrete input: button 0 of the sample table, a keyboard combo
with codes 4 and 5 in slots 0 and 2. -/
theorem held_semantics_witness :
    (0 : Fin 13).val < NUM_KEYS ∧ (sampleState.keyMap 0).type.val = KeyType.KEYBOARD ∧
    (executeMapping 0 true sampleState).hid
      = [HidCall.keyboardPress 4, HidCall.keyboardPress 5] ∧
    (executeMapping 0 false sampleState).hid
      = [HidCall.keyboardRelease 4, HidCall.keyboardRelease 5] := by
  have h := (held_semantics sampleState 0 (by decide)).1 (by decide)
  refine ⟨by decide, by decide, ?_, ?_⟩
  · rw [h.1]; decide
  · rw [h.2.1]; decide

set_option maxRecDepth 100000 in
/-- C9 as stated fails for a `KEYBOARD` mapping with a code above 255: button 0
of `wideMap` carries the codes 260, 256 and 5, and `executeMapping(0, true)`
calls `Keyboard.press` with 4, 0 and 5, `executeMapping(0, false)` calls
`Keyboard.release` with 4, 0 and 5: the codes 260 and 256 never reach the
library. -/
theorem held_semantics_counterexample :
    (wideState.keyMap 0).type.val = KeyType.KEYBOARD ∧
    nonZeroCodes (wideState.keyMap 0) = [260, 256, 5] ∧
    (executeMapping 0 true wideState).hid
      = [HidCall.keyboardPress 4, HidCall.keyboardPress 0, HidCall.keyboardPress 5] ∧
    (executeMapping 0 false wideState).hid
      = [HidCall.keyboardRelease 4, HidCall.keyboardRelease 0, HidCall.keyboardRelease 5] :=
  ⟨by decide, by decide, by decide, by decide⟩

set_option maxRecDepth 100000 in
/-- C10 as stated fails for a `CONSUMER` mapping whose slot 0 is empty: the
clockwise detent of the sample table carries code 233 in slot 1, and
`executeMapping(8, ..)` makes no HID call at all, while the same mapping on
button 2 presses 233.  It also fails for a `KEYBOARD` mapping with a code
above 255: the counter-clockwise detent of `wideMap` carries 511 and 256, and
`executeMapping(9, ..)` calls `Keyboard.press` with 255 and 0. -/
theorem tap_semantics_counterexample :
    (sampleState.keyMap 8).type.val = KeyType.CONSUMER ∧
    ((sampleState.keyMap 8).codes 1).val = 233 ∧
    (executeMapping 8 true sampleState).hid = [] ∧
    (executeMapping 8 false sampleState).hid = [] ∧
    sampleState.keyMap 2 = sampleState.keyMap 8 ∧
    (executeMapping 2 true sampleState).hid = [HidCall.consumerPress 233] ∧
    (wideState.keyMap 9).type.val = KeyType.KEYBOARD ∧
    nonZeroCodes (wideState.keyMap 9) = [511, 256] ∧
    (executeMapping 9 true wideState).hid
      = [HidCall.keyboardPress 255, HidCall.keyboardPress 0, HidCall.keyboardReleaseAll] :=
  ⟨by decide, by decide, by decide, by decide, rfl, by decide, by decide, by decide, by decide⟩

set_option maxRecDepth 100000 in
/-- C10 at a concrete input: the counter-clockwise detent of the sample table, a
keyboard combo with codes 128 and 129. -/
theorem tap_semantics_witness :
    ENCODER_CW_INDEX ≤ (9 : Fin 13).val ∧ (sampleState.keyMap 9).type.val = KeyType.KEYBOARD ∧
    (executeMapping 9 true sampleState).hid
      = [HidCall.keyboardPress 128, HidCall.keyboardPress 129, HidCall.keyboardReleaseAll] ∧
    (executeMapping 9 false sampleState).hid = (executeMapping 9 true sampleState).hid ∧
    keyboardAsserted (executeMapping 9 true sampleState).hid = [] := by
  have h := (tap_semantics sampleState 9 (by decide)).1 (by decide)
  refine ⟨by decide, by decide, ?_, h.2.1, h.2.2⟩
  rw [h.1]; decide

/-! ## Configuration protocol -/

theorem digitChar_toNat (k : Nat) (hk : k < 10) : (Char.ofNat (48 + k)).toNat = 48 + k := by
  interval_cases k <;> rfl

theorem IsDigit.ne_comma {c : Char} (h : IsDigit c) : c ≠ ',' := by
  rintro rfl; exact absurd h.1 (by decide)

theorem IsDigit.ne_newline {c : Char} (h : IsDigit c) : c ≠ '\n' := by
  rintro rfl; exact absurd h.1 (by decide)

theorem IsDigit.ne_nul {c : Char} (h : IsDigit c) : c ≠ '\x00' := by
  rintro rfl; exact absurd h.1 (by decide)

theorem IsDigit.ne_minus {c : Char} (h : IsDigit c) : c ≠ '-' := by
  rintro rfl; exact absurd h.1 (by decide)

theorem IsDigit.ne_plus {c : Char} (h : IsDigit c) : c ≠ '+' := by
  rintro rfl; exact absurd h.1 (by decide)

theorem IsDigit.not_isspace {c : Char} (h : IsDigit c) : isspace c = false := by
  unfold isspace
  have h1 : c ≠ ' ' := by rintro rfl; exact absurd h.1 (by decide)
  have h2 : c ≠ '\t' := by rintro rfl; exact absurd h.1 (by decide)
  have h3 : c ≠ '\n' := by rintro rfl; exact absurd h.1 (by decide)
  have h4 : c ≠ '\x0b' := by rintro rfl; exact absurd h.1 (by decide)
  have h5 : c ≠ '\x0c' := by rintro rfl; exact absurd h.1 (by decide)
  have h6 : c ≠ '\r' := by rintro rfl; exact absurd h.1 (by decide)
  simp [h1, h2, h3, h4, h5, h6]

theorem digitsValue_append (l r : List Char) (hl : ∀ c ∈ l, IsDigit c) :
    ∀ a, digitsValue (l ++ r) a = digitsValue r (digitsValue l a) := by
  induction l with
  | nil => intro a; rfl
  | cons c l ih =>
    intro a
    have hc : 48 ≤ c.toNat ∧ c.toNat ≤ 57 := hl c (List.mem_cons_self _ _)
    simp only [List.cons_append, digitsValue, if_pos hc]
    exact ih (fun x hx => hl x (List.mem_cons_of_mem _ hx)) _

/-- The digits `printNumberAux` puts in front of `acc`, and their value. -/
theorem printNumberAux_spec (fuel : Nat) :
    ∀ n acc, n < 10 ^ fuel → 0 < fuel →
      ∃ ds, printNumberAux fuel n acc = ds ++ acc ∧ ds ≠ [] ∧ (∀ c ∈ ds, IsDigit c) ∧
        ∀ a, digitsValue ds a = a * 10 ^ ds.length + n := by
  induction fuel with
  | zero => intro n acc _ h; exact absurd h (by decide)
  | succ fuel ih =>
    intro n acc hn _
    have hd : IsDigit (Char.ofNat (48 + n % 10)) := by
      unfold IsDigit
      rw [digitChar_toNat _ (Nat.mod_lt _ (by decide))]
      have := Nat.mod_lt n (show 0 < 10 by decide)
      omega
    have hv : ∀ a, digitsValue [Char.ofNat (48 + n % 10)] a = a * 10 + n % 10 := by
      intro a
      have hd2 : 48 ≤ (Char.ofNat (48 + n % 10)).toNat ∧ (Char.ofNat (48 + n % 10)).toNat ≤ 57 := hd
      simp only [digitsValue, if_pos hd2]
      rw [digitChar_toNat _ (Nat.mod_lt _ (by decide))]
      omega
    by_cases h0 : n / 10 = 0
    · refine ⟨[Char.ofNat (48 + n % 10)], ?_, by simp, ?_, ?_⟩
      · simp [printNumberAux, h0]
      · intro c hc; simp at hc; subst hc; exact hd
      · intro a
        rw [hv]
        have : n % 10 = n := by omega
        simp [this]
    · have hfuel : 0 < fuel := by
        rcases Nat.eq_zero_or_pos fuel with h | h
        · subst h; simp at hn; omega
        · exact h
      have hn10 : n / 10 < 10 ^ fuel := by
        rw [Nat.pow_succ] at hn
        omega
      obtain ⟨ds, hds, hne, hdig, hval⟩ := ih (n / 10) (Char.ofNat (48 + n % 10) :: acc) hn10 hfuel
      refine ⟨ds ++ [Char.ofNat (48 + n % 10)], ?_, by simp, ?_, ?_⟩
      · simp [printNumberAux, h0, hds]
      · intro c hc
        rcases List.mem_append.1 hc with h | h
        · exact hdig c h
        · simp at h; subst h; exact hd
      · intro a
        rw [digitsValue_append _ _ hdig, hval, hv]
        simp only [List.length_append, List.length_singleton, Nat.pow_succ]
        have := Nat.div_add_mod n 10
        nlinarith [Nat.div_add_mod n 10]

theorem printNumber_spec (n : Nat) (hn : n < 65536) :
    IsToken (printNumber n) ∧ digitsValue (printNumber n) 0 = n := by
  have h32 : n < 10 ^ 32 := lt_of_lt_of_le hn (by norm_num)
  obtain ⟨ds, hds, hne, hdig, hval⟩ := printNumberAux_spec 32 n [] h32 (by decide)
  have e : printNumber n = ds := by
    unfold printNumber; rw [hds, List.append_nil]
  rw [e]
  exact ⟨⟨hne, hdig⟩, by rw [hval]; simp⟩

theorem leadingNumber_token (t : List Char) (ht : IsToken t) :
    leadingNumber t = (digitsValue t 0 : Int) := by
  obtain ⟨hne, hdig⟩ := ht
  cases t with
  | nil => exact absurd rfl hne
  | cons c cs =>
    have hc : IsDigit c := hdig c (List.mem_cons_self _ _)
    unfold leadingNumber
    have hsp : List.dropWhile isspace (c :: cs) = c :: cs := by
      rw [List.dropWhile_cons_of_neg]
      simp [hc.not_isspace]
    rw [hsp]
    split
    · rename_i r heq
      exact absurd (List.cons.inj heq).1 hc.ne_minus
    · rename_i r heq
      exact absurd (List.cons.inj heq).1 hc.ne_plus
    · rfl

theorem atoi_printNumber (n : Nat) (hn : n < 65536) :
    (toUInt16 (atoi (printNumber n))).val = n ∧
    (n < 256 → (toKeyType (atoi (printNumber n))).val = n) := by
  obtain ⟨htok, hval⟩ := printNumber_spec n hn
  have e : atoi (printNumber n) = toInt16 (n : Int) := by
    unfold atoi
    rw [leadingNumber_token _ htok, hval]
  rw [e]
  unfold toInt16 toUInt16 toKeyType
  constructor
  · simp only []
    omega
  · intro h
    simp only []
    omega

theorem strtok_nil : strtok [] = (none, []) := by
  simp [strtok]

theorem strtok_join (t : List Char) (ts : List (List Char)) (ht : IsToken t) :
    strtok (joinTokens (t :: ts)) = (some t, joinTokens ts) := by
  obtain ⟨hne, hdig⟩ := ht
  have hcomma : ∀ c ∈ t, (decide (c ≠ ',')) = true := by
    intro c hc; simpa using (hdig c hc).ne_comma
  cases t with
  | nil => exact absurd rfl hne
  | cons c cs =>
    have hc : c ≠ ',' := (hdig c (List.mem_cons_self _ _)).ne_comma
    cases ts with
    | nil =>
      have h1 : List.dropWhile (fun c => decide (c = ',')) (c :: cs) = c :: cs := by
        rw [List.dropWhile_cons_of_neg]; simpa using hc
      have h2 : List.takeWhile (fun c => decide (c ≠ ',')) (c :: cs) = c :: cs :=
        List.takeWhile_eq_self_iff.2 hcomma
      have h3 : List.dropWhile (fun c => decide (c ≠ ',')) (c :: cs) = [] :=
        List.dropWhile_eq_nil_iff.2 hcomma
      simp only [strtok, joinTokens, h1, h2, h3]
      simp
    | cons t2 ts =>
      have h1 : List.dropWhile (fun c => decide (c = ','))
          (c :: cs ++ ',' :: joinTokens (t2 :: ts)) = c :: cs ++ ',' :: joinTokens (t2 :: ts) := by
        rw [List.cons_append, List.dropWhile_cons_of_neg]; simpa using hc
      have h2 : List.takeWhile (fun c => decide (c ≠ ','))
          (c :: cs ++ ',' :: joinTokens (t2 :: ts)) = c :: cs := by
        rw [List.takeWhile_append_of_pos hcomma]
        simp
      have h3 : List.dropWhile (fun c => decide (c ≠ ','))
          (c :: cs ++ ',' :: joinTokens (t2 :: ts)) = ',' :: joinTokens (t2 :: ts) := by
        rw [List.dropWhile_append_of_pos hcomma]
        simp
      simp only [strtok, joinTokens, h1, h2, h3]
      simp

theorem codeTokens_isToken (m : KeyMapping) : ∀ t ∈ codeTokens m, IsToken t := by
  intro t ht
  simp only [codeTokens, List.mem_cons, List.mem_singleton, List.not_mem_nil, or_false] at ht
  rcases ht with h | h | h | h <;> subst h <;> exact (printNumber_spec _ (m.codes _).isLt).1

theorem type_isToken (m : KeyMapping) : IsToken (printNumber m.type.val) :=
  (printNumber_spec _ (lt_trans m.type.isLt (by decide))).1

theorem tableTokens_isToken (km : Fin 13 → KeyMapping) (l : List (Fin 13)) :
    ∀ t ∈ tableTokens km l, IsToken t := by
  intro t ht
  simp only [tableTokens, List.mem_flatMap, entryTokens, List.mem_cons] at ht
  obtain ⟨i, _, h | h⟩ := ht
  · subst h; exact type_isToken _
  · exact codeTokens_isToken _ t h

theorem setConfigCode_spec (i : Fin 13) (j : Fin 4) (l : SetConfigLoop) (c : Fin 65536)
    (ts : List (List Char)) (h : l.rest = joinTokens (printNumber c.val :: ts)) :
    setConfigCode i j l =
      { l with
        keyMap := Function.update l.keyMap i
          { l.keyMap i with codes := Function.update (l.keyMap i).codes j c }
        p := some (printNumber c.val)
        rest := joinTokens ts } := by
  have htok := strtok_join (printNumber c.val) ts (printNumber_spec _ c.isLt).1
  have hc : toUInt16 (atoi (printNumber c.val)) = c := Fin.ext (atoi_printNumber _ c.isLt).1
  unfold setConfigCode
  simp only [h, htok, hc]

theorem setConfigCodes_spec (i : Fin 13) (st : SetConfigLoop) (m : KeyMapping)
    (ts : List (List Char)) (hrest : st.rest = joinTokens (codeTokens m ++ ts)) :
    setConfigCodes i st =
      { st with
        keyMap := Function.update st.keyMap i ⟨(st.keyMap i).type, m.codes⟩
        p := some (printNumber (m.codes 3).val)
        rest := joinTokens ts } := by
  unfold setConfigCodes
  rw [finRange4]
  simp only [List.foldl_cons, List.foldl_nil]
  simp only [codeTokens, List.cons_append, List.nil_append] at hrest
  rw [setConfigCode_spec i 0 st (m.codes 0) _ hrest]
  rw [setConfigCode_spec i 1 _ (m.codes 1) _ rfl]
  rw [setConfigCode_spec i 2 _ (m.codes 2) _ rfl]
  rw [setConfigCode_spec i 3 _ (m.codes 3) _ rfl]
  simp only [Function.update_idem, Function.update_same]
  have hcodes : Function.update (Function.update (Function.update
      (Function.update (st.keyMap i).codes 0 (m.codes 0)) 1 (m.codes 1)) 2 (m.codes 2)) 3
        (m.codes 3) = m.codes := by
    funext j
    fin_cases j <;> simp [Function.update]
  rw [hcodes]

theorem setConfigEntry_spec (i : Fin 13) (st : SetConfigLoop) (m : KeyMapping)
    (ts : List (List Char)) (hdone : st.done = false)
    (hp : st.p = some (printNumber m.type.val))
    (hrest : st.rest = joinTokens (codeTokens m ++ ts)) :
    (setConfigEntry i st).keyMap = Function.update st.keyMap i m ∧
    (setConfigEntry i st).done = false ∧
    (i.val < NUM_TOTAL_MAPS - 1 →
      (setConfigEntry i st).p = (strtok (joinTokens ts)).1 ∧
      (setConfigEntry i st).rest = (strtok (joinTokens ts)).2) := by
  have ht : toKeyType (atoi (printNumber m.type.val)) = m.type :=
    Fin.ext ((atoi_printNumber _ (lt_trans m.type.isLt (by decide))).2 m.type.isLt)
  unfold setConfigEntry
  simp only [hdone, hp, ht]
  have hcs := setConfigCodes_spec i
    { keyMap := Function.update st.keyMap i { type := m.type, codes := (st.keyMap i).codes },
      p := some (printNumber m.type.val), rest := st.rest, done := false } m ts hrest
  simp only [Bool.false_eq_true, if_false, hcs, Function.update_idem, Function.update_same]
  by_cases hi : i.val < NUM_TOTAL_MAPS - 1
  · simp only [if_pos hi]
    exact ⟨trivial, trivial, fun _ => ⟨trivial, trivial⟩⟩
  · simp only [if_neg hi]
    exact ⟨trivial, trivial, fun h => absurd h hi⟩

theorem finRange13 : List.finRange 13 = [0, 1, 2, 3, 4, 5, 6, 7, 8, 9, 10, 11, 12] := by decide

theorem joinTokens_append (a b : List (List Char)) (ha : a ≠ []) (hb : b ≠ []) :
    joinTokens (a ++ b) = joinTokens a ++ ',' :: joinTokens b := by
  induction a with
  | nil => exact absurd rfl ha
  | cons t a ih =>
    cases a with
    | nil =>
      cases b with
      | nil => exact absurd rfl hb
      | cons t2 b => simp [joinTokens]
    | cons t1 a =>
      have := ih (by simp)
      simp only [List.cons_append] at this ⊢
      simp only [joinTokens, this, List.append_assoc, List.cons_append]

theorem configText_step (km : Fin 13 → KeyMapping) (out : List Char) (i : Fin 13) :
    (let out1 := out ++ printNumber (km i).type.val ++ [',']
     let out2 := (List.finRange 4).foldl
        (fun o j =>
          let o1 := o ++ printNumber ((km i).codes j).val
          if j.val < MAX_COMBO_KEYS - 1 then o1 ++ [','] else o1)
        out1
     if i.val < NUM_TOTAL_MAPS - 1 then out2 ++ [','] else out2) = out ++ entryPiece km i := by
  rw [finRange4]
  simp only [List.foldl_cons, List.foldl_nil, entryPiece, entryTokens, codeTokens, joinTokens,
    MAX_COMBO_KEYS]
  have e0 : ((0 : Fin 4).val < 4 - 1) = True := by simp
  have e1 : ((1 : Fin 4).val < 4 - 1) = True := by simp
  have e2 : ((2 : Fin 4).val < 4 - 1) = True := by simp
  have e3 : ((3 : Fin 4).val < 4 - 1) = False := by
    have : (3 : Fin 4).val = 3 := rfl
    simp [this]
  simp only [e0, e1, e2, e3, if_true, if_false]
  by_cases h : i.val < NUM_TOTAL_MAPS - 1
  · simp [h]
  · simp [h]

theorem configText_fold (km : Fin 13 → KeyMapping) (l : List (Fin 13)) :
    ∀ out : List Char,
      l.foldl
        (fun out i =>
          let out1 := out ++ printNumber (km i).type.val ++ [',']
          let out2 := (List.finRange 4).foldl
            (fun o j =>
              let o1 := o ++ printNumber ((km i).codes j).val
              if j.val < MAX_COMBO_KEYS - 1 then o1 ++ [','] else o1)
            out1
          if i.val < NUM_TOTAL_MAPS - 1 then out2 ++ [','] else out2)
        out = out ++ (l.map (entryPiece km)).flatten := by
  induction l with
  | nil => intro out; simp
  | cons i l ih =>
    intro out
    rw [List.foldl_cons, configText_step, ih]
    simp

theorem entryTokens_ne_nil (m : KeyMapping) : entryTokens m ≠ [] := by
  simp [entryTokens]

theorem tableTokens_cons (km : Fin 13 → KeyMapping) (i : Fin 13) (l : List (Fin 13)) :
    tableTokens km (i :: l) = entryTokens (km i) ++ tableTokens km l := by
  simp [tableTokens]

theorem pieces_eq_join (km : Fin 13 → KeyMapping) (l : List (Fin 13)) :
    ∀ i : Fin 13, List.Chain (fun a _ => a.val < NUM_TOTAL_MAPS - 1) i l →
      (∀ a, (i :: l).getLast? = some a → ¬ a.val < NUM_TOTAL_MAPS - 1) →
      ((i :: l).map (entryPiece km)).flatten = joinTokens (tableTokens km (i :: l)) := by
  induction l with
  | nil =>
    intro i _ hlast
    have h := hlast i rfl
    simp [entryPiece, h, tableTokens]
  | cons i2 l ih =>
    intro i hch hlast
    rw [List.chain_cons] at hch
    have hrec := ih i2 hch.2 (by
      intro a ha
      exact hlast a (by rw [List.getLast?_cons_cons]; exact ha))
    rw [List.map_cons, List.flatten_cons, hrec, tableTokens_cons km i (i2 :: l)]
    rw [joinTokens_append _ _ (entryTokens_ne_nil _) (by
      rw [tableTokens_cons]; simp [entryTokens])]
    simp [entryPiece, hch.1]

theorem configText_eq (km : Fin 13 → KeyMapping) :
    configText km = joinTokens (tableTokens km (List.finRange 13)) := by
  unfold configText
  rw [configText_fold, List.nil_append, finRange13]
  refine pieces_eq_join km _ 0 ?_ (by decide)
  simp only [List.chain_cons, NUM_TOTAL_MAPS, NUM_KEYS, NUM_ENCODER_MAPS]
  refine ⟨by decide, by decide, by decide, by decide, by decide, by decide, by decide, by decide,
    by decide, by decide, by decide, by decide, List.Chain.nil⟩

theorem setConfigLoop_spec (T : Fin 13 → KeyMapping) (l : List (Fin 13)) :
    ∀ (i : Fin 13) (st : SetConfigLoop), st.done = false →
      st.p = some (printNumber (T i).type.val) →
      st.rest = joinTokens (codeTokens (T i) ++ tableTokens T l) →
      List.Chain (fun a _ => a.val < NUM_TOTAL_MAPS - 1) i l →
      ((i :: l).foldl (fun st i => setConfigEntry i st) st).keyMap =
        (i :: l).foldl (fun km i => Function.update km i (T i)) st.keyMap := by
  induction l with
  | nil =>
    intro i st hdone hp hrest _
    exact (setConfigEntry_spec i st (T i) _ hdone hp hrest).1
  | cons i2 l ih =>
    intro i st hdone hp hrest hch
    rw [List.chain_cons] at hch
    obtain ⟨hkm, hd, hnext⟩ := setConfigEntry_spec i st (T i) _ hdone hp hrest
    obtain ⟨hp2, hr2⟩ := hnext hch.1
    have htok : strtok (joinTokens (tableTokens T (i2 :: l))) =
        (some (printNumber (T i2).type.val), joinTokens (codeTokens (T i2) ++ tableTokens T l)) := by
      rw [tableTokens_cons]
      exact strtok_join _ _ (type_isToken _)
    rw [htok] at hp2 hr2
    have := ih i2 (setConfigEntry i st) hd hp2 hr2 hch.2
    rw [List.foldl_cons, this, hkm]
    rfl

theorem foldl_update_apply (T km : Fin 13 → KeyMapping) (l : List (Fin 13)) (i : Fin 13) :
    (l.foldl (fun km i => Function.update km i (T i)) km) i = if i ∈ l then T i else km i := by
  induction l generalizing km with
  | nil => simp
  | cons j l ih =>
    rw [List.foldl_cons, ih]
    by_cases hil : i ∈ l
    · simp [hil]
    · by_cases hij : i = j
      · subst hij; simp [hil]
      · simp [hil, hij, Function.update_noteq hij]

/-- Parsing the text `GET_CONFIG` prints for a table gives that table back. -/
theorem parseConfig_configText (T km : Fin 13 → KeyMapping) :
    parseConfig (configText T) km = T := by
  unfold parseConfig
  rw [configText_eq, finRange13]
  have htok : strtok (joinTokens (tableTokens T [0, 1, 2, 3, 4, 5, 6, 7, 8, 9, 10, 11, 12])) =
      (some (printNumber (T 0).type.val),
        joinTokens (codeTokens (T 0) ++ tableTokens T [1, 2, 3, 4, 5, 6, 7, 8, 9, 10, 11, 12])) := by
    rw [tableTokens_cons]
    exact strtok_join _ _ (type_isToken _)
  rw [htok]
  rw [setConfigLoop_spec T _ 0 _ rfl rfl rfl (by
    simp only [List.chain_cons, NUM_TOTAL_MAPS, NUM_KEYS, NUM_ENCODER_MAPS]
    exact ⟨by decide, by decide, by decide, by decide, by decide, by decide, by decide, by decide,
      by decide, by decide, by decide, by decide, List.Chain.nil⟩)]
  funext i
  rw [foldl_update_apply, ← finRange13, if_pos (List.mem_finRange i)]

theorem configText_chars (T : Fin 13 → KeyMapping) :
    ∀ c ∈ configText T, IsDigit c ∨ c = ',' := by
  rw [configText_eq]
  have hgen : ∀ ts : List (List Char), (∀ t ∈ ts, IsToken t) →
      ∀ c ∈ joinTokens ts, IsDigit c ∨ c = ',' := by
    intro ts
    induction ts with
    | nil => intro _ c hc; simp [joinTokens] at hc
    | cons t ts ih =>
      intro hts c hc
      cases ts with
      | nil =>
        simp only [joinTokens] at hc
        exact Or.inl ((hts t (List.mem_cons_self _ _)).2 c hc)
      | cons t2 ts =>
        simp only [joinTokens, List.mem_append, List.mem_cons] at hc
        rcases hc with h | h | h
        · exact Or.inl ((hts t (List.mem_cons_self _ _)).2 c h)
        · exact Or.inr h
        · exact ih (fun x hx => hts x (List.mem_cons_of_mem _ hx)) c h
  exact hgen _ (tableTokens_isToken T _)

theorem readBytesUntil_line (line more : List Char) (hnl : ∀ c ∈ line, c ≠ '\n') :
    ∀ n, line.length < n → readBytesUntil '\n' n (line ++ '\n' :: more) = (line, more) := by
  induction line with
  | nil =>
    intro n hn
    cases n with
    | zero => exact absurd hn (by simp)
    | succ n => simp [readBytesUntil]
  | cons c cs ih =>
    intro n hn
    cases n with
    | zero => exact absurd hn (by simp)
    | succ n =>
      have hc : c ≠ '\n' := hnl c (List.mem_cons_self _ _)
      have := ih (fun x hx => hnl x (List.mem_cons_of_mem _ hx)) n (by simpa using hn)
      simp [readBytesUntil, hc, this]

/-- The handler on a pending line without NUL bytes and without leading blanks:
the command is the line itself. -/
theorem handleSerialCommands_line (env : Env) (s : State) (line more : List Char)
    (hin : s.serialIn = line ++ '\n' :: more) (hlen : line.length < 255)
    (hnl : ∀ c ∈ line, c ≠ '\n') (hnul : ∀ c ∈ line, c ≠ '\x00')
    (hws : line.dropWhile (fun c => c = ' ' ∨ c = '\t' ∨ c = '\r') = line) :
    handleSerialCommands env s =
      (if line = "GET_CONFIG".toList then
        println []
          { s with serialIn := more,
                   serialOut := s.serialOut ++ "CONFIG:".toList ++ configText s.keyMap }
      else if line.take 11 = "SET_CONFIG:".toList then
        println "OK".toList
          (saveConfig { s with serialIn := more, keyMap := parseConfig (line.drop 11) s.keyMap })
      else handleSerialCommands env s) := by
  have hne : ¬ (line ++ '\n' :: more = []) := by simp
  have hrd := readBytesUntil_line line more hnl 255 hlen
  have htw : line.takeWhile (fun c => decide (c ≠ '\x00')) = line :=
    List.takeWhile_eq_self_iff.2 (by intro c hc; simpa using hnul c hc)
  by_cases h1 : line = "GET_CONFIG".toList
  · rw [if_pos h1]
    unfold handleSerialCommands
    simp only [hin, if_neg hne, hrd, htw, hws, if_pos h1]
  · rw [if_neg h1]
    by_cases h2 : line.take 11 = "SET_CONFIG:".toList
    · rw [if_pos h2]
      unfold handleSerialCommands
      simp only [hin, if_neg hne, hrd, htw, hws, if_neg h1, if_pos h2]
    · rw [if_neg h2]

/-- C5 (amended): `SET_CONFIG` / `GET_CONFIG` round trip for a line that fits
the read buffer.  For every table `T`, every state and every input that starts
with the line `SET_CONFIG:` followed by the 65 values of `T` in decimal,
comma-separated, in table order, and then the line `GET_CONFIG`: if the first
line is shorter than 255 bytes, handling it makes the in-memory table equal to
`T`, persists it (a later `loadConfig` from that storage gives `T`) and replies
`OK`; handling the second line replies `CONFIG:`, exactly the same 65 values
and a line end, and leaves the table and the rest of the input as they are. -/
theorem set_get_config_roundtrip (env : Env) (s : State) (T : Fin 13 → KeyMapping)
    (more : List Char)
    (hfit : ("SET_CONFIG:".toList ++ configText T).length < 255)
    (hin : s.serialIn = setThenGet T ++ more) :
    (handleSerialCommands env s).keyMap = T ∧
    (handleSerialCommands env s).serialOut = s.serialOut ++ "OK\r\n".toList ∧
    (∀ t : State, t.eeprom = (handleSerialCommands env s).eeprom → (loadConfig t).keyMap = T) ∧
    (handleSerialCommands env (handleSerialCommands env s)).serialOut =
      (handleSerialCommands env s).serialOut ++ "CONFIG:".toList ++ configText T ++ "\r\n".toList ∧
    (handleSerialCommands env (handleSerialCommands env s)).keyMap = T ∧
    (handleSerialCommands env (handleSerialCommands env s)).serialIn = more := by
  have hS : "SET_CONFIG:".toList = ['S', 'E', 'T', '_', 'C', 'O', 'N', 'F', 'I', 'G', ':'] := rfl
  have hG : "GET_CONFIG".toList = ['G', 'E', 'T', '_', 'C', 'O', 'N', 'F', 'I', 'G'] := rfl
  have hchars := configText_chars T
  -- first line
  have hin1 : s.serialIn = ("SET_CONFIG:".toList ++ configText T) ++
      '\n' :: ("GET_CONFIG".toList ++ '\n' :: more) := by
    rw [hin]; simp [setThenGet, List.append_assoc]
  have hmem : ∀ c ∈ "SET_CONFIG:".toList ++ configText T,
      c ≠ '\n' ∧ c ≠ '\x00' := by
    intro c hc
    rcases List.mem_append.1 hc with h | h
    · rw [hS] at h
      simp only [List.mem_cons, List.mem_singleton, List.not_mem_nil, or_false] at h
      rcases h with h | h | h | h | h | h | h | h | h | h | h <;> subst h <;> decide
    · rcases hchars c h with hd | hd
      · exact ⟨hd.ne_newline, hd.ne_nul⟩
      · subst hd; decide
  have hstep1 := handleSerialCommands_line env s _ _ hin1 hfit
    (fun c hc => (hmem c hc).1) (fun c hc => (hmem c hc).2) (by rw [hS]; rfl)
  have hnotget : ¬ ("SET_CONFIG:".toList ++ configText T = "GET_CONFIG".toList) := by
    rw [hS, hG]; simp
  have htake : ("SET_CONFIG:".toList ++ configText T).take 11 = "SET_CONFIG:".toList := by
    rw [hS]; simp
  have hdrop : ("SET_CONFIG:".toList ++ configText T).drop 11 = configText T := by
    rw [hS]; simp
  rw [if_neg hnotget, if_pos htake, hdrop, parseConfig_configText] at hstep1
  have hkm1 : (handleSerialCommands env s).keyMap = T := by rw [hstep1]; rfl
  have hout1 : (handleSerialCommands env s).serialOut = s.serialOut ++ "OK\r\n".toList := by
    rw [hstep1]; simp [println, saveConfig]
  have hin2 : (handleSerialCommands env s).serialIn = "GET_CONFIG".toList ++ '\n' :: more := by
    rw [hstep1]; rfl
  have hrom : ∀ t : State, t.eeprom = (handleSerialCommands env s).eeprom →
      (loadConfig t).keyMap = T := by
    intro t ht
    exact loadConfig_of_saved
      { s with serialIn := "GET_CONFIG".toList ++ '\n' :: more, keyMap := T } t (by
        rw [ht, hstep1]; rfl)
  -- second line
  have hstep2 := handleSerialCommands_line env (handleSerialCommands env s) _ _ hin2
    (by rw [hG]; decide)
    (by rw [hG]; intro c hc
        simp only [List.mem_cons, List.mem_singleton, List.not_mem_nil, or_false] at hc
        rcases hc with h | h | h | h | h | h | h | h | h | h <;> subst h <;> decide)
    (by rw [hG]; intro c hc
        simp only [List.mem_cons, List.mem_singleton, List.not_mem_nil, or_false] at hc
        rcases hc with h | h | h | h | h | h | h | h | h | h <;> subst h <;> decide)
    (by rw [hG]; rfl)
  rw [if_pos rfl] at hstep2
  refine ⟨hkm1, hout1, hrom, ?_, ?_, ?_⟩
  · rw [hstep2, hkm1]; simp [println]
  · rw [hstep2]; exact hkm1
  · rw [hstep2]; rfl

set_option maxRecDepth 1000000 in
/-- C5 at a concrete input: the sample table, whose line has 152 bytes. -/
theorem set_get_config_roundtrip_witness :
    ("SET_CONFIG:".toList ++ configText sampleMap).length < 255 ∧
    (handleSerialCommands sampleEnv { powerOn with serialIn := setThenGet sampleMap }).keyMap
      = sampleMap ∧
    (handleSerialCommands sampleEnv
      (handleSerialCommands sampleEnv { powerOn with serialIn := setThenGet sampleMap })).serialOut
      = "OK\r\n".toList ++ "CONFIG:".toList ++ configText sampleMap ++ "\r\n".toList := by
  have h := set_get_config_roundtrip sampleEnv { powerOn with serialIn := setThenGet sampleMap }
    sampleMap [] (by decide) (by simp)
  refine ⟨by decide, h.1, ?_⟩
  rw [h.2.2.2.1, h.2.1]
  rfl

set_option maxRecDepth 1000000 in
set_option maxHeartbeats 4000000 in
/-- C5 as stated fails for the table whose 52 codes are all 65535.  Its
`SET_CONFIG` line has 348 bytes, and one pass of the handler reads 255 of
them: it replies `OK`, entries 0..8 are set, entry 9 gets the codes 65535, 65,
0, 0 (the line is cut inside the second code), entries 10..12 keep their old
content, and that table is what is persisted.  The next pass takes the rest
of the line for a command and replies with an error, and the reply to
`GET_CONFIG` after that is not the text of the table that was sent. -/
theorem set_config_long_line :
    ("SET_CONFIG:".toList ++ configText fullTable).length = 348 ∧
    (serialPasses sampleEnv 1 { powerOn with serialIn := setThenGet fullTable }).serialOut
      = "OK\r\n".toList ∧
    ((serialPasses sampleEnv 1 { powerOn with serialIn := setThenGet fullTable }).keyMap 8).codes 3
      = (fullTable 8).codes 3 ∧
    ((serialPasses sampleEnv 1 { powerOn with serialIn := setThenGet fullTable }).keyMap 9).codes 0
      = 65535 ∧
    ((serialPasses sampleEnv 1 { powerOn with serialIn := setThenGet fullTable }).keyMap 9).codes 1
      = 65 ∧
    ((serialPasses sampleEnv 1 { powerOn with serialIn := setThenGet fullTable }).keyMap 9).codes 2
      = 0 ∧
    ((serialPasses sampleEnv 1 { powerOn with serialIn := setThenGet fullTable }).keyMap 10).type
      = 0 ∧
    eepromGet16 (2 + 9 * 9 + 1 + 2 * 1)
      (serialPasses sampleEnv 1 { powerOn with serialIn := setThenGet fullTable }).eeprom = 65 ∧
    (serialPasses sampleEnv 1 { powerOn with serialIn := setThenGet fullTable }).serialIn.take 10
      = "535,65535,".toList ∧
    (serialPasses sampleEnv 2 { powerOn with serialIn := setThenGet fullTable }).serialOut
      = "OK\r\nERROR: Unknown command\r\n".toList ∧
    (serialPasses sampleEnv 3 { powerOn with serialIn := setThenGet fullTable }).serialOut
      ≠ "OK\r\n".toList ++ "CONFIG:".toList ++ configText fullTable ++ "\r\n".toList := by
  refine ⟨by decide, by decide, by decide, by decide, by decide, by decide, by decide, by decide,
    by decide, by decide, by decide⟩

/-! ## Evaluations at failing inputs -/

set_option maxRecDepth 100000 in
/-- C11 at the failing input: a pass that consumes a set switch-tap flag calls
`executeMapping` on index 10 twice, once with `pressed = true` and once with
`pressed = false`, and index 10 is in the tap range, where `pressed` is not
consulted.  A Consumer mapping is therefore pulsed twice and a Keyboard
mapping is pressed and released twice; only Command (one line) and None
(nothing) come out once.  One detent on index 8 with the same Consumer mapping
gives one pulse. -/
theorem switch_tap_fires_twice :
    (processEvents (tapPending (mkMapping 2 205 0 0 0))).hid
      = [HidCall.consumerWrite 205, HidCall.consumerWrite 205] ∧
    (processEvents (tapPending (mkMapping 1 4 5 0 0))).hid
      = [HidCall.keyboardPress 4, HidCall.keyboardPress 5, HidCall.keyboardReleaseAll,
         HidCall.keyboardPress 4, HidCall.keyboardPress 5, HidCall.keyboardReleaseAll] ∧
    (processEvents (tapPending (mkMapping 3 0 0 0 0))).serialOut = "CMD:10\r\n".toList ∧
    (processEvents (tapPending (mkMapping 3 0 0 0 0))).hid = [] ∧
    (processEvents (tapPending KeyMapping.zero)).hid = [] ∧
    (processEvents (tapPending KeyMapping.zero)).serialOut = [] ∧
    (processEvents (tapPending (mkMapping 2 205 0 0 0))).calls
      = [(⟨ENCODER_SW_INDEX, by decide⟩, true), (⟨ENCODER_SW_INDEX, by decide⟩, false)] ∧
    (processEvents (tapPending (mkMapping 2 205 0 0 0))).encoderSwEvent = false ∧
    (processEvents (detentPending (mkMapping 2 205 0 0 0))).hid = [HidCall.consumerWrite 205] := by
  refine ⟨by decide, by decide, by decide, by decide, by decide, by decide, by decide, by decide,
    by decide⟩

set_option maxRecDepth 100000 in
/-- C18 at the failing input: button 0 has a Keyboard mapping with codes 4 and
5; its press is dispatched and both codes are asserted.  One detent on index 9
(Keyboard 128, 129), dispatched before the release of button 0, ends with
`Keyboard.releaseAll()`, after which no code is asserted any more. -/
theorem held_key_lost_on_tap :
    (sampleState.keyMap 0).type.val = KeyType.KEYBOARD ∧
    (processEvents button0Pressed).calls = [(0, true)] ∧
    keyboardAsserted (processEvents button0Pressed).hid = [4, 5] ∧
    (processEvents (turned (-4) (processEvents button0Pressed))).calls
      = [(0, true), (⟨ENCODER_CCW_INDEX, by decide⟩, true)] ∧
    (processEvents (turned (-4) (processEvents button0Pressed))).hid
      = [HidCall.keyboardPress 4, HidCall.keyboardPress 5, HidCall.keyboardPress 128,
         HidCall.keyboardPress 129, HidCall.keyboardReleaseAll] ∧
    keyboardAsserted (processEvents (turned (-4) (processEvents button0Pressed))).hid = [] := by
  refine ⟨by decide, by decide, by decide, by decide, by decide, by decide⟩

set_option maxRecDepth 100000 in
/-- C15 at the failing input: with a song playing, the line `SONG_INFO:Song`
supplies no further field.  Position and duration become 0, the title is
stored and the reply is `OK`, but the playing flag keeps its prior value
`true`. -/
theorem song_info_keeps_playing_flag :
    titleOnly.isPlaying = true ∧
    (handleSerialCommands sampleEnv titleOnly).isPlaying = true ∧
    (handleSerialCommands sampleEnv titleOnly).lastPositionAtUpdate = 0 ∧
    (handleSerialCommands sampleEnv titleOnly).totalDurationMs = 0 ∧
    (handleSerialCommands sampleEnv titleOnly).currentPositionMs = 0 ∧
    (handleSerialCommands sampleEnv titleOnly).currentSongName = "Song".toList ∧
    (handleSerialCommands sampleEnv titleOnly).serialOut = "OK\r\n".toList := by
  refine ⟨by decide, by decide, by decide, by decide, by decide, by decide, by decide⟩

/-! ## Rotation while the switch is held -/

theorem executeMapping_flag (m : Fin 13) (b : Bool) (s : State) :
    (executeMapping m b s).encoderSwEvent = s.encoderSwEvent := by
  unfold executeMapping
  simp only []
  split_ifs <;> rfl

theorem repeatMapping_flag (m : Fin 13) (n : Nat) :
    ∀ s : State, (repeatMapping m n s).encoderSwEvent = s.encoderSwEvent := by
  induction n with
  | zero => intro s; rfl
  | succ n ih => intro s; exact (ih _).trans (executeMapping_flag m true s)

theorem processKeyEvent_flag (i : Fin 8) (s : State) :
    (processKeyEvent i s).encoderSwEvent = s.encoderSwEvent := by
  unfold processKeyEvent
  simp only []
  split_ifs
  · exact executeMapping_flag _ _ _
  · exact executeMapping_flag _ _ _
  · rfl

theorem processKeys_flag (s : State) : (processKeys s).encoderSwEvent = s.encoderSwEvent := by
  unfold processKeys
  generalize List.finRange 8 = l
  induction l generalizing s with
  | nil => rfl
  | cons i l ih => rw [List.foldl_cons, ih, processKeyEvent_flag]

/-- The encoder block calls `executeMapping` only on the four direction indices
and never writes the tap flag. -/
theorem processEncoder_calls (s : State) :
    (processEncoder s).encoderSwEvent = s.encoderSwEvent ∧
    ∃ (n : Nat) (idx : Fin 13),
      (processEncoder s).calls = s.calls ++ List.replicate n (idx, true) ∧
      ENCODER_CW_INDEX ≤ idx.val ∧ idx.val ≠ ENCODER_SW_INDEX := by
  unfold processEncoder
  simp only []
  by_cases h1 : s.encoderCount - s.lastProcessedEncoderCount ≥ ENCODER_STEPS_PER_CLICK
  · rw [if_pos h1]
    refine ⟨repeatMapping_flag _ _ s, _, _, repeatMapping_calls _ _ s, ?_, ?_⟩ <;>
      cases s.currentEncoderSwState <;> decide
  · rw [if_neg h1]
    by_cases h2 : s.encoderCount - s.lastProcessedEncoderCount ≤ -ENCODER_STEPS_PER_CLICK
    · rw [if_pos h2]
      refine ⟨repeatMapping_flag _ _ s, _, _, repeatMapping_calls _ _ s, ?_, ?_⟩ <;>
        cases s.currentEncoderSwState <;> decide
    · rw [if_neg h2]
      exact ⟨rfl, 0, ⟨ENCODER_CW_INDEX, by decide⟩, by simp, by decide, by decide⟩

/-- With the tap flag clear, a pass dispatches nothing on the switch-tap index
and leaves the flag clear. -/
theorem processEvents_noTap (s : State) (h : s.encoderSwEvent = false) :
    (processEvents s).encoderSwEvent = false ∧
    ∃ extra, (processEvents s).calls = s.calls ++ extra ∧
      ∀ e ∈ extra, e.1.val ≠ ENCODER_SW_INDEX := by
  have hk : (processKeys s).encoderSwEvent = false := by rw [processKeys_flag, h]
  have ht : processSwTap (processKeys s) = processKeys s := by
    unfold processSwTap; simp [hk]
  obtain ⟨p1, hp1, hp1i⟩ := keyLoop_calls (List.finRange 8) s
  obtain ⟨hf, n, idx, hc, _, hidx⟩ := processEncoder_calls (processKeys s)
  unfold processEvents
  rw [ht]
  refine ⟨hf.trans hk, p1 ++ List.replicate n (idx, true), ?_, ?_⟩
  · rw [hc]
    show ((List.finRange 8).foldl _ s).calls ++ _ = _
    rw [hp1, List.append_assoc]
  · intro e he
    rcases List.mem_append.1 he with h1 | h1
    · have := hp1i e h1
      simp only [ENCODER_SW_INDEX, NUM_KEYS]; omega
    · rw [(List.mem_replicate.1 h1).2]; exact hidx

theorem scanKey_calls (r : Bool) (i : Fin 8) (s : State) : (scanKey r i s).calls = s.calls := by
  unfold scanKey
  simp only []
  split_ifs <;> rfl

theorem scan_calls (p : Pins) (s : State) : (scanKeysAndEncoder p s).calls = s.calls := by
  have hk : ∀ (l : List (Fin 8)) (s : State),
      (l.foldl (fun st i => scanKey (p.keys i) i st) s).calls = s.calls := by
    intro l
    induction l with
    | nil => intro s; rfl
    | cons i l ih => intro s; rw [List.foldl_cons, ih, scanKey_calls]
  unfold scanKeysAndEncoder scanEncoderSw
  simp only []
  split_ifs <;> exact hk _ s

theorem handleEncoderISR_calls (a b : Bool) (s : State) :
    (handleEncoderISR a b s).calls = s.calls ∧
    (handleEncoderISR a b s).encoderSwEvent = s.encoderSwEvent := by
  unfold handleEncoderISR
  simp only []
  split_ifs <;> exact ⟨rfl, rfl⟩

theorem songInfo_calls (env : Env) (data : List Char) (s : State) :
    (songInfo env data s).calls = s.calls ∧
    (songInfo env data s).encoderSwEvent = s.encoderSwEvent := by
  unfold songInfo
  cases (strtok data).1 with
  | none => exact ⟨rfl, rfl⟩
  | some t =>
    simp only []
    split_ifs <;> (repeat' split) <;> exact ⟨rfl, rfl⟩

theorem handleSerialCommands_calls (env : Env) (s : State) :
    (handleSerialCommands env s).calls = s.calls ∧
    (handleSerialCommands env s).encoderSwEvent = s.encoderSwEvent := by
  unfold handleSerialCommands
  simp only []
  split_ifs
  · exact ⟨rfl, rfl⟩
  · exact ⟨rfl, rfl⟩
  · exact ⟨rfl, rfl⟩
  · exact ⟨rfl, rfl⟩
  · exact ⟨rfl, rfl⟩
  · exact songInfo_calls _ _ _
  · exact ⟨rfl, rfl⟩
  · exact ⟨rfl, rfl⟩

/-- With the tap flag clear and the switch up, no step sets the flag or
dispatches on the switch-tap index. -/
theorem step_noTap (e : Step) (s : State) (hflag : s.encoderSwEvent = false)
    (hup : s.currentEncoderSwState = false) :
    (step e s).encoderSwEvent = false ∧
    ∃ extra, (step e s).calls = s.calls ++ extra ∧
      ∀ x ∈ extra, x.1.val ≠ ENCODER_SW_INDEX := by
  cases e with
  | tick p =>
    refine ⟨?_, [], by simp [step, scan_calls], by simp⟩
    show (scanKeysAndEncoder p s).encoderSwEvent = false
    rw [(scan_sw p s).1, hflag, hup]
    rfl
  | isr a b =>
    exact ⟨(handleEncoderISR_calls a b s).2.trans hflag, [],
      by simp [step, (handleEncoderISR_calls a b s).1], by simp⟩
  | events => exact processEvents_noTap s hflag
  | serial env =>
    exact ⟨(handleSerialCommands_calls env s).2.trans hflag, [],
      by simp [step, (handleSerialCommands_calls env s).1], by simp⟩
  | receive bytes => exact ⟨hflag, [], by simp [step], by simp⟩

theorem run_noTap (post : List Step) :
    ∀ s : State, s.encoderSwEvent = false →
      (∀ k, k ≤ post.length → (run (post.take k) s).currentEncoderSwState = false) →
      (run post s).encoderSwEvent = false ∧
      ∃ extra, (run post s).calls = s.calls ++ extra ∧
        ∀ x ∈ extra, x.1.val ≠ ENCODER_SW_INDEX := by
  induction post with
  | nil => intro s h _; exact ⟨h, [], by simp [run], by simp⟩
  | cons e rest ih =>
    intro s hflag hup
    have h0 : s.currentEncoderSwState = false := hup 0 (Nat.zero_le _)
    obtain ⟨hf1, x1, hc1, hx1⟩ := step_noTap e s hflag h0
    have hrest : ∀ k, k ≤ rest.length →
        (run (rest.take k) (step e s)).currentEncoderSwState = false := by
      intro k hk
      have := hup (k + 1) (by simp; omega)
      simpa [run] using this
    obtain ⟨hf2, x2, hc2, hx2⟩ := ih (step e s) hf1 hrest
    refine ⟨hf2, x1 ++ x2, ?_, ?_⟩
    · show (run rest (step e s)).calls = _
      rw [hc2, hc1, List.append_assoc]
    · intro x hx
      rcases List.mem_append.1 hx with h | h
      · exact hx1 x h
      · exact hx2 x h

theorem processSwTap_flag (s : State) : (processSwTap s).encoderSwEvent = false := by
  unfold processSwTap
  by_cases h : s.encoderSwEvent = true
  · rw [if_pos h]
  · rw [if_neg h]; simpa using h

/-- Every pass leaves the tap flag clear. -/
theorem processEvents_flag (s : State) : (processEvents s).encoderSwEvent = false := by
  unfold processEvents
  rw [(processEncoder_calls _).1, processSwTap_flag]

/-- Only a pass of `processEvents` extends the dispatch log. -/
theorem run_calls_noEvents (l : List Step) :
    ∀ s : State, (∀ e ∈ l, e ≠ Step.events) → (run l s).calls = s.calls := by
  induction l with
  | nil => intro s _; rfl
  | cons e rest ih =>
    intro s h
    have h1 : (step e s).calls = s.calls := by
      cases e with
      | tick p => exact scan_calls p s
      | isr a b => exact (handleEncoderISR_calls a b s).1
      | events => exact absurd rfl (h Step.events (List.mem_cons_self _ _))
      | serial env => exact (handleSerialCommands_calls env s).1
      | receive bytes => rfl
    show (run rest (step e s)).calls = _
    rw [ih _ (fun x hx => h x (List.mem_cons_of_mem _ hx)), h1]

/-- While the switch stays down, a step either is a pass, which clears the tap
flag, or keeps the flag. -/
theorem step_held_flag (e : Step) (s : State)
    (h1 : (step e s).currentEncoderSwState = true) :
    (step e s).encoderSwEvent = false ∨
      (e ≠ Step.events ∧ (step e s).encoderSwEvent = s.encoderSwEvent) := by
  cases e with
  | tick p =>
    right
    refine ⟨by simp, ?_⟩
    have h1 : (scanKeysAndEncoder p s).currentEncoderSwState = true := h1
    show (scanKeysAndEncoder p s).encoderSwEvent = _
    rw [(scan_sw p s).1, h1]
    simp
  | isr a b => exact Or.inr ⟨by simp, (handleEncoderISR_calls a b s).2⟩
  | events => exact Or.inl (processEvents_flag s)
  | serial env => exact Or.inr ⟨by simp, (handleSerialCommands_calls env s).2⟩
  | receive bytes => exact Or.inr ⟨by simp, rfl⟩

/-- While the switch stays down the tap flag is clear from the first pass on. -/
theorem run_held_flag (mid : List Step) :
    ∀ s : State,
      (∀ k, k ≤ mid.length → (run (mid.take k) s).currentEncoderSwState = true) →
      (s.encoderSwEvent = false ∨ Step.events ∈ mid) →
      (run mid s).encoderSwEvent = false := by
  induction mid with
  | nil =>
    intro s _ h
    rcases h with h | h
    · exact h
    · exact absurd h (List.not_mem_nil _)
  | cons e rest ih =>
    intro s hheld h
    have h0 : s.currentEncoderSwState = true := hheld 0 (Nat.zero_le _)
    have h1 : (step e s).currentEncoderSwState = true := by
      have := hheld 1 (by simp)
      simpa [run] using this
    have hrest : ∀ k, k ≤ rest.length →
        (run (rest.take k) (step e s)).currentEncoderSwState = true := by
      intro k hk
      have := hheld (k + 1) (by simp; omega)
      simpa [run] using this
    show (run rest (step e s)).encoderSwEvent = false
    apply ih (step e s) hrest
    rcases step_held_flag e s h1 with hs | ⟨hne, hs⟩
    · exact Or.inl hs
    · rcases h with h | h
      · exact Or.inl (hs.trans h)
      · rcases List.mem_cons.1 h with h | h
        · exact absurd h.symm hne
        · exact Or.inr h

/-- C12, amended: let tick `p1` commit a debounced switch press, let the switch
stay down over the steps `mid`, during which at least one call is dispatched
on a held-direction index (11 or 12), and let `encoderCount` before the tick
`p2` differ from its value at the press.  Then the tick `p2`, which commits the
release, leaves the switch-tap flag clear, and for as long as the switch stays
up afterwards no call is dispatched on the switch-tap index 10. -/
theorem rotation_suppresses_tap (s0 : State) (p1 p2 : Pins) (mid post : List Step)
    (hup : s0.currentEncoderSwState = false)
    (hheld : ∀ k, k ≤ mid.length →
      (run (mid.take k) (scanKeysAndEncoder p1 s0)).currentEncoderSwState = true)
    (hdisp : ∃ x ∈ (run mid (scanKeysAndEncoder p1 s0)).calls.drop s0.calls.length,
      x.1.val = ENCODER_SW_CW_INDEX ∨ x.1.val = ENCODER_SW_CCW_INDEX)
    (hrot : (run mid (scanKeysAndEncoder p1 s0)).encoderCount ≠ s0.encoderCount)
    (hpost : ∀ k, k ≤ post.length →
      (run (post.take k) (scanKeysAndEncoder p2 (run mid (scanKeysAndEncoder p1 s0)))
        ).currentEncoderSwState = false) :
    (scanKeysAndEncoder p2 (run mid (scanKeysAndEncoder p1 s0))).encoderSwEvent = false ∧
    ∃ extra,
      (run post (scanKeysAndEncoder p2 (run mid (scanKeysAndEncoder p1 s0)))).calls =
        (run mid (scanKeysAndEncoder p1 s0)).calls ++ extra ∧
      ∀ x ∈ extra, x.1.val ≠ ENCODER_SW_INDEX := by
  have hdown : (scanKeysAndEncoder p1 s0).currentEncoderSwState = true := hheld 0 (Nat.zero_le _)
  have hsnap1 : (scanKeysAndEncoder p1 s0).encoderCountAtSwPress = s0.encoderCount := by
    rw [(scan_sw p1 s0).2.1]; simp [hup, hdown]
  have hsnap : (run mid (scanKeysAndEncoder p1 s0)).encoderCountAtSwPress = s0.encoderCount := by
    rw [run_snapshot mid _ hheld, hsnap1]
  have hev : Step.events ∈ mid := by
    by_contra hno
    have hc := run_calls_noEvents mid (scanKeysAndEncoder p1 s0)
      (fun e he heq => hno (heq ▸ he))
    rw [hc, scan_calls] at hdisp
    simp at hdisp
  have hflag : (run mid (scanKeysAndEncoder p1 s0)).encoderSwEvent = false :=
    run_held_flag mid _ hheld (Or.inr hev)
  have hset : (scanKeysAndEncoder p2 (run mid (scanKeysAndEncoder p1 s0))).encoderSwEvent
      = false := by
    rw [(scan_sw p2 _).1, hsnap, hflag]
    simp [hrot]
  refine ⟨hset, ?_⟩
  obtain ⟨_, extra, hc, hx⟩ := run_noTap post _ hset hpost
  refine ⟨extra, ?_, hx⟩
  rw [hc, scan_calls]

set_option maxRecDepth 100000 in
/-- Witness for C12: press, one detent forward with its pass, release. -/
theorem rotation_suppresses_tap_witness :
    (scanKeysAndEncoder swUp (run detentAndRelease (scanKeysAndEncoder swDown pressDue))
      ).encoderSwEvent = false ∧
    ∃ extra,
      (run [Step.events, Step.tick swUp, Step.events]
        (scanKeysAndEncoder swUp (run detentAndRelease (scanKeysAndEncoder swDown pressDue)))
        ).calls =
        (run detentAndRelease (scanKeysAndEncoder swDown pressDue)).calls ++ extra ∧
      ∀ x ∈ extra, x.1.val ≠ ENCODER_SW_INDEX :=
  rotation_suppresses_tap pressDue swDown swUp detentAndRelease
    [Step.events, Step.tick swUp, Step.events]
    (by decide) (by decide) (by decide) (by decide) (by decide)

set_option maxRecDepth 100000 in
/-- Counterexample to C12 as stated: the switch is pressed, the encoder is
turned one detent forward and one detent back while the switch is held, and
both detents are dispatched on the held-direction indices 11 and 12.  At the
release the accumulator equals the press snapshot again, so the release sets
the switch-tap flag and the next pass dispatches the tap on index 10. -/
theorem rotation_suppresses_tap_counterexample :
    pressDue.currentEncoderSwState = false ∧
    (scanKeysAndEncoder swDown pressDue).currentEncoderSwState = true ∧
    (∀ k, k ≤ backAndRelease.length →
      (run (backAndRelease.take k) (scanKeysAndEncoder swDown pressDue)
        ).currentEncoderSwState = true) ∧
    (run backAndRelease (scanKeysAndEncoder swDown pressDue)).calls
      = [(⟨ENCODER_SW_CW_INDEX, by decide⟩, true), (⟨ENCODER_SW_CCW_INDEX, by decide⟩, true)] ∧
    (scanKeysAndEncoder swUp (run backAndRelease (scanKeysAndEncoder swDown pressDue))
      ).currentEncoderSwState = false ∧
    (scanKeysAndEncoder swUp (run backAndRelease (scanKeysAndEncoder swDown pressDue))
      ).encoderSwEvent = true ∧
    (processEvents (scanKeysAndEncoder swUp
      (run backAndRelease (scanKeysAndEncoder swDown pressDue)))).calls
      = [(⟨ENCODER_SW_CW_INDEX, by decide⟩, true), (⟨ENCODER_SW_CCW_INDEX, by decide⟩, true),
         (⟨ENCODER_SW_INDEX, by decide⟩, true), (⟨ENCODER_SW_INDEX, by decide⟩, false)] ∧
    (processEvents (scanKeysAndEncoder swUp
      (run backAndRelease (scanKeysAndEncoder swDown pressDue)))).serialOut
      = "CMD:10\r\n".toList := by
  refine ⟨by decide, by decide, by decide, by decide, by decide, by decide, by decide, by decide⟩

/-! ## Reset -/

/-- The handler on a pending line `RESET_CONFIG`. -/
theorem handleSerialCommands_reset (env : Env) (s : State) (more : List Char)
    (hin : s.serialIn = "RESET_CONFIG".toList ++ '\n' :: more) :
    handleSerialCommands env s =
      println "Config erased. Please reboot the device.".toList
        { s with serialIn := more, eeprom := eepromPut16 EEPROM_ADDR 0xFFFF s.eeprom } := by
  have hne : ¬ ("RESET_CONFIG".toList ++ '\n' :: more = []) := by simp
  have hrd := readBytesUntil_line "RESET_CONFIG".toList more (by decide) 255 (by decide)
  have htw : "RESET_CONFIG".toList.takeWhile (fun c => decide (c ≠ '\x00'))
      = "RESET_CONFIG".toList := by decide
  have hws : "RESET_CONFIG".toList.dropWhile (fun c => decide (c = ' ' ∨ c = '\t' ∨ c = '\r'))
      = "RESET_CONFIG".toList := by decide
  have h1 : ¬ ("RESET_CONFIG".toList = "GET_CONFIG".toList) := by decide
  have h2 : ¬ ("RESET_CONFIG".toList.take 11 = "SET_CONFIG:".toList) := by decide
  unfold handleSerialCommands
  simp only [hin, if_neg hne, hrd, htw, hws, if_neg h1, if_neg h2, if_true]

/-- C14: `RESET_CONFIG` invalidates only the stored marker.  For every state
(any in-memory table, any storage content), handling the line `RESET_CONFIG`
leaves the in-memory table as it is, makes the stored 2-byte marker 0xFFFF,
which is not 0xADF1, leaves every storage cell from address 2 on (the stored
table bytes included) untouched, and emits exactly the one reply line
`Config erased. Please reboot the device.`; if the next line is `GET_CONFIG`,
handling it reports the table that was in memory before and leaves it in
place; and `loadConfig` on any state with the resulting storage gives the
table whose entries all have tag `NONE` and all codes 0. -/
theorem reset_config (env : Env) (s : State) (more : List Char)
    (hin : s.serialIn = "RESET_CONFIG".toList ++ '\n' :: more) :
    (handleSerialCommands env s).keyMap = s.keyMap ∧
    (eepromGet16 EEPROM_ADDR (handleSerialCommands env s).eeprom).val = 0xFFFF ∧
    (eepromGet16 EEPROM_ADDR (handleSerialCommands env s).eeprom).val ≠ EEPROM_MAGIC ∧
    (∀ a, EEPROM_ADDR + 2 ≤ a → (handleSerialCommands env s).eeprom a = s.eeprom a) ∧
    (handleSerialCommands env s).serialOut =
      s.serialOut ++ "Config erased. Please reboot the device.\r\n".toList ∧
    (handleSerialCommands env s).serialIn = more ∧
    (∀ rest, more = "GET_CONFIG".toList ++ '\n' :: rest →
      (handleSerialCommands env (handleSerialCommands env s)).serialOut =
        (handleSerialCommands env s).serialOut ++ "CONFIG:".toList ++ configText s.keyMap ++
          "\r\n".toList ∧
      (handleSerialCommands env (handleSerialCommands env s)).keyMap = s.keyMap) ∧
    (∀ t : State, t.eeprom = (handleSerialCommands env s).eeprom →
      (loadConfig t).keyMap = fun _ => KeyMapping.zero) := by
  have h1 := handleSerialCommands_reset env s more hin
  have hm : (eepromGet16 EEPROM_ADDR (eepromPut16 EEPROM_ADDR 0xFFFF s.eeprom)).val = 0xFFFF := by
    simp [eepromGet16, eepromPut16, EEPROM_ADDR]
    rfl
  refine ⟨by rw [h1]; rfl, by rw [h1]; exact hm, ?_, ?_, ?_, by rw [h1]; rfl, ?_, ?_⟩
  · rw [h1]
    show (eepromGet16 EEPROM_ADDR (eepromPut16 EEPROM_ADDR 0xFFFF s.eeprom)).val ≠ _
    rw [hm]; decide
  · intro a ha
    rw [h1]
    show eepromPut16 EEPROM_ADDR 0xFFFF s.eeprom a = _
    simp only [EEPROM_ADDR] at ha
    have e1 : a ≠ 0 := by omega
    have e2 : a ≠ 0 + 1 := by omega
    simp [eepromPut16, EEPROM_ADDR, e1, e2]
  · rw [h1]; simp [println]
  · intro rest hrest
    have h2 := handleSerialCommands_line env (handleSerialCommands env s) "GET_CONFIG".toList rest
      (by rw [h1, hrest]; rfl) (by decide) (by decide) (by decide) (by decide)
    rw [if_pos rfl] at h2
    rw [h2, h1]
    exact ⟨by simp [println], rfl⟩
  · intro t ht
    have hbad : (eepromGet16 0 t.eeprom).val ≠ EEPROM_MAGIC := by
      rw [ht, h1]
      show (eepromGet16 0 (eepromPut16 EEPROM_ADDR 0xFFFF s.eeprom)).val ≠ _
      have := hm
      simp only [EEPROM_ADDR] at this ⊢
      rw [this]; decide
    rw [loadConfig_invalid t hbad]
    rfl

/-- Witness for C14: the sample table, saved, then the lines `RESET_CONFIG`
and `GET_CONFIG`. -/
theorem reset_config_witness :
    savedThenReset.serialIn = "RESET_CONFIG".toList ++ '\n' :: ("GET_CONFIG".toList ++ ['\n']) ∧
    (handleSerialCommands sampleEnv savedThenReset).keyMap = savedThenReset.keyMap ∧
    (eepromGet16 EEPROM_ADDR (handleSerialCommands sampleEnv savedThenReset).eeprom).val
      ≠ EEPROM_MAGIC ∧
    (handleSerialCommands sampleEnv (handleSerialCommands sampleEnv savedThenReset)).serialOut =
      (handleSerialCommands sampleEnv savedThenReset).serialOut ++ "CONFIG:".toList ++
        configText savedThenReset.keyMap ++ "\r\n".toList :=
  ⟨rfl,
   (reset_config sampleEnv savedThenReset ("GET_CONFIG".toList ++ ['\n']) rfl).1,
   (reset_config sampleEnv savedThenReset ("GET_CONFIG".toList ++ ['\n']) rfl).2.2.1,
   ((reset_config sampleEnv savedThenReset ("GET_CONFIG".toList ++ ['\n']) rfl).2.2.2.2.2.2.1
      [] rfl).1⟩

/-! ## Delivery order and read-and-clear -/

theorem executeMapping_keyEvents (m : Fin 13) (b : Bool) (s : State) :
    (executeMapping m b s).keyEvents = s.keyEvents := by
  unfold executeMapping
  simp only []
  split_ifs <;> rfl

theorem repeatMapping_keyEvents (m : Fin 13) (n : Nat) :
    ∀ s : State, (repeatMapping m n s).keyEvents = s.keyEvents := by
  induction n with
  | zero => intro s; rfl
  | succ n ih => intro s; exact (ih _).trans (executeMapping_keyEvents m true s)

/-- The loop body for button `i`: the slot is cleared and the call it asked
for is made. -/
theorem processKeyEvent_exact (i : Fin 8) (s : State) :
    (processKeyEvent i s).calls = s.calls ++ (slotCall s.keyEvents i).toList ∧
    (processKeyEvent i s).keyEvents = Function.update s.keyEvents i KeyEventType.EVENT_NONE := by
  unfold processKeyEvent slotCall
  simp only []
  split_ifs
  · exact ⟨executeMapping_calls _ _ _, executeMapping_keyEvents _ _ _⟩
  · exact ⟨executeMapping_calls _ _ _, executeMapping_keyEvents _ _ _⟩
  · exact ⟨by simp, rfl⟩

theorem keyLoop_exact (l : List (Fin 8)) (hnd : l.Nodup) :
    ∀ s : State,
      (l.foldl (fun st i => processKeyEvent i st) s).calls
        = s.calls ++ l.filterMap (slotCall s.keyEvents) ∧
      (l.foldl (fun st i => processKeyEvent i st) s).keyEvents
        = fun k => if k ∈ l then KeyEventType.EVENT_NONE else s.keyEvents k := by
  induction l with
  | nil => intro s; simp
  | cons i l ih =>
    intro s
    have hi : i ∉ l := (List.nodup_cons.1 hnd).1
    obtain ⟨h1, h2⟩ := processKeyEvent_exact i s
    obtain ⟨h3, h4⟩ := ih (List.nodup_cons.1 hnd).2 (processKeyEvent i s)
    have hsame : l.filterMap (slotCall (processKeyEvent i s).keyEvents)
        = l.filterMap (slotCall s.keyEvents) := by
      apply List.filterMap_congr
      intro k hk
      have hne : k ≠ i := fun h => hi (h ▸ hk)
      simp [slotCall, h2, Function.update_noteq hne]
    rw [List.foldl_cons]
    constructor
    · rw [h3, h1, hsame, List.append_assoc]
      cases h : slotCall s.keyEvents i <;> simp [List.filterMap_cons, h]
    · rw [h4, h2]
      funext k
      by_cases hk : k = i
      · subst hk; simp
      · simp [hk, Function.update_noteq hk]

/-- The button loop of one pass: the calls the slots ask for, in index order,
and every slot cleared. -/
theorem processKeys_exact (s : State) :
    (processKeys s).calls = s.calls ++ keyCalls s.keyEvents ∧
    (processKeys s).keyEvents = fun _ => KeyEventType.EVENT_NONE := by
  obtain ⟨h1, h2⟩ := keyLoop_exact (List.finRange 8) (List.nodup_finRange 8) s
  refine ⟨h1, ?_⟩
  show ((List.finRange 8).foldl _ s).keyEvents = _
  rw [h2]
  funext k
  simp [List.mem_finRange]

theorem processSwTap_keyEvents (s : State) : (processSwTap s).keyEvents = s.keyEvents := by
  unfold processSwTap
  split_ifs
  · show (executeMapping _ false (executeMapping _ true s)).keyEvents = _
    rw [executeMapping_keyEvents, executeMapping_keyEvents]
  · rfl

theorem processEncoder_keyEvents (s : State) : (processEncoder s).keyEvents = s.keyEvents := by
  unfold processEncoder
  simp only []
  split_ifs <;> first | rfl | exact repeatMapping_keyEvents _ _ s

/-- After a pass every button slot is empty. -/
theorem processEvents_keyEvents (s : State) :
    (processEvents s).keyEvents = fun _ => KeyEventType.EVENT_NONE := by
  unfold processEvents
  rw [processEncoder_keyEvents, processSwTap_keyEvents, (processKeys_exact s).2]

/-- The calls of one pass: the button calls in index order, then calls on
encoder indices only. -/
theorem processEvents_calls_exact (s : State) :
    ∃ x, (processEvents s).calls = s.calls ++ keyCalls s.keyEvents ++ x ∧
      ∀ e ∈ x, NUM_KEYS ≤ e.1.val := by
  obtain ⟨x1, h1, hx1⟩ := processSwTap_calls (processKeys s)
  obtain ⟨_, n, idx, h2, hidx, _⟩ := processEncoder_calls (processSwTap (processKeys s))
  refine ⟨x1 ++ List.replicate n (idx, true), ?_, ?_⟩
  · unfold processEvents
    rw [h2, h1, (processKeys_exact s).1]
    simp [List.append_assoc]
  · intro e he
    rcases List.mem_append.1 he with h | h
    · rw [hx1 e h]; decide
    · rw [(List.mem_replicate.1 h).2]
      exact hidx

/-- The dispatch log only grows. -/
theorem run_calls_grow (l : List Step) :
    ∀ s : State, ∃ y, (run l s).calls = s.calls ++ y := by
  induction l with
  | nil => intro s; exact ⟨[], by simp [run]⟩
  | cons e rest ih =>
    intro s
    have h1 : ∃ y, (step e s).calls = s.calls ++ y := by
      cases e with
      | tick p => exact ⟨[], by simp [step, scan_calls]⟩
      | isr a b => exact ⟨[], by simp [step, (handleEncoderISR_calls a b s).1]⟩
      | events =>
        obtain ⟨x, hx, _⟩ := processEvents_calls_exact s
        exact ⟨_, by rw [step, hx, List.append_assoc]⟩
      | serial env => exact ⟨[], by simp [step, (handleSerialCommands_calls env s).1]⟩
      | receive bytes => exact ⟨[], by simp [step]⟩
    obtain ⟨y1, hy1⟩ := h1
    obtain ⟨y2, hy2⟩ := ih (step e s)
    exact ⟨y1 ++ y2, by show (run rest (step e s)).calls = _; rw [hy2, hy1, List.append_assoc]⟩

theorem filterMap_cons_toList {α β : Type} (f : α → Option β) (k : α) (l : List α) :
    (k :: l).filterMap f = (f k).toList ++ l.filterMap f := by
  cases h : f k <;> simp [List.filterMap_cons, h]

theorem slotCall_filter (ev : Fin 8 → KeyEventType) (i k : Fin 8) :
    (slotCall ev k).toList.filter (fun e => e.1.val = i.val)
      = if k = i then (slotCall ev k).toList else [] := by
  by_cases hki : k = i
  · subst hki
    rw [if_pos rfl]
    unfold slotCall
    split_ifs <;> simp
  · have hv : k.val ≠ i.val := fun h => hki (Fin.ext h)
    rw [if_neg hki]
    unfold slotCall
    split_ifs <;> simp [hv]

/-- The calls slot `i` asks for are the calls on index `i` among `keyCalls`. -/
theorem keyCalls_filter (ev : Fin 8 → KeyEventType) (i : Fin 8) :
    (keyCalls ev).filter (fun e => e.1.val = i.val) = (slotCall ev i).toList := by
  have hgen : ∀ l : List (Fin 8), l.Nodup →
      (l.filterMap (slotCall ev)).filter (fun e => e.1.val = i.val)
        = if i ∈ l then (slotCall ev i).toList else [] := by
    intro l
    induction l with
    | nil => intro _; simp
    | cons k l ih =>
      intro hnd
      have hk : k ∉ l := (List.nodup_cons.1 hnd).1
      rw [filterMap_cons_toList, List.filter_append, slotCall_filter,
        ih (List.nodup_cons.1 hnd).2]
      by_cases hki : k = i
      · subst hki
        simp [hk]
      · have hne : i ≠ k := fun h => hki h.symm
        simp [hki, hne]
  have := hgen (List.finRange 8) (List.nodup_finRange 8)
  simpa [keyCalls, List.mem_finRange] using this

theorem slotCall_index (ev : Fin 8 → KeyEventType) (i : Fin 8) (e : Fin 13 × Bool)
    (h : e ∈ slotCall ev i) : e.1.val = i.val := by
  unfold slotCall at h
  split_ifs at h <;> simp at h <;> subst h <;> rfl

theorem slotCall_of_edge (ev : Fin 8 → KeyEventType) (i : Fin 8)
    (h : ev i ≠ KeyEventType.EVENT_NONE) :
    slotCall ev i = some (Fin.castLE (by decide) i, decide (ev i = KeyEventType.EVENT_PRESS)) := by
  unfold slotCall
  cases hv : ev i
  · exact absurd hv h
  · simp
  · simp

theorem keyCalls_mem (ev : Fin 8 → KeyEventType) (i : Fin 8)
    (h : ev i ≠ KeyEventType.EVENT_NONE) :
    (Fin.castLE (by decide) i, decide (ev i = KeyEventType.EVENT_PRESS)) ∈ keyCalls ev := by
  unfold keyCalls
  rw [List.mem_filterMap]
  exact ⟨i, List.mem_finRange i, slotCall_of_edge ev i h⟩

theorem keyCalls_sorted (ev : Fin 8 → KeyEventType) :
    (keyCalls ev).Pairwise (fun e f => e.1.val < f.1.val) := by
  unfold keyCalls
  refine List.Pairwise.filterMap (slotCall ev) ?_ (List.pairwise_lt_finRange 8)
  intro a a' haa b hb b' hb'
  rw [slotCall_index ev a b hb, slotCall_index ev a' b' hb']
  exact haa

theorem processKeys_noop (t : State) (h : t.keyEvents = fun _ => KeyEventType.EVENT_NONE) :
    processKeys t = t := by
  have hbody : ∀ (i : Fin 8) (u : State), u.keyEvents = (fun _ => KeyEventType.EVENT_NONE) →
      processKeyEvent i u = u := by
    intro i u hu
    have hi : u.keyEvents i = KeyEventType.EVENT_NONE := by rw [hu]
    unfold processKeyEvent
    simp only [hi]
    rw [if_neg (by decide), if_neg (by decide)]
    have : Function.update u.keyEvents i KeyEventType.EVENT_NONE = u.keyEvents := by
      rw [← hi]; exact Function.update_eq_self i u.keyEvents
    rw [this]
  unfold processKeys
  generalize List.finRange 8 = l
  induction l with
  | nil => rfl
  | cons i l ih => rw [List.foldl_cons, hbody i t h, ih]

theorem processSwTap_noop (t : State) (h : t.encoderSwEvent = false) : processSwTap t = t := by
  unfold processSwTap
  simp [h]

theorem processEncoder_noop (t : State)
    (h : (t.encoderCount - t.lastProcessedEncoderCount).natAbs < 4) : processEncoder t = t := by
  unfold processEncoder
  simp only [ENCODER_STEPS_PER_CLICK]
  rw [if_neg (by omega), if_neg (by omega)]

/-- The unconsumed count after the encoder block, for a count that fits 16
bits. -/
theorem processEncoder_rest (s : State)
    (hd : (s.encoderCount - s.lastProcessedEncoderCount).natAbs < 32768) :
    ((processEncoder s).encoderCount - (processEncoder s).lastProcessedEncoderCount).natAbs
      < 4 := by
  obtain ⟨_, h2, h3⟩ := processEncoder_spec s hd
  rw [h2, h3]
  have key : ∀ c l : Int,
      (c - (l + (c - l).sign * (4 * ((c - l).natAbs / 4 : Nat)))).natAbs < 4 := by
    intro c l
    rcases lt_trichotomy (c - l) 0 with h | h | h
    · rw [Int.sign_eq_neg_one_of_neg h]; omega
    · rw [h]; simp; omega
    · rw [Int.sign_eq_one_of_pos h]; omega
  exact key _ _

/-- C16, amended: delivery order across passes, index order within a pass.
Let an edge of button `i` be pending when a pass runs, and let an edge of
button `j` be pending when a later pass runs, after the steps `mid`.  The
first pass empties slot `j`, so the edge of `j` was committed after it.  The
first pass calls `executeMapping` for the edge of `i`, and the later pass
calls it for the edge of `j` after every call of the first pass: committed
edges separated by a pass are delivered in commit order.  Within one pass
(second part, for every state `t`) the button calls are the pending slots in
strictly increasing index order, followed only by calls on encoder indices,
whatever the ticks on which the slots were written. -/
theorem delivery_order (s : State) (i j : Fin 8) (mid : List Step)
    (hi : s.keyEvents i ≠ KeyEventType.EVENT_NONE)
    (hj : (run mid (processEvents s)).keyEvents j ≠ KeyEventType.EVENT_NONE) :
    ((processEvents s).keyEvents j = KeyEventType.EVENT_NONE ∧
      ∃ a b c d,
        (processEvents s).calls = s.calls ++ a ++
          (Fin.castLE (by decide) i, decide (s.keyEvents i = KeyEventType.EVENT_PRESS)) :: b ∧
        (processEvents (run mid (processEvents s))).calls = (processEvents s).calls ++ c ++
          (Fin.castLE (by decide) j,
            decide ((run mid (processEvents s)).keyEvents j = KeyEventType.EVENT_PRESS)) :: d) ∧
    (∀ t : State, ∃ x,
      (processEvents t).calls = t.calls ++ keyCalls t.keyEvents ++ x ∧
      (∀ e ∈ x, NUM_KEYS ≤ e.1.val) ∧
      (keyCalls t.keyEvents).Pairwise (fun e f => e.1.val < f.1.val)) := by
  refine ⟨⟨by rw [processEvents_keyEvents], ?_⟩, ?_⟩
  · obtain ⟨x1, h1, _⟩ := processEvents_calls_exact s
    obtain ⟨x2, h2, _⟩ := processEvents_calls_exact (run mid (processEvents s))
    obtain ⟨y, hy⟩ := run_calls_grow mid (processEvents s)
    obtain ⟨a, b, hab⟩ := List.append_of_mem (keyCalls_mem s.keyEvents i hi)
    obtain ⟨c, d, hcd⟩ := List.append_of_mem (keyCalls_mem _ j hj)
    refine ⟨a, b ++ x1, y ++ c, d ++ x2, ?_, ?_⟩
    · rw [h1, hab]; simp [List.append_assoc]
    · rw [h2, hy, hcd]; simp [List.append_assoc]
  · intro t
    obtain ⟨x, hx, hx8⟩ := processEvents_calls_exact t
    exact ⟨x, hx, hx8, keyCalls_sorted _⟩

set_option maxRecDepth 100000 in
/-- Witness for C16: button 5 is committed and delivered, then button 2 is
committed and delivered by a later pass. -/
theorem delivery_order_witness :
    (runScan (fun _ => fiveDown) 5 powerOn).keyEvents 5 = KeyEventType.EVENT_PRESS ∧
    (processEvents (run (List.replicate 5 (Step.tick (fiveThenTwo 2)))
      (processEvents (runScan (fun _ => fiveDown) 5 powerOn)))).calls
      = [(5, true), (2, true)] ∧
    ∃ a b c d,
      (processEvents (runScan (fun _ => fiveDown) 5 powerOn)).calls =
        (runScan (fun _ => fiveDown) 5 powerOn).calls ++ a ++
          (Fin.castLE (by decide) (5 : Fin 8),
            decide ((runScan (fun _ => fiveDown) 5 powerOn).keyEvents 5
              = KeyEventType.EVENT_PRESS)) :: b ∧
        (processEvents (run (List.replicate 5 (Step.tick (fiveThenTwo 2)))
          (processEvents (runScan (fun _ => fiveDown) 5 powerOn)))).calls =
          (processEvents (runScan (fun _ => fiveDown) 5 powerOn)).calls ++ c ++
          (Fin.castLE (by decide) (2 : Fin 8),
            decide ((run (List.replicate 5 (Step.tick (fiveThenTwo 2)))
              (processEvents (runScan (fun _ => fiveDown) 5 powerOn))).keyEvents 2
              = KeyEventType.EVENT_PRESS)) :: d :=
  ⟨by decide, by decide,
    (delivery_order (runScan (fun _ => fiveDown) 5 powerOn) 5 2
      (List.replicate 5 (Step.tick (fiveThenTwo 2))) (by decide) (by decide)).1.2⟩

set_option maxRecDepth 100000 in
/-- Counterexample to C16 as stated: button 5 is down from the first tick and
button 2 from the third.  The scanner commits the press of button 5 on tick 5
and the press of button 2 on tick 7, and no pass runs in between.  The pass
that follows calls `executeMapping` for button 2 first and for button 5
second: index order, not commit order. -/
theorem delivery_order_counterexample :
    (runScan fiveThenTwo 4 powerOn).edgeLog = [] ∧
    (runScan fiveThenTwo 5 powerOn).edgeLog = [(5, KeyEventType.EVENT_PRESS)] ∧
    (runScan fiveThenTwo 6 powerOn).edgeLog = [(5, KeyEventType.EVENT_PRESS)] ∧
    (runScan fiveThenTwo 7 powerOn).edgeLog
      = [(5, KeyEventType.EVENT_PRESS), (2, KeyEventType.EVENT_PRESS)] ∧
    (processEvents (runScan fiveThenTwo 7 powerOn)).calls = [(2, true), (5, true)] := by
  refine ⟨by decide, by decide, by decide, by decide, by decide⟩

/-- C17, amended: exactly-once delivery by read-and-clear, for an unconsumed
count `d = encoderCount - lastProcessedEncoderCount` with `|d| < 32768`.  Among
the calls one `processEvents` pass adds, those on button index `i` are exactly
one call with `pressed = true` if slot `i` held `EVENT_PRESS`, exactly one with
`pressed = false` if it held `EVENT_RELEASE`, and none if it held
`EVENT_NONE`.  The pass leaves every slot `EVENT_NONE`, the switch-tap flag
false and fewer than 4 unconsumed ticks, and a second pass run on the
resulting state returns that state unchanged, dispatch log included. -/
theorem exactly_once (s : State)
    (hd : (s.encoderCount - s.lastProcessedEncoderCount).natAbs < 32768) :
    (∀ i : Fin 8,
      ((processEvents s).calls.drop s.calls.length).filter (fun e => e.1.val = i.val)
        = (slotCall s.keyEvents i).toList) ∧
    (∀ i : Fin 8, (processEvents s).keyEvents i = KeyEventType.EVENT_NONE) ∧
    (processEvents s).encoderSwEvent = false ∧
    ((processEvents s).encoderCount - (processEvents s).lastProcessedEncoderCount).natAbs < 4 ∧
    processEvents (processEvents s) = processEvents s := by
  have hk := processEvents_keyEvents s
  have hf := processEvents_flag s
  have hc := (keyLoop_counters (List.finRange 8) s).trans_ (processSwTap_counters (processKeys s))
  have hr : ((processEvents s).encoderCount - (processEvents s).lastProcessedEncoderCount).natAbs
      < 4 := by
    unfold processEvents
    apply processEncoder_rest
    show ((processSwTap (processKeys s)).encoderCount
      - (processSwTap (processKeys s)).lastProcessedEncoderCount).natAbs < _
    rw [hc.1, hc.2.1]
    exact hd
  refine ⟨?_, fun i => by rw [hk], hf, hr, ?_⟩
  · intro i
    obtain ⟨x, hx, hx8⟩ := processEvents_calls_exact s
    rw [hx, List.append_assoc, List.drop_left, List.filter_append, keyCalls_filter]
    have : x.filter (fun e => e.1.val = i.val) = [] := by
      rw [List.filter_eq_nil_iff]
      intro e he
      have := hx8 e he
      have := i.isLt
      simp only [NUM_KEYS] at *
      simp
      omega
    rw [this, List.append_nil]
  · have h1 : processKeys (processEvents s) = processEvents s := processKeys_noop _ hk
    have h2 : processSwTap (processEvents s) = processEvents s := processSwTap_noop _ hf
    have h3 : processEncoder (processEvents s) = processEvents s := processEncoder_noop _ hr
    show processEncoder (processSwTap (processKeys (processEvents s))) = _
    rw [h1, h2, h3]

set_option maxRecDepth 100000 in
/-- Witness for C17: a press, a release, a switch tap and two detents pending. -/
theorem exactly_once_witness :
    (busyState.encoderCount - busyState.lastProcessedEncoderCount).natAbs < 32768 ∧
    (processEvents busyState).calls
      = [(0, true), (3, false), (10, true), (10, false), (8, true), (8, true)] ∧
    (∀ i : Fin 8, (processEvents busyState).keyEvents i = KeyEventType.EVENT_NONE) ∧
    processEvents (processEvents busyState) = processEvents busyState :=
  ⟨by decide, by decide,
    (exactly_once busyState (by decide)).2.1,
    (exactly_once busyState (by decide)).2.2.2.2⟩

set_option maxRecDepth 100000 in
/-- Counterexample to C17 as stated: with 262148 ticks on the accumulator the
pass dispatches one detent and leaves 262144 ticks unconsumed, not fewer
than 4. -/
theorem exactly_once_counterexample :
    (processEvents farTurned).calls = [(⟨ENCODER_CW_INDEX, by decide⟩, true)] ∧
    (processEvents farTurned).encoderCount - (processEvents farTurned).lastProcessedEncoderCount
      = 262144 := by
  refine ⟨by decide, by decide⟩

/-! ## Phase congruence -/

/-- One decoder call between phases that are equal or one bit apart moves the
accumulator by the change of position, modulo 4. -/
theorem lookup_congruence (a0 b0 a b : Bool)
    (h : (a0, b0) = (a, b) ∨ oneBitApart (a0, b0) (a, b)) :
    (-(lookup_table.getD (((phaseOf a0 b0) <<< 2 ||| phaseOf a b) % 256) 0)
      - (phasePos (a, b) - phasePos (a0, b0))) % 4 = 0 := by
  cases a0 <;> cases b0 <;> cases a <;> cases b <;>
    first
    | (exfalso; revert h; simp [oneBitApart]; done)
    | decide

theorem runISR_congruence (samples : List (Bool × Bool)) :
    ∀ (s : State) (ph : Bool × Bool), s.encoderState = phaseOf ph.1 ph.2 →
      List.Chain (fun p q => p = q ∨ oneBitApart p q) ph samples →
      (runISR samples s).encoderState
        = phaseOf (lastPhase ph samples).1 (lastPhase ph samples).2 ∧
      ((runISR samples s).encoderCount - s.encoderCount
        - (phasePos (lastPhase ph samples) - phasePos ph)) % 4 = 0 := by
  induction samples with
  | nil => intro s ph h _; exact ⟨h, by simp [runISR, lastPhase]⟩
  | cons q rest ih =>
    intro s ph h hc
    obtain ⟨a0, b0⟩ := ph
    obtain ⟨a, b⟩ := q
    rw [List.chain_cons] at hc
    obtain ⟨h1, h2⟩ := handleEncoderISR_step a0 b0 a b s h
    obtain ⟨h3, h4⟩ := ih (handleEncoderISR a b s) (a, b) h1 hc.2
    have h5 := lookup_congruence a0 b0 a b hc.1
    refine ⟨h3, ?_⟩
    show ((runISR rest (handleEncoderISR a b s)).encoderCount - s.encoderCount
      - (phasePos (lastPhase (a, b) rest) - phasePos (a0, b0))) % 4 = 0
    rw [h2] at h4
    omega

/-- C19: phase/accumulator congruence.  With the positions 00→0, 01→1, 11→2,
10→3: if the stored phase is `ph` and every sample of a sequence of
`handleEncoderISR` calls equals the phase before it or differs from it in
exactly one bit, then the decoder ends on the last sample, the change of
`encoderCount` minus the change of position (last sample against `ph`) is a
multiple of 4, and if the sequence ends on the phase it started from the
change of `encoderCount` is a multiple of 4. -/
theorem phase_congruence (s : State) (ph : Bool × Bool) (samples : List (Bool × Bool))
    (hph : s.encoderState = phaseOf ph.1 ph.2)
    (hchain : List.Chain (fun p q => p = q ∨ oneBitApart p q) ph samples) :
    (runISR samples s).encoderState
      = phaseOf (lastPhase ph samples).1 (lastPhase ph samples).2 ∧
    ((runISR samples s).encoderCount - s.encoderCount
      - (phasePos (lastPhase ph samples) - phasePos ph)) % 4 = 0 ∧
    (lastPhase ph samples = ph → 4 ∣ (runISR samples s).encoderCount - s.encoderCount) := by
  obtain ⟨h1, h2⟩ := runISR_congruence samples s ph hph hchain
  refine ⟨h1, h2, ?_⟩
  intro hl
  rw [hl] at h2
  omega

set_option maxRecDepth 100000 in
/-- Witness for C19: from power-on (phase 00), a bouncing quarter turn and then
a full cycle forward. -/
theorem phase_congruence_witness :
    powerOn.encoderState = phaseOf (false, false).1 (false, false).2 ∧
    lastPhase (false, false) bouncySamples = (false, false) ∧
    (runISR bouncySamples powerOn).encoderCount = 4 ∧
    4 ∣ (runISR bouncySamples powerOn).encoderCount - powerOn.encoderCount :=
  ⟨rfl, rfl, by decide,
    (phase_congruence powerOn (false, false) bouncySamples rfl (by
      simp only [bouncySamples, List.chain_cons]
      simp [oneBitApart])).2.2 rfl⟩

/-! ## Alternating edges -/

theorem flip_parity (r last : Bool) (len : Nat) (hr : r ≠ last)
    (h3 : last = true ↔ len % 2 = 1) : (r = true ↔ len % 2 = 0) := by
  cases r <;> cases last <;> simp at hr h3 ⊢ <;> omega

theorem stepView_ok (r : Bool) (v : KeyView) (h : ViewOk v) : ViewOk (stepView r v) := by
  obtain ⟨h1, h2, h3⟩ := h
  unfold stepView
  by_cases hr : r = v.last
  · rw [if_neg (not_not.2 hr)]
    exact ⟨Nat.zero_le _, h2, h3⟩
  · rw [if_pos hr]
    have h256 : (v.cnt + 1) % 256 = v.cnt + 1 := Nat.mod_eq_of_lt (by omega)
    have hp := flip_parity r v.last v.edges.length hr h3
    by_cases hc : (v.cnt + 1) % 256 ≥ 5
    · rw [if_pos hc]
      refine ⟨Nat.zero_le _, ?_, ?_⟩
      · show v.edges ++ [edgeOf r] = alternating (v.edges ++ [edgeOf r]).length
        rw [List.length_append, List.length_singleton, alternating, ← h2]
        congr 2
        unfold edgeOf
        by_cases hrt : r = true
        · rw [if_pos hrt, if_pos (hp.1 hrt)]
        · rw [if_neg hrt, if_neg (fun h => hrt (hp.2 h))]
      · show r = true ↔ (v.edges ++ [edgeOf r]).length % 2 = 1
        rw [List.length_append, List.length_singleton, hp]
        omega
    · rw [if_neg hc]
      exact ⟨by show (v.cnt + 1) % 256 ≤ 4; omega, h2, h3⟩

/-- An edge stored by a tick is a press exactly when the stable level before
the tick was released. -/
theorem stepView_edge (r : Bool) (v : KeyView) (e : KeyEventType)
    (h : (stepView r v).edges = v.edges ++ [e]) :
    (e = KeyEventType.EVENT_PRESS ↔ v.last = false) := by
  unfold stepView at h
  by_cases hr : r = v.last
  · rw [if_neg (not_not.2 hr)] at h
    have := congrArg List.length h
    simp at this
  · rw [if_pos hr] at h
    by_cases hc : (v.cnt + 1) % 256 ≥ 5
    · rw [if_pos hc] at h
      have he : edgeOf r = e := by simpa using h
      rw [← he]
      unfold edgeOf
      revert hr
      cases r <;> cases v.last <;> simp
    · rw [if_neg hc] at h
      have := congrArg List.length h
      simp at this

theorem scanKey_levels (r : Bool) (j i : Fin 8) (s : State)
    (h : s.lastKeyStates i = s.currentKeyStates i) :
    (scanKey r j s).lastKeyStates i = (scanKey r j s).currentKeyStates i := by
  unfold scanKey
  simp only []
  split_ifs
  · show Function.update s.lastKeyStates j r i = Function.update s.currentKeyStates j r i
    by_cases hij : i = j
    · subst hij; simp
    · simp [Function.update_noteq hij, h]
  · exact h
  · exact h

theorem scan_levels (p : Pins) (i : Fin 8) (s : State)
    (h : s.lastKeyStates i = s.currentKeyStates i) :
    (scanKeysAndEncoder p s).lastKeyStates i = (scanKeysAndEncoder p s).currentKeyStates i := by
  have hk : ∀ (l : List (Fin 8)) (s : State), s.lastKeyStates i = s.currentKeyStates i →
      (l.foldl (fun st j => scanKey (p.keys j) j st) s).lastKeyStates i
        = (l.foldl (fun st j => scanKey (p.keys j) j st) s).currentKeyStates i := by
    intro l
    induction l with
    | nil => intro s h; exact h
    | cons j l ih => intro s h; rw [List.foldl_cons]; exact ih _ (scanKey_levels _ j i s h)
  unfold scanKeysAndEncoder scanEncoderSw
  simp only []
  split_ifs <;> exact hk _ s h

theorem runScan_ok (rom : Nat → Fin 256) (pins : Nat → Pins) (i : Fin 8) :
    ∀ n, ViewOk (keyView (runScan pins n (State.init rom)) i) ∧
      (runScan pins n (State.init rom)).lastKeyStates i
        = (runScan pins n (State.init rom)).currentKeyStates i := by
  intro n
  induction n with
  | zero =>
    refine ⟨⟨Nat.zero_le _, ?_, ?_⟩, rfl⟩
    · show edgesOf (State.init rom) i = alternating (edgesOf (State.init rom) i).length
      simp [edgesOf, State.init, alternating]
    · show (State.init rom).lastKeyStates i = true ↔ (edgesOf (State.init rom) i).length % 2 = 1
      simp [edgesOf, State.init]
  | succ n ih =>
    refine ⟨?_, scan_levels _ i _ ih.2⟩
    show ViewOk (keyView (scanKeysAndEncoder (pins n) (runScan pins n (State.init rom))) i)
    rw [keyView_scan]
    exact stepView_ok _ _ ih.1

/-- C20: alternating edges and bounded counter.  For every storage content,
every button `i` and every sequence of `scanKeysAndEncoder` calls from the
initial state, after every call: the edges written to `keyEvents[i]` so far
alternate and start with `EVENT_PRESS`, `lastKeyStates[i]` equals
`currentKeyStates[i]`, and `debounceCounters[i]` is at most 4; and whenever
the next call writes an edge, that edge is `EVENT_PRESS` exactly when the
stable level before the call was released. -/
theorem alternating_edges (rom : Nat → Fin 256) (pins : Nat → Pins) (i : Fin 8) (n : Nat) :
    edgesOf (runScan pins n (State.init rom)) i
      = alternating (edgesOf (runScan pins n (State.init rom)) i).length ∧
    (runScan pins n (State.init rom)).lastKeyStates i
      = (runScan pins n (State.init rom)).currentKeyStates i ∧
    (runScan pins n (State.init rom)).debounceCounters i ≤ 4 ∧
    (∀ e, edgesOf (runScan pins (n + 1) (State.init rom)) i
        = edgesOf (runScan pins n (State.init rom)) i ++ [e] →
      (e = KeyEventType.EVENT_PRESS ↔
        (runScan pins n (State.init rom)).lastKeyStates i = false)) := by
  obtain ⟨⟨h1, h2, _⟩, h4⟩ := runScan_ok rom pins i n
  refine ⟨h2, h4, h1, ?_⟩
  intro e he
  have hv : keyView (runScan pins (n + 1) (State.init rom)) i
      = stepView ((pins n).keys i) (keyView (runScan pins n (State.init rom)) i) := by
    show keyView (scanKeysAndEncoder (pins n) (runScan pins n (State.init rom))) i = _
    rw [keyView_scan]
  have he2 : (keyView (runScan pins (n + 1) (State.init rom)) i).edges
      = (keyView (runScan pins n (State.init rom)) i).edges ++ [e] := he
  rw [hv] at he2
  exact stepView_edge _ _ e he2

/-! ## Values of a short configuration line -/

theorem strtok_field (t : List Char) (ts : List (List Char)) (ht : IsField t) :
    strtok (joinTokens (t :: ts)) = (some t, joinTokens ts) := by
  obtain ⟨hne, hfree⟩ := ht
  have hcomma : ∀ c ∈ t, (decide (c ≠ ',')) = true := by
    intro c hc; simpa using (hfree c hc).1
  cases t with
  | nil => exact absurd rfl hne
  | cons c cs =>
    have hc : c ≠ ',' := (hfree c (List.mem_cons_self _ _)).1
    cases ts with
    | nil =>
      have h1 : List.dropWhile (fun c => decide (c = ',')) (c :: cs) = c :: cs := by
        rw [List.dropWhile_cons_of_neg]; simpa using hc
      have h2 : List.takeWhile (fun c => decide (c ≠ ',')) (c :: cs) = c :: cs :=
        List.takeWhile_eq_self_iff.2 hcomma
      have h3 : List.dropWhile (fun c => decide (c ≠ ',')) (c :: cs) = [] :=
        List.dropWhile_eq_nil_iff.2 hcomma
      simp only [strtok, joinTokens, h1, h2, h3]
      simp
    | cons t2 ts =>
      have h1 : List.dropWhile (fun c => decide (c = ','))
          (c :: cs ++ ',' :: joinTokens (t2 :: ts)) = c :: cs ++ ',' :: joinTokens (t2 :: ts) := by
        rw [List.cons_append, List.dropWhile_cons_of_neg]; simpa using hc
      have h2 : List.takeWhile (fun c => decide (c ≠ ','))
          (c :: cs ++ ',' :: joinTokens (t2 :: ts)) = c :: cs := by
        rw [List.takeWhile_append_of_pos hcomma]
        simp
      have h3 : List.dropWhile (fun c => decide (c ≠ ','))
          (c :: cs ++ ',' :: joinTokens (t2 :: ts)) = ',' :: joinTokens (t2 :: ts) := by
        rw [List.dropWhile_append_of_pos hcomma]
        simp
      simp only [strtok, joinTokens, h1, h2, h3]
      simp

/-- On the values still to be read, `strtok` returns the first, if any. -/
theorem strtok_fields (q : List (List Char)) (hq : ∀ t ∈ q, IsField t) :
    strtok (joinTokens q) = (q.head?, joinTokens q.tail) := by
  cases q with
  | nil => exact strtok_nil
  | cons t ts => exact strtok_field t ts (hq t (List.mem_cons_self _ _))

theorem setConfigCode_fields (i : Fin 13) (j : Fin 4) (l : SetConfigLoop)
    (q : List (List Char)) (hq : ∀ t ∈ q, IsField t) (h : l.rest = joinTokens q) :
    setConfigCode i j l =
      { l with
        keyMap := Function.update l.keyMap i
          { l.keyMap i with codes := Function.update (l.keyMap i).codes j (fieldCode q.head?) }
        p := q.head?
        rest := joinTokens q.tail } := by
  have htok := strtok_fields q hq
  unfold setConfigCode
  simp only [h, htok]
  cases q.head? <;> rfl

theorem setConfigCodes_fields (i : Fin 13) (st : SetConfigLoop) (q : List (List Char))
    (hq : ∀ t ∈ q, IsField t) (hrest : st.rest = joinTokens q) :
    (setConfigCodes i st).keyMap =
        Function.update st.keyMap i
          ⟨(st.keyMap i).type, fun j => fieldCode q[j.val]?⟩ ∧
      (setConfigCodes i st).rest = joinTokens (q.drop 4) ∧
      (setConfigCodes i st).done = st.done := by
  have hq1 : ∀ t ∈ q.tail, IsField t := fun t ht => hq t (List.mem_of_mem_tail ht)
  have hq2 : ∀ t ∈ q.tail.tail, IsField t := fun t ht => hq1 t (List.mem_of_mem_tail ht)
  have hq3 : ∀ t ∈ q.tail.tail.tail, IsField t := fun t ht => hq2 t (List.mem_of_mem_tail ht)
  have hcodes : ∀ f : Fin 4 → Fin 65536,
      Function.update (Function.update (Function.update (Function.update f
        0 (fieldCode q.head?)) 1 (fieldCode q.tail.head?)) 2 (fieldCode q.tail.tail.head?))
        3 (fieldCode q.tail.tail.tail.head?) = fun j => fieldCode q[j.val]? := by
    intro f
    funext j
    rcases q with _ | ⟨a, _ | ⟨b, _ | ⟨c, _ | ⟨d, q⟩⟩⟩⟩ <;> fin_cases j <;> simp [Function.update]
  have hdrop : q.tail.tail.tail.tail = q.drop 4 := by
    rcases q with _ | ⟨a, _ | ⟨b, _ | ⟨c, _ | ⟨d, q⟩⟩⟩⟩ <;> rfl
  unfold setConfigCodes
  rw [finRange4]
  simp only [List.foldl_cons, List.foldl_nil]
  rw [setConfigCode_fields i 0 st q hq hrest]
  rw [setConfigCode_fields i 1 _ q.tail hq1 rfl]
  rw [setConfigCode_fields i 2 _ q.tail.tail hq2 rfl]
  rw [setConfigCode_fields i 3 _ q.tail.tail.tail hq3 rfl]
  simp only [Function.update_idem, Function.update_same, hcodes, hdrop]
  exact ⟨trivial, trivial, trivial⟩

theorem setConfigEntry_fields (i : Fin 13) (st : SetConfigLoop) (t : List Char)
    (q : List (List Char)) (hq : ∀ x ∈ q, IsField x) (hdone : st.done = false)
    (hp : st.p = some t) (hrest : st.rest = joinTokens q) :
    (setConfigEntry i st).keyMap = Function.update st.keyMap i (fieldEntry t q) ∧
    (setConfigEntry i st).done = false ∧
    (i.val < NUM_TOTAL_MAPS - 1 →
      (setConfigEntry i st).p = (q.drop 4).head? ∧
      (setConfigEntry i st).rest = joinTokens (q.drop 4).tail) := by
  have hq4 : ∀ x ∈ q.drop 4, IsField x := fun x hx => hq x (List.mem_of_mem_drop hx)
  have hcs := setConfigCodes_fields i
    { keyMap := Function.update st.keyMap i
        { type := toKeyType (atoi t), codes := (st.keyMap i).codes },
      p := some t, rest := st.rest, done := false } q hq hrest
  obtain ⟨hk, hr, hd⟩ := hcs
  unfold setConfigEntry
  simp only [hdone, hp, Bool.false_eq_true, if_false]
  by_cases hi : i.val < NUM_TOTAL_MAPS - 1
  · simp only [if_pos hi]
    refine ⟨?_, ?_, fun _ => ?_⟩
    · rw [hk]
      simp only [Function.update_idem, Function.update_same]
      rfl
    · exact hd
    · rw [hr, strtok_fields _ hq4]
      exact ⟨rfl, rfl⟩
  · simp only [if_neg hi]
    refine ⟨?_, ?_, fun h => absurd h hi⟩
    · rw [hk]
      simp only [Function.update_idem, Function.update_same]
      rfl
    · exact hd

theorem setConfigLoop_done (es : List (Fin 13)) :
    ∀ st : SetConfigLoop, st.done = true →
      (es.foldl (fun l i => setConfigEntry i l) st).keyMap = st.keyMap := by
  induction es with
  | nil => intro st _; rfl
  | cons i es ih =>
    intro st h
    have h1 : setConfigEntry i st = st := by
      unfold setConfigEntry
      rw [if_pos h]
    rw [List.foldl_cons, h1, ih st h]

/-- The loop over rising entries `es`, on the values still to be read. -/
theorem setConfigLoop_fields (es : List (Fin 13)) (hes : es.Pairwise (fun a b => a < b)) :
    ∀ (q : List (List Char)) (st : SetConfigLoop), (∀ x ∈ q, IsField x) →
      st.done = false → st.p = q.head? → st.rest = joinTokens q.tail →
      (es.foldl (fun l i => setConfigEntry i l) st).keyMap = fillEntries es q st.keyMap := by
  induction es with
  | nil => intro q st _ _ _ _; rfl
  | cons i es ih =>
    intro q st hq hdone hp hrest
    rw [List.pairwise_cons] at hes
    cases q with
    | nil =>
      have h1 : setConfigEntry i st = { st with done := true } := by
        unfold setConfigEntry
        have hp2 : st.p = none := hp
        simp only [hdone, hp2, Bool.false_eq_true, if_false]
      rw [List.foldl_cons, h1, setConfigLoop_done es _ rfl]
      rfl
    | cons t q =>
      have hq2 : ∀ x ∈ q, IsField x := fun x hx => hq x (List.mem_cons_of_mem _ hx)
      obtain ⟨h1, h2, h3⟩ := setConfigEntry_fields i st t q hq2 hdone hp hrest
      rw [List.foldl_cons]
      cases es with
      | nil => simp only [List.foldl_nil, fillEntries]; exact h1
      | cons j es =>
        have hij : i < j := hes.1 j (List.mem_cons_self _ _)
        have hi : i.val < NUM_TOTAL_MAPS - 1 := by
          have := j.isLt
          have : i.val < j.val := hij
          simp only [NUM_TOTAL_MAPS, NUM_KEYS, NUM_ENCODER_MAPS]
          omega
        obtain ⟨h4, h5⟩ := h3 hi
        rw [ih hes.2 (q.drop 4) _ (fun x hx => hq2 x (List.mem_of_mem_drop hx)) h2 h4 h5, h1]
        rfl

/-- The loop from entry `a` on, on the values from flat position `5 a` on. -/
theorem fillEntries_drop (r : List (List Char)) :
    ∀ (n a : Nat), a + n = 13 → ∀ km : Fin 13 → KeyMapping,
      fillEntries ((List.finRange 13).drop a) (r.drop (5 * a)) km =
        fun i => if a ≤ i.val then shortConfig r km i else km i := by
  intro n
  induction n with
  | zero =>
    intro a ha km
    have : (List.finRange 13).drop a = [] := by
      apply List.drop_eq_nil_of_le; simp; omega
    rw [this]
    funext i
    have := i.isLt
    rw [if_neg (by omega)]
    rfl
  | succ n ih =>
    intro a ha km
    have ha13 : a < 13 := by omega
    have hd : (List.finRange 13).drop a = ⟨a, ha13⟩ :: (List.finRange 13).drop (a + 1) := by
      rw [List.drop_eq_getElem_cons (by simpa using ha13)]
      simp
    rw [hd]
    cases hq : r.drop (5 * a) with
    | nil =>
      have hlen : r.length ≤ 5 * a := List.drop_eq_nil_iff.1 hq
      funext i
      simp only [fillEntries]
      by_cases hi : a ≤ i.val
      · rw [if_pos hi]
        unfold shortConfig
        have : r[5 * i.val]? = none := List.getElem?_eq_none (by omega)
        rw [this]
      · rw [if_neg hi]
    | cons t q =>
      have hlen : 5 * a < r.length := by
        by_contra hcon
        have : r.drop (5 * a) = [] := List.drop_eq_nil_iff.2 (by omega)
        rw [this] at hq
        exact List.noConfusion hq
      have ht : r[5 * a]? = some t := by
        have := congrArg (fun l => l[0]?) hq
        simpa [List.getElem?_drop] using this
      have hqj : ∀ k, q[k]? = r[5 * a + 1 + k]? := by
        intro k
        have := congrArg (fun l => l[k + 1]?) hq
        simp only [List.getElem?_drop, List.getElem?_cons_succ] at this
        rw [← this]
        congr 1
        omega
      have hq4 : q.drop 4 = r.drop (5 * (a + 1)) := by
        have := congrArg (fun l => l.drop 5) hq
        simp only [List.drop_drop, List.drop_succ_cons] at this
        rw [← this]
        congr 1
      simp only [fillEntries]
      rw [hq4, ih (a + 1) (by omega)]
      funext i
      by_cases hi : a + 1 ≤ i.val
      · have hne : i ≠ ⟨a, ha13⟩ := by
          intro h; rw [h] at hi; simp at hi
        rw [if_pos hi, if_pos (by omega)]
        unfold shortConfig
        rw [Function.update_noteq hne]
      · rw [if_neg hi]
        by_cases hia : a ≤ i.val
        · have hia2 : i = ⟨a, ha13⟩ := Fin.ext (by simp; omega)
          rw [if_pos hia, hia2, Function.update_same]
          unfold shortConfig fieldEntry
          simp only [ht]
          congr 1
          funext j
          rw [hqj]
        · have hne : i ≠ ⟨a, ha13⟩ := by
            intro h; rw [h] at hia; simp at hia
          rw [if_neg hia, Function.update_noteq hne]

/-- The table `parseConfig` leaves for a payload of values joined by commas. -/
theorem parseConfig_fields (r : List (List Char)) (hr : ∀ t ∈ r, IsField t)
    (km : Fin 13 → KeyMapping) :
    parseConfig (joinTokens r) km = shortConfig r km := by
  unfold parseConfig
  rw [strtok_fields r hr]
  rw [setConfigLoop_fields (List.finRange 13) (List.pairwise_lt_finRange 13) r _ hr rfl rfl rfl]
  have := fillEntries_drop r 13 0 (by omega) km
  simp only [List.drop_zero, Nat.mul_zero, Nat.zero_le, if_true] at this
  exact this

theorem joinTokens_chars (r : List (List Char)) :
    ∀ c ∈ joinTokens r, (∃ t ∈ r, c ∈ t) ∨ c = ',' := by
  induction r with
  | nil => intro c hc; simp [joinTokens] at hc
  | cons t r ih =>
    intro c hc
    cases r with
    | nil => exact Or.inl ⟨t, List.mem_cons_self _ _, by simpa [joinTokens] using hc⟩
    | cons t2 r =>
      simp only [joinTokens, List.mem_append, List.mem_cons] at hc
      rcases hc with h | h | h
      · exact Or.inl ⟨t, List.mem_cons_self _ _, h⟩
      · exact Or.inr h
      · rcases ih c h with ⟨x, hx, hcx⟩ | h2
        · exact Or.inl ⟨x, List.mem_cons_of_mem _ hx, hcx⟩
        · exact Or.inr h2

/-- The handler on a `SET_CONFIG` line of values that fits the read buffer. -/
theorem handleSerialCommands_set (env : Env) (s : State) (r : List (List Char))
    (more : List Char) (hr : ∀ t ∈ r, IsField t)
    (hfit : ("SET_CONFIG:".toList ++ joinTokens r).length < 255)
    (hin : s.serialIn = "SET_CONFIG:".toList ++ joinTokens r ++ '\n' :: more) :
    handleSerialCommands env s =
      println "OK".toList
        (saveConfig { s with serialIn := more, keyMap := shortConfig r s.keyMap }) := by
  have hS : "SET_CONFIG:".toList = ['S', 'E', 'T', '_', 'C', 'O', 'N', 'F', 'I', 'G', ':'] := rfl
  have hG : "GET_CONFIG".toList = ['G', 'E', 'T', '_', 'C', 'O', 'N', 'F', 'I', 'G'] := rfl
  have hmem : ∀ c ∈ "SET_CONFIG:".toList ++ joinTokens r, c ≠ '\n' ∧ c ≠ '\x00' := by
    intro c hc
    rcases List.mem_append.1 hc with h | h
    · rw [hS] at h
      simp only [List.mem_cons, List.mem_singleton, List.not_mem_nil, or_false] at h
      rcases h with h | h | h | h | h | h | h | h | h | h | h <;> subst h <;> decide
    · rcases joinTokens_chars r c h with ⟨t, ht, hct⟩ | hd
      · exact ((hr t ht).2 c hct).2
      · subst hd; decide
  have hstep := handleSerialCommands_line env s _ _ hin hfit
    (fun c hc => (hmem c hc).1) (fun c hc => (hmem c hc).2) (by rw [hS]; rfl)
  have hnotget : ¬ ("SET_CONFIG:".toList ++ joinTokens r = "GET_CONFIG".toList) := by
    rw [hS, hG]; simp
  have htake : ("SET_CONFIG:".toList ++ joinTokens r).take 11 = "SET_CONFIG:".toList := by
    rw [hS]; simp
  have hdrop : ("SET_CONFIG:".toList ++ joinTokens r).drop 11 = joinTokens r := by
    rw [hS]; simp
  rw [if_neg hnotget, if_pos htake, hdrop, parseConfig_fields r hr] at hstep
  exact hstep

/-- C13, amended: `SET_CONFIG` with short input.  Let the payload be `k` values
joined by commas (each value non-empty, without comma, line end or NUL), on a
line shorter than the 255-byte read buffer.  After the command: in every entry
whose type value was supplied (flat position `5 i < k`) every code with no
supplied value (flat position `5 i + 1 + j >= k`) is 0; every entry with no
supplied value at all (`5 i >= k`) keeps the content it had before; a supplied
type or code is the conversion of its value; the resulting table is what is
persisted (`loadConfig` from that storage gives it) and the reply is `OK`. -/
theorem set_config_short (env : Env) (s : State) (r : List (List Char)) (more : List Char)
    (hr : ∀ t ∈ r, IsField t)
    (hfit : ("SET_CONFIG:".toList ++ joinTokens r).length < 255)
    (hin : s.serialIn = "SET_CONFIG:".toList ++ joinTokens r ++ '\n' :: more) :
    (∀ (i : Fin 13) (j : Fin 4), 5 * i.val < r.length → r.length ≤ 5 * i.val + 1 + j.val →
      (((handleSerialCommands env s).keyMap i).codes j).val = 0) ∧
    (∀ i : Fin 13, r.length ≤ 5 * i.val →
      (handleSerialCommands env s).keyMap i = s.keyMap i) ∧
    (∀ (i : Fin 13) (t : List Char), r[5 * i.val]? = some t →
      ((handleSerialCommands env s).keyMap i).type = toKeyType (atoi t)) ∧
    (∀ (i : Fin 13) (j : Fin 4) (t : List Char), 5 * i.val < r.length →
      r[5 * i.val + 1 + j.val]? = some t →
      ((handleSerialCommands env s).keyMap i).codes j = toUInt16 (atoi t)) ∧
    (handleSerialCommands env s).keyMap = shortConfig r s.keyMap ∧
    (∀ t : State, t.eeprom = (handleSerialCommands env s).eeprom →
      (loadConfig t).keyMap = (handleSerialCommands env s).keyMap) ∧
    (handleSerialCommands env s).serialOut = s.serialOut ++ "OK\r\n".toList ∧
    (handleSerialCommands env s).serialIn = more := by
  have hstep := handleSerialCommands_set env s r more hr hfit hin
  have hkm : (handleSerialCommands env s).keyMap = shortConfig r s.keyMap := by
    rw [hstep]; rfl
  refine ⟨?_, ?_, ?_, ?_, hkm, ?_, ?_, ?_⟩
  · intro i j hi hj
    obtain ⟨t, ht⟩ : ∃ t, r[5 * i.val]? = some t :=
      ⟨r[5 * i.val], List.getElem?_eq_getElem hi⟩
    have hn : r[5 * i.val + 1 + j.val]? = none := List.getElem?_eq_none hj
    rw [hkm]
    simp only [shortConfig, ht, hn]
    rfl
  · intro i hi
    have hn : r[5 * i.val]? = none := List.getElem?_eq_none hi
    rw [hkm]
    simp only [shortConfig, hn]
  · intro i t ht
    rw [hkm]
    simp only [shortConfig, ht]
  · intro i j t hi ht
    obtain ⟨t0, ht0⟩ : ∃ t0, r[5 * i.val]? = some t0 :=
      ⟨r[5 * i.val], List.getElem?_eq_getElem hi⟩
    rw [hkm]
    simp only [shortConfig, ht0, ht]
    rfl
  · intro t ht
    rw [hkm]
    exact loadConfig_of_saved { s with serialIn := more, keyMap := shortConfig r s.keyMap } t (by
      rw [ht, hstep]; rfl)
  · rw [hstep]; simp [println, saveConfig]
  · rw [hstep]; rfl

set_option maxRecDepth 100000 in
/-- Witness for C13: the sample table and the payload `1,4,5`.  Entry 0 becomes
type 1 with codes 4, 5, 0, 0 and entry 1 keeps its Consumer mapping. -/
theorem set_config_short_witness :
    (∀ t ∈ threeFields, IsField t) ∧
    threeValues.serialIn = "SET_CONFIG:".toList ++ joinTokens threeFields ++ '\n' :: [] ∧
    (((handleSerialCommands sampleEnv threeValues).keyMap 0).codes 2).val = 0 ∧
    (((handleSerialCommands sampleEnv threeValues).keyMap 0).codes 3).val = 0 ∧
    (handleSerialCommands sampleEnv threeValues).keyMap 1 = threeValues.keyMap 1 ∧
    ((handleSerialCommands sampleEnv threeValues).keyMap 0).codes 1
      = toUInt16 (atoi "5".toList) ∧
    (handleSerialCommands sampleEnv threeValues).serialOut
      = threeValues.serialOut ++ "OK\r\n".toList :=
  have hr : ∀ t ∈ threeFields, IsField t := by
    intro t ht
    simp only [threeFields, List.mem_cons, List.mem_singleton, List.not_mem_nil, or_false] at ht
    rcases ht with h | h | h <;> subst h <;> exact ⟨by decide, by decide⟩
  have h := set_config_short sampleEnv threeValues threeFields [] hr (by decide) rfl
  ⟨hr, rfl, h.1 0 2 (by decide) (by decide), h.1 0 3 (by decide) (by decide),
    h.2.1 1 (by decide), h.2.2.2.1 0 1 "5".toList (by decide) rfl, h.2.2.2.2.2.2.1⟩

set_option maxRecDepth 1000000 in
set_option maxHeartbeats 4000000 in
/-- Counterexample to C13 as stated.  With the sample table in memory, the
line `SET_CONFIG:1,4` supplies 2 values: entry 0 becomes type 1 with codes 4,
0, 0, 0, the reply is `OK`, but entries 1, 9 and 11, all at flat positions
beyond 2, keep their non-zero content, in memory and in storage.  And with the
table of codes 65535 in memory, a line of 61 values that has 324 bytes is cut
at 255: entry 12, whose type was supplied, keeps its type and its codes 65535. -/
theorem set_config_short_counterexample :
    ((handleSerialCommands sampleEnv twoValues).keyMap 0).type.val = 1 ∧
    (((handleSerialCommands sampleEnv twoValues).keyMap 0).codes 0).val = 4 ∧
    (((handleSerialCommands sampleEnv twoValues).keyMap 0).codes 1).val = 0 ∧
    ((handleSerialCommands sampleEnv twoValues).keyMap 1).type.val = 2 ∧
    (((handleSerialCommands sampleEnv twoValues).keyMap 1).codes 0).val = 233 ∧
    (((handleSerialCommands sampleEnv twoValues).keyMap 9).codes 2).val = 129 ∧
    ((handleSerialCommands sampleEnv twoValues).keyMap 11).type.val = 2 ∧
    (eepromGet16 (2 + 9 * 1 + 1) (handleSerialCommands sampleEnv twoValues).eeprom).val = 233 ∧
    (handleSerialCommands sampleEnv twoValues).serialOut = "OK\r\n".toList ∧
    (sixtyOneFields.length = 61 ∧
      ("SET_CONFIG:".toList ++ joinTokens sixtyOneFields).length = 324 ∧
      (((handleSerialCommands sampleEnv sixtyOneValues).keyMap 12).codes 0).val = 65535 ∧
      (handleSerialCommands sampleEnv sixtyOneValues).serialOut = "OK\r\n".toList) := by
  refine ⟨by decide, by decide, by decide, by decide, by decide, by decide, by decide, by decide,
    by decide, by decide, by decide, by decide, by decide⟩

/-! ## Debounce commit from a reachable state -/

theorem executeMapping_debounce (m : Fin 13) (b : Bool) (s : State) :
    (executeMapping m b s).debounceCounters = s.debounceCounters := by
  unfold executeMapping
  simp only []
  split_ifs <;> rfl

theorem repeatMapping_debounce (m : Fin 13) (n : Nat) :
    ∀ s : State, (repeatMapping m n s).debounceCounters = s.debounceCounters := by
  induction n with
  | zero => intro s; rfl
  | succ n ih => intro s; exact (ih _).trans (executeMapping_debounce m true s)

theorem processKeyEvent_debounce (i : Fin 8) (s : State) :
    (processKeyEvent i s).debounceCounters = s.debounceCounters := by
  unfold processKeyEvent
  simp only []
  split_ifs
  · exact executeMapping_debounce _ _ _
  · exact executeMapping_debounce _ _ _
  · rfl

theorem processEvents_debounce (s : State) :
    (processEvents s).debounceCounters = s.debounceCounters := by
  have hk : ∀ (l : List (Fin 8)) (s : State),
      (l.foldl (fun st i => processKeyEvent i st) s).debounceCounters = s.debounceCounters := by
    intro l
    induction l with
    | nil => intro s; rfl
    | cons i l ih => intro s; rw [List.foldl_cons, ih, processKeyEvent_debounce]
  have ht : ∀ s : State, (processSwTap s).debounceCounters = s.debounceCounters := by
    intro s
    unfold processSwTap
    split_ifs
    · show (executeMapping _ false (executeMapping _ true s)).debounceCounters = _
      rw [executeMapping_debounce, executeMapping_debounce]
    · rfl
  have he : ∀ s : State, (processEncoder s).debounceCounters = s.debounceCounters := by
    intro s
    unfold processEncoder
    simp only []
    split_ifs <;> first | rfl | exact repeatMapping_debounce _ _ s
  unfold processEvents processKeys
  rw [he, ht, hk]

theorem handleEncoderISR_debounce (a b : Bool) (s : State) :
    (handleEncoderISR a b s).debounceCounters = s.debounceCounters := by
  unfold handleEncoderISR
  simp only []
  split_ifs <;> rfl

theorem songInfo_debounce (env : Env) (data : List Char) (s : State) :
    (songInfo env data s).debounceCounters = s.debounceCounters := by
  unfold songInfo
  cases (strtok data).1 with
  | none => rfl
  | some t =>
    simp only []
    split_ifs <;> (repeat' split) <;> rfl

theorem handleSerialCommands_debounce (env : Env) (s : State) :
    (handleSerialCommands env s).debounceCounters = s.debounceCounters := by
  unfold handleSerialCommands
  simp only []
  split_ifs
  · rfl
  · rfl
  · rfl
  · rfl
  · rfl
  · exact songInfo_debounce _ _ _
  · rfl
  · rfl

theorem stepView_cnt (r : Bool) (v : KeyView) : (stepView r v).cnt ≤ 4 := by
  unfold stepView
  split_ifs with h1 h2
  · exact Nat.zero_le _
  · show (v.cnt + 1) % 256 ≤ 4
    omega
  · exact Nat.zero_le _

/-- No step takes the mismatch counter of a button above 4. -/
theorem run_counter (i : Fin 8) (pre : List Step) :
    ∀ s : State, s.debounceCounters i ≤ 4 → (run pre s).debounceCounters i ≤ 4 := by
  induction pre with
  | nil => intro s h; exact h
  | cons e rest ih =>
    intro s h
    apply ih
    cases e with
    | tick p =>
      have hv := keyView_scan p i s
      simp only [keyView] at hv
      have hc : (scanKeysAndEncoder p s).debounceCounters i
          = (stepView (p.keys i) ⟨s.lastKeyStates i, s.debounceCounters i, s.keyEvents i,
              edgesOf s i⟩).cnt := congrArg KeyView.cnt hv
      have e : step (Step.tick p) s = scanKeysAndEncoder p s := rfl
      rw [e, hc]
      exact stepView_cnt _ _
    | isr a b =>
      have e : step (Step.isr a b) s = handleEncoderISR a b s := rfl
      rw [e, handleEncoderISR_debounce]; exact h
    | events =>
      have e : step Step.events s = processEvents s := rfl
      rw [e, processEvents_debounce]; exact h
    | serial env =>
      have e : step (Step.serial env) s = handleSerialCommands env s := rfl
      rw [e, handleSerialCommands_debounce]; exact h
    | receive bytes => exact h

theorem reached_counter (rom : Nat → Fin 256) (km : Fin 13 → KeyMapping) (pre : List Step)
    (i : Fin 8) : (reached rom km pre).debounceCounters i ≤ 4 :=
  run_counter i pre _ (Nat.zero_le _)

/-- While the raw level differs from the stable level and the counter stays
below the threshold, every tick counts one mismatch. -/
theorem keyView_run_from (pins : Nat → Pins) (s : State) (i : Fin 8) (r : Bool)
    (hr : r ≠ s.lastKeyStates i) :
    ∀ m, s.debounceCounters i + m ≤ 4 → (∀ t, t < m → (pins t).keys i = r) →
      keyView (runScan pins m s) i
        = ⟨s.lastKeyStates i, s.debounceCounters i + m, s.keyEvents i, edgesOf s i⟩ := by
  intro m
  induction m with
  | zero => intro _ _; simp [runScan, keyView]
  | succ m ih =>
    intro hm hp
    have ih2 := ih (by omega) (fun t ht => hp t (by omega))
    have h256 : (s.debounceCounters i + (m + 1)) % 256 = s.debounceCounters i + (m + 1) :=
      Nat.mod_eq_of_lt (by omega)
    have h5 : ¬ (5 ≤ s.debounceCounters i + (m + 1)) := by omega
    show keyView (scanKeysAndEncoder (pins m) (runScan pins m s)) i = _
    rw [keyView_scan, ih2, hp m (by omega)]
    simp [stepView, hr, h256, h5, Nat.add_assoc]

/-- If the raw level differs from the stable level on 5 consecutive ticks, no
mismatch was pending before the first of them. -/
theorem premise_counter_zero (pins : Nat → Pins) (s : State) (i : Fin 8) (r : Bool)
    (hc : s.debounceCounters i ≤ 4) (hp : ∀ t, t < 5 → (pins t).keys i = r)
    (hdiff : ∀ t, t < 5 → r ≠ (runScan pins t s).lastKeyStates i) :
    s.debounceCounters i = 0 := by
  by_contra hne
  have hr : r ≠ s.lastKeyStates i := hdiff 0 (by omega)
  have hk := keyView_run_from pins s i r hr (4 - s.debounceCounters i) (by omega)
    (fun t ht => hp t (by omega))
  have hflip : keyView (runScan pins (4 - s.debounceCounters i + 1) s) i
      = stepView r (keyView (runScan pins (4 - s.debounceCounters i) s) i) := by
    show keyView (scanKeysAndEncoder (pins (4 - s.debounceCounters i))
      (runScan pins (4 - s.debounceCounters i) s)) i = _
    rw [keyView_scan, hp _ (by omega)]
  rw [hk] at hflip
  have h4 : s.debounceCounters i + (4 - s.debounceCounters i) = 4 := by omega
  have hlast : (runScan pins (4 - s.debounceCounters i + 1) s).lastKeyStates i = r := by
    have := congrArg KeyView.last hflip
    simpa [keyView, stepView, hr, h4] using this
  exact hdiff (4 - s.debounceCounters i + 1) (by omega) hlast.symm

/-- C1: debounce commit.  For every button `i` and every state the sketch can
be in (`reached`: any storage content, any table, any run of steps since
power-on): if on `n >= 5` consecutive calls of `scanKeysAndEncoder` the raw
level of `i` is the level `r`, and on each of the first 5 of these calls `r`
differs from the stable level `lastKeyStates[i]` the call finds, then the
stable level and the stored edges of `i` are untouched before the 5th call,
and after the 5th call and after every later call up to the `n`-th the stable
level is `r`, the slot holds the edge of `r` (`EVENT_PRESS` for pressed,
`EVENT_RELEASE` otherwise) and exactly that one edge has been stored: it was
stored by the 5th call and no later call stores another. -/
theorem debounce_commit (rom : Nat → Fin 256) (km : Fin 13 → KeyMapping) (pre : List Step)
    (i : Fin 8) (r : Bool) (pins : Nat → Pins) (n : Nat) (hn : 5 ≤ n)
    (hp : ∀ t, t < n → (pins t).keys i = r)
    (hdiff : ∀ t, t < 5 → r ≠ (runScan pins t (reached rom km pre)).lastKeyStates i) :
    (∀ t, t < 5 →
      (runScan pins t (reached rom km pre)).lastKeyStates i
        = (reached rom km pre).lastKeyStates i ∧
      edgesOf (runScan pins t (reached rom km pre)) i = edgesOf (reached rom km pre) i) ∧
    (∀ m, 5 ≤ m → m ≤ n →
      (runScan pins m (reached rom km pre)).lastKeyStates i = r ∧
      (runScan pins m (reached rom km pre)).keyEvents i = edgeOf r ∧
      edgesOf (runScan pins m (reached rom km pre)) i
        = edgesOf (reached rom km pre) i ++ [edgeOf r]) := by
  have hr : r ≠ (reached rom km pre).lastKeyStates i := hdiff 0 (by omega)
  have h0 : (reached rom km pre).debounceCounters i = 0 :=
    premise_counter_zero pins _ i r (reached_counter rom km pre i)
      (fun t ht => hp t (by omega)) hdiff
  constructor
  · intro t ht
    have h := keyView_run_lt pins _ i r h0 hr t (by omega) (fun u hu => hp u (by omega))
    simp only [keyView, KeyView.mk.injEq] at h
    exact ⟨h.1, h.2.2.2⟩
  · intro m hm hmn
    have h := keyView_run_ge pins _ i r h0 hr m hm (fun u hu => hp u (by omega))
    simp only [keyView, KeyView.mk.injEq] at h
    exact ⟨h.1, h.2.2.1, h.2.2.2⟩

set_option maxRecDepth 100000 in
/-- C1 at a concrete input: after a bounce of three ticks, a reset tick and a
pass, button 0 is held down for 7 ticks. -/
theorem debounce_commit_witness :
    (∀ t, t < 5 →
      true ≠ (runScan pressAll t (reached erasedRom sampleMap bouncedStart)).lastKeyStates 0) ∧
    (runScan pressAll 4 (reached erasedRom sampleMap bouncedStart)).lastKeyStates 0 = false ∧
    (runScan pressAll 5 (reached erasedRom sampleMap bouncedStart)).lastKeyStates 0 = true ∧
    edgesOf (runScan pressAll 7 (reached erasedRom sampleMap bouncedStart)) 0
      = edgesOf (reached erasedRom sampleMap bouncedStart) 0 ++ [edgeOf true] :=
  have hd : ∀ t, t < 5 →
      true ≠ (runScan pressAll t (reached erasedRom sampleMap bouncedStart)).lastKeyStates 0 := by
    decide
  have h := debounce_commit erasedRom sampleMap bouncedStart 0 true pressAll 7 (by decide)
    (fun _ _ => rfl) hd
  ⟨hd, by decide, (h.2 5 (by decide) (by decide)).1, (h.2 7 (by decide) (by decide)).2.2⟩

/-! ## Full cycles and their dispatch -/

theorem runISR_frame_aux (l : List (Bool × Bool)) :
    ∀ s : State, ∃ c e, runISR l s = { s with encoderCount := c, encoderState := e } := by
  induction l with
  | nil => intro s; exact ⟨s.encoderCount, s.encoderState, rfl⟩
  | cons x l ih =>
    intro s
    obtain ⟨a, b⟩ := x
    have h1 : ∃ c e, handleEncoderISR a b s = { s with encoderCount := c, encoderState := e } := by
      unfold handleEncoderISR
      simp only []
      split_ifs
      · exact ⟨_, _, rfl⟩
      · exact ⟨_, _, rfl⟩
    obtain ⟨c1, e1, h1⟩ := h1
    obtain ⟨c, e, h2⟩ := ih (handleEncoderISR a b s)
    refine ⟨c, e, ?_⟩
    show runISR l (handleEncoderISR a b s) = _
    rw [h2, h1]

/-- The decoder writes only the accumulator and the stored phase. -/
theorem runISR_frame (l : List (Bool × Bool)) (s : State) :
    runISR l s =
      { s with encoderCount := (runISR l s).encoderCount,
               encoderState := (runISR l s).encoderState } := by
  obtain ⟨c, e, h⟩ := runISR_frame_aux l s
  rw [h]

/-- One pass after a turn of `d` ticks from a state with nothing unconsumed,
for `|d| < 32768`. -/
theorem processEvents_turned (s t : State) (d : Int)
    (hframe : t = { s with encoderCount := t.encoderCount, encoderState := t.encoderState })
    (hcount : t.encoderCount = s.encoderCount + d)
    (hzero : s.encoderCount = s.lastProcessedEncoderCount) (hd : d.natAbs < 32768) :
    ∃ pre : List (Fin 13 × Bool),
      (∀ e ∈ pre, e.1.val < NUM_KEYS ∨ e.1.val = ENCODER_SW_INDEX) ∧
      (processEvents t).calls = s.calls ++ pre ++
        List.replicate (d.natAbs / 4) ((if 0 < d then cwIndex s else ccwIndex s), true) ∧
      ((processEvents t).encoderCount - (processEvents t).lastProcessedEncoderCount).natAbs
        = d.natAbs % 4 := by
  have hcalls : t.calls = s.calls := by rw [hframe]
  have hlast : t.lastProcessedEncoderCount = s.lastProcessedEncoderCount := by rw [hframe]
  have hsw : t.currentEncoderSwState = s.currentEncoderSwState := by rw [hframe]
  have hdt : t.encoderCount - t.lastProcessedEncoderCount = d := by
    rw [hlast, hcount, hzero]; ring
  obtain ⟨p1, h1, hp1⟩ := keyLoop_calls (List.finRange 8) t
  obtain ⟨p2, h2, hp2⟩ := processSwTap_calls (processKeys t)
  have hc : SameCounters t (processSwTap (processKeys t)) :=
    (keyLoop_counters (List.finRange 8) t).trans_ (processSwTap_counters _)
  have hd2 : ((processSwTap (processKeys t)).encoderCount -
      (processSwTap (processKeys t)).lastProcessedEncoderCount).natAbs < 32768 := by
    rw [hc.1, hc.2.1, hdt]; exact hd
  have hspec := processEncoder_spec (processSwTap (processKeys t)) hd2
  rw [hc.1, hc.2.1, hc.2.2.1, hdt, hsw] at hspec
  refine ⟨p1 ++ p2, ?_, ?_, ?_⟩
  · intro e he
    rcases List.mem_append.1 he with h | h
    · exact Or.inl (hp1 e h)
    · exact Or.inr (hp2 e h)
  · show (processEncoder _).calls = _
    rw [hspec.1, h2]
    show ((List.finRange 8).foldl _ t).calls ++ _ ++ _ = _
    rw [h1, hcalls]
    unfold cwIndex ccwIndex
    by_cases hpos : 0 < d
    · simp [hpos]
    · simp [hpos]
  · show ((processEncoder _).encoderCount - (processEncoder _).lastProcessedEncoderCount).natAbs = _
    rw [hspec.2.1, hspec.2.2]
    have hte : t.encoderCount = t.lastProcessedEncoderCount + d := by rw [← hdt]; ring
    rw [hte]
    rcases lt_trichotomy d 0 with h | h | h
    · rw [Int.sign_eq_neg_one_of_neg h]; omega
    · subst h; simp
    · rw [Int.sign_eq_one_of_pos h]; omega

/-- C8, amended: quadrature decoding of full cycles.  From every starting phase
`ph` stored in `encoderState`, feeding the decoder the samples of `k` full
cycles in the order 00, 01, 11, 10 adds exactly `4 * k` to `encoderCount`, and
the samples of `k` full cycles in the reverse order add exactly `-4 * k`.  In
both cycles each sample differs from the one before in exactly one bit.  A
call whose sample equals the stored phase, or differs from it in both bits,
leaves `encoderCount` unchanged.  Dispatch: if `k < 8192` (the `4 * k` ticks
fit the 16-bit `int`) and nothing was unconsumed before the turn, one
`processEvents` pass after the `k` forward cycles calls `executeMapping`
exactly `k` times on the clockwise index, after the `k` reverse cycles exactly
`k` times on the counter-clockwise index (the switch-held indices when the
switch is down), in each case after whatever it dispatches for the button
slots and the switch tap (`pre`), and leaves nothing unconsumed. -/
theorem quadrature_cycles (ph : Bool × Bool) (k : Nat) (s : State)
    (h : s.encoderState = phaseOf ph.1 ph.2) :
    (runISR (cycles (forwardCycle ph) k) s).encoderCount = s.encoderCount + 4 * (k : Int) ∧
    (runISR (cycles (reverseCycle ph) k) s).encoderCount = s.encoderCount - 4 * (k : Int) ∧
    (List.Chain oneBitApart ph (forwardCycle ph) ∧ List.Chain oneBitApart ph (reverseCycle ph)) ∧
    (∀ a b : Bool, (a, b) = ph ∨ (a, b) = (!ph.1, !ph.2) →
      (handleEncoderISR a b s).encoderCount = s.encoderCount) ∧
    (k < 8192 → s.encoderCount = s.lastProcessedEncoderCount →
      (∃ pre : List (Fin 13 × Bool),
        (∀ e ∈ pre, e.1.val < NUM_KEYS ∨ e.1.val = ENCODER_SW_INDEX) ∧
        (processEvents (runISR (cycles (forwardCycle ph) k) s)).calls
          = s.calls ++ pre ++ List.replicate k (cwIndex s, true) ∧
        (processEvents (runISR (cycles (forwardCycle ph) k) s)).encoderCount
          = (processEvents (runISR (cycles (forwardCycle ph) k) s)).lastProcessedEncoderCount) ∧
      (∃ pre : List (Fin 13 × Bool),
        (∀ e ∈ pre, e.1.val < NUM_KEYS ∨ e.1.val = ENCODER_SW_INDEX) ∧
        (processEvents (runISR (cycles (reverseCycle ph) k) s)).calls
          = s.calls ++ pre ++ List.replicate k (ccwIndex s, true) ∧
        (processEvents (runISR (cycles (reverseCycle ph) k) s)).encoderCount
          = (processEvents (runISR (cycles (reverseCycle ph) k) s)).lastProcessedEncoderCount)) := by
  have hf := (cycles_forward ph k s h).2
  have hr := (cycles_reverse ph k s h).2
  refine ⟨hf, hr, ?_, ?_, ?_⟩
  · obtain ⟨a, b⟩ := ph
    cases a <;> cases b <;> simp [forwardCycle, reverseCycle, nextPhase, prevPhase, oneBitApart]
  · intro a b hab
    obtain ⟨a0, b0⟩ := ph
    rw [(handleEncoderISR_step a0 b0 a b s h).2]
    rcases hab with e | e
    · cases e
      cases a <;> cases b <;> simp [phaseOf, lookup_table]
    · cases e
      cases a0 <;> cases b0 <;> simp [phaseOf, lookup_table]
  · intro hk hzero
    constructor
    · obtain ⟨pre, hpre, hcalls, hrest⟩ := processEvents_turned s
        (runISR (cycles (forwardCycle ph) k) s) (4 * (k : Int)) (runISR_frame _ s) hf hzero
        (by omega)
      refine ⟨pre, hpre, ?_, ?_⟩
      · rw [hcalls]
        have e1 : (4 * (k : Int)).natAbs / 4 = k := by omega
        by_cases hk0 : k = 0
        · subst hk0; simp
        · have hpos : (0 : Int) < 4 * (k : Int) := by omega
          rw [e1, if_pos hpos]
      · have e2 : (4 * (k : Int)).natAbs % 4 = 0 := by omega
        rw [e2] at hrest
        omega
    · obtain ⟨pre, hpre, hcalls, hrest⟩ := processEvents_turned s
        (runISR (cycles (reverseCycle ph) k) s) (-(4 * (k : Int))) (runISR_frame _ s)
        (by rw [hr]; ring) hzero (by omega)
      refine ⟨pre, hpre, ?_, ?_⟩
      · rw [hcalls]
        have e1 : (-(4 * (k : Int))).natAbs / 4 = k := by omega
        have hneg : ¬ ((0 : Int) < -(4 * (k : Int))) := by omega
        rw [e1, if_neg hneg]
      · have e2 : (-(4 * (k : Int))).natAbs % 4 = 0 := by omega
        rw [e2] at hrest
        omega

set_option maxRecDepth 100000 in
/-- C8 at a concrete input: two full cycles from phase 00 at power-on, and the
pass that follows them. -/
theorem quadrature_cycles_witness :
    powerOn.encoderState = phaseOf false false ∧
    (runISR (cycles (forwardCycle (false, false)) 2) powerOn).encoderCount = 8 ∧
    (runISR (cycles (reverseCycle (false, false)) 2) powerOn).encoderCount = -8 ∧
    cycles (forwardCycle (false, false)) 1
      = [(false, true), (true, true), (true, false), (false, false)] ∧
    (processEvents (runISR (cycles (forwardCycle (false, false)) 2) powerOn)).calls
      = [(⟨ENCODER_CW_INDEX, by decide⟩, true), (⟨ENCODER_CW_INDEX, by decide⟩, true)] ∧
    (processEvents (runISR (cycles (reverseCycle (false, false)) 2) powerOn)).calls
      = [(⟨ENCODER_CCW_INDEX, by decide⟩, true), (⟨ENCODER_CCW_INDEX, by decide⟩, true)] ∧
    (∃ pre : List (Fin 13 × Bool),
      (∀ e ∈ pre, e.1.val < NUM_KEYS ∨ e.1.val = ENCODER_SW_INDEX) ∧
      (processEvents (runISR (cycles (forwardCycle (false, false)) 2) powerOn)).calls
        = powerOn.calls ++ pre ++ List.replicate 2 (cwIndex powerOn, true) ∧
      (processEvents (runISR (cycles (forwardCycle (false, false)) 2) powerOn)).encoderCount
        = (processEvents (runISR (cycles (forwardCycle (false, false)) 2) powerOn)
            ).lastProcessedEncoderCount) := by
  have h := quadrature_cycles (false, false) 2 powerOn (by decide)
  refine ⟨by decide, ?_, ?_, by decide, by decide, by decide,
    (h.2.2.2.2 (by decide) (by decide)).1⟩
  · rw [h.1]; decide
  · rw [h.2.1]; decide

set_option maxRecDepth 100000 in
/-- C8 as stated fails once the detents no longer fit the 16-bit `int steps`:
after 65537 full forward cycles from power-on the accumulator holds 262148
ticks, and the `processEvents` pass that follows calls `executeMapping` once,
not 65537 times, and leaves 262144 ticks unconsumed. -/
theorem quadrature_cycles_counterexample :
    (runISR (cycles (forwardCycle (false, false)) 65537) powerOn).encoderCount = 262148 ∧
    (processEvents (runISR (cycles (forwardCycle (false, false)) 65537) powerOn)).calls
      = [(⟨ENCODER_CW_INDEX, by decide⟩, true)] ∧
    (processEvents (runISR (cycles (forwardCycle (false, false)) 65537) powerOn)).encoderCount
      - (processEvents (runISR (cycles (forwardCycle (false, false)) 65537) powerOn)
          ).lastProcessedEncoderCount = 262144 := by
  have hc := cycles_forward (false, false) 65537 powerOn (by decide)
  have hstate : runISR (cycles (forwardCycle (false, false)) 65537) powerOn = farTurned := by
    rw [runISR_frame, hc.1, hc.2]
    rfl
  rw [hstate]
  refine ⟨by decide, by decide, by decide⟩

end Firmware
